import Mathlib

/-!
# AutoParseTreeVisitor: the list traversal driver and the handler chain

Shallow embedding of `AutoParseTreeVisitor::VisitList`
(`src/vb/language/compiler/parser/autoparsetreevisitor.h`, lines 430-442):

```
template <class ElementType, class ListType, class visit_function>
void VisitList(ParseTree::List<ElementType, ListType> * pList, visit_function visit_func)
{
    while (pList)
    {
        VisitParseTreeNodeBase(pList);
        if (pList->Element)
        {
            (this->*visit_func)(pList->Element);
        }
        pList = pList->Next;
    }
}
```

Tree memory is an explicit heap, pointers are addresses with `0` as null, the
two virtual calls are parameters acting on the memory and on the visitor
object, and the `while` loop is a fuelled tail-recursive function (the list in
memory may be cyclic, in which case the loop does not end).  Three ghost
fields observe the execution: the sequence of handler calls made, the stack
depth at which each one is issued, and the number of completed loop bodies.
-/

namespace AutoParseTreeVisitor

/-- A pointer into tree memory; `0` is the null pointer. -/
abbrev Ptr := Nat

/-- The two fields of `ParseTree::List<ElementType, ListType>` that `VisitList`
reads: the element slot and the link to the tail. -/
structure ListNode where
  Element : Ptr
  Next : Ptr
deriving DecidableEq, Repr

/-- Tree memory: the list node stored at each address. -/
abbrev Heap := Ptr → ListNode

/-- Everything a handler can read or write: the tree memory and the state of
the visitor object (`this`), whose type `σ` is chosen by the consumer. -/
structure Mem (σ : Type) where
  heap : Heap
  visitor : σ

/-- How a call ends: it returns, or it raises `e`; in both cases the state
reached so far is kept. -/
inductive Outcome (ε α : Type) where
  | returned (a : α) : Outcome ε α
  | raised (e : ε) (a : α) : Outcome ε α

/-- The state carried by an outcome. -/
def Outcome.state {ε α : Type} : Outcome ε α → α
  | .returned a => a
  | .raised _ a => a

/-- Whether the call returned normally. -/
def Outcome.isReturned {ε α : Type} : Outcome ε α → Bool
  | .returned _ => true
  | .raised _ _ => false

/-- Sequencing of calls: the continuation runs only after a normal return; a
raised error passes through with the state it was raised in. -/
def Outcome.andThen {ε α : Type} (o : Outcome ε α) (k : α → Outcome ε α) : Outcome ε α :=
  match o with
  | .returned a => k a
  | .raised e a => .raised e a

/-- The callees that occur in the body of `VisitList`. -/
inductive Callee where
  | VisitParseTreeNodeBase
  | visit_func
deriving DecidableEq, Repr

/-- One observed call: which handler, on which pointer, at which stack depth. -/
structure Call where
  callee : Callee
  arg : Ptr
  depth : Nat
deriving DecidableEq, Repr

/-- The virtual `VisitParseTreeNodeBase` of the visitor object and the
member-function pointer `visit_func` passed by the caller. -/
structure Handlers (ε σ : Type) where
  VisitParseTreeNodeBase : Ptr → Mem σ → Outcome ε (Mem σ)
  visit_func : Ptr → Mem σ → Outcome ε (Mem σ)

/-- The local variable `pList`, the memory, and the ghost observations. -/
structure LoopState (σ : Type) where
  pList : Ptr
  mem : Mem σ
  calls : List Call
  iterations : Nat

/-- A call `f(arg)` issued from the frame at `depth`: it is logged, runs one
frame deeper, and leaves `pList` alone. -/
def invoke {ε σ : Type} (f : Ptr → Mem σ → Outcome ε (Mem σ)) (c : Callee) (depth : Nat)
    (arg : Ptr) (st : LoopState σ) : Outcome ε (LoopState σ) :=
  let logged := st.calls ++ [⟨c, arg, depth + 1⟩]
  match f arg st.mem with
  | .returned m => .returned ⟨st.pList, m, logged, st.iterations⟩
  | .raised e m => .raised e ⟨st.pList, m, logged, st.iterations⟩

/-- The body of the `while` loop, entered with `pList` non-null. -/
def VisitList_body {ε σ : Type} (h : Handlers ε σ) (depth : Nat) (st : LoopState σ) :
    Outcome ε (LoopState σ) :=
  -- VisitParseTreeNodeBase(pList);
  (invoke h.VisitParseTreeNodeBase .VisitParseTreeNodeBase depth st.pList st).andThen fun st1 =>
    -- if (pList->Element) { (this->*visit_func)(pList->Element); }
    (if (st1.mem.heap st1.pList).Element ≠ 0 then
      invoke h.visit_func .visit_func depth (st1.mem.heap st1.pList).Element st1
    else
      .returned st1).andThen fun st2 =>
      -- pList = pList->Next;
      .returned ⟨(st2.mem.heap st2.pList).Next, st2.mem, st2.calls, st2.iterations + 1⟩

/-- The `while (pList)` loop; `fuel` bounds the number of times the condition
is tested, and `none` means the bound was hit before the loop ended. -/
def VisitList_loop {ε σ : Type} (h : Handlers ε σ) (depth : Nat) :
    Nat → LoopState σ → Option (Outcome ε (LoopState σ))
  | 0, _ => none
  | fuel + 1, st =>
    if st.pList = 0 then
      some (.returned st)
    else
      match VisitList_body h depth st with
      | .returned st1 => VisitList_loop h depth fuel st1
      | .raised e st1 => some (.raised e st1)

/-- `VisitList(pList, visit_func)` called in the frame at `depth`: the
parameter `pList` is a by-value copy of the reference of the caller. -/
def VisitList {ε σ : Type} (h : Handlers ε σ) (depth fuel : Nat) (pList : Ptr) (mem : Mem σ) :
    Option (Outcome ε (LoopState σ)) :=
  VisitList_loop h depth fuel ⟨pList, mem, [], 0⟩

/-! ### Vocabulary of the statements -/

/-- The pointer `p` denotes, in `heap`, the finite list whose nodes are
`nodes` from head to tail, the last `Next` being null.  A cyclic chain
denotes no list. -/
def IsList (heap : Heap) : Ptr → List Ptr → Prop
  | p, [] => p = 0
  | p, q :: rest => p ≠ 0 ∧ p = q ∧ IsList heap (heap p).Next rest

instance IsList.decide (heap : Heap) : (p : Ptr) → (nodes : List Ptr) → Decidable (IsList heap p nodes)
  | p, [] => inferInstanceAs (Decidable (p = 0))
  | p, q :: rest =>
    have := IsList.decide heap (heap p).Next rest
    inferInstanceAs (Decidable (p ≠ 0 ∧ p = q ∧ IsList heap (heap p).Next rest))

/-- Neither handler writes to tree memory, whether it returns or raises. -/
def Handlers.ReadOnly {ε σ : Type} (h : Handlers ε σ) : Prop :=
  ∀ (p : Ptr) (m : Mem σ),
    (h.VisitParseTreeNodeBase p m).state.heap = m.heap ∧ (h.visit_func p m).state.heap = m.heap

/-- Both handlers return normally on every input. -/
def Handlers.Returns {ε σ : Type} (h : Handlers ε σ) : Prop :=
  ∀ (p : Ptr) (m : Mem σ),
    (h.VisitParseTreeNodeBase p m).isReturned = true ∧ (h.visit_func p m).isReturned = true

/-- The calls of one loop body on node `p`: the list node itself, then its
element when the slot is non-empty. -/
def nodeCalls (heap : Heap) (depth : Nat) (p : Ptr) : List Call :=
  ⟨.VisitParseTreeNodeBase, p, depth + 1⟩ ::
    (if (heap p).Element ≠ 0 then [⟨.visit_func, (heap p).Element, depth + 1⟩] else [])

/-- The arguments of the `visit_func` calls of a trace, in order. -/
def elementVisits (calls : List Call) : List Ptr :=
  (calls.filter (fun c => c.callee = .visit_func)).map Call.arg

/-- The arguments of the `VisitParseTreeNodeBase` calls of a trace, in order. -/
def nodeVisits (calls : List Call) : List Ptr :=
  (calls.filter (fun c => c.callee = .VisitParseTreeNodeBase)).map Call.arg

/-- The non-empty element slots of the nodes, in list order. -/
def elementsOf (heap : Heap) (nodes : List Ptr) : List Ptr :=
  (nodes.map (fun p => (heap p).Element)).filter (fun e => e ≠ 0)

/-! ### Example data -/

/-- A visitor that pushes every pointer it is handed onto its own log. -/
def recorder : Handlers Unit (List Ptr) where
  VisitParseTreeNodeBase := fun p m => .returned ⟨m.heap, m.visitor ++ [p]⟩
  visit_func := fun e m => .returned ⟨m.heap, m.visitor ++ [e]⟩

/-- A visitor that only counts its calls. -/
def counter : Handlers Unit Nat where
  VisitParseTreeNodeBase := fun _ m => .returned ⟨m.heap, m.visitor + 1⟩
  visit_func := fun _ m => .returned ⟨m.heap, m.visitor + 100⟩

/-- Three list nodes at addresses 1, 2, 3 with elements 10, none, 30. -/
def heap3 : Heap := fun p =>
  if p = 1 then ⟨10, 2⟩ else if p = 2 then ⟨0, 3⟩ else if p = 3 then ⟨30, 0⟩ else ⟨0, 0⟩

/-! ## The handler table and the fallback chain

The class declares `Default`, the family handlers `Visit…Base` and one leaf
handler per node kind (`autoparsetreevisitor.h`, lines 9-426).  The header
gives the declarations only; the table below lists them in declaration order.
-/

/-- The level of a handler in the fallback chain, read off its name: the
universal `Default`, a family handler `Visit…Base`, or a leaf handler. -/
inductive Role where
  | universal
  | base
  | leaf
deriving DecidableEq, Repr

/-- One `virtual void` declaration: the name of the handler, the type its
parameter points to, and its level. -/
structure HandlerDecl where
  name : String
  param : String
  role : Role
deriving DecidableEq, Repr

/-- The declarations of `AutoParseTreeVisitor`, in the order of the header. -/
def handlerTable : List HandlerDecl := [
  HandlerDecl.mk "Default" "void" Role.universal,
  HandlerDecl.mk "VisitPropertyStatementBase" "ParseTree::PropertyStatement" Role.base,
  HandlerDecl.mk "VisitStatementBase" "ParseTree::Statement" Role.base,
  HandlerDecl.mk "VisitParseTreeNodeBase" "ParseTree::ParseTreeNode" Role.base,
  HandlerDecl.mk "VisitExpressionBase" "ParseTree::Expression" Role.base,
  HandlerDecl.mk "VisitNameBase" "ParseTree::Name" Role.base,
  HandlerDecl.mk "VisitTypeBase" "ParseTree::Type" Role.base,
  HandlerDecl.mk "VisitConstraintBase" "ParseTree::Constraint" Role.base,
  HandlerDecl.mk "VisitVariableDeclarationBase" "ParseTree::VariableDeclaration" Role.base,
  HandlerDecl.mk "VisitCaseBase" "ParseTree::Case" Role.base,
  HandlerDecl.mk "VisitExpressionStatementBase" "ParseTree::ExpressionStatement" Role.base,
  HandlerDecl.mk "VisitBlockStatementBase" "ParseTree::BlockStatement" Role.base,
  HandlerDecl.mk "VisitTypeStatementBase" "ParseTree::TypeStatement" Role.base,
  HandlerDecl.mk "VisitMethodSignatureStatementBase" "ParseTree::MethodSignatureStatement" Role.base,
  HandlerDecl.mk "VisitMethodDeclarationStatementBase" "ParseTree::MethodDeclarationStatement" Role.base,
  HandlerDecl.mk "VisitMethodDefinitionStatementBase" "ParseTree::MethodDefinitionStatement" Role.base,
  HandlerDecl.mk "VisitTypeValueExpressionBase" "ParseTree::TypeValueExpression" Role.base,
  HandlerDecl.mk "VisitBinaryExpressionBase" "ParseTree::BinaryExpression" Role.base,
  HandlerDecl.mk "VisitArrayInitializerExpressionBase" "ParseTree::ArrayInitializerExpression" Role.base,
  HandlerDecl.mk "VisitSimpleNameBase" "ParseTree::SimpleName" Role.base,
  HandlerDecl.mk "VisitQualifiedNameBase" "ParseTree::QualifiedName" Role.base,
  HandlerDecl.mk "VisitHandlerStatementBase" "ParseTree::HandlerStatement" Role.base,
  HandlerDecl.mk "VisitUnaryExpressionBase" "ParseTree::UnaryExpression" Role.base,
  HandlerDecl.mk "VisitQualifiedExpressionBase" "ParseTree::QualifiedExpression" Role.base,
  HandlerDecl.mk "VisitXmlExpressionBase" "ParseTree::XmlExpression" Role.base,
  HandlerDecl.mk "VisitFromExpressionBase" "ParseTree::FromExpression" Role.base,
  HandlerDecl.mk "VisitLinqOperatorExpressionBase" "ParseTree::LinqOperatorExpression" Role.base,
  HandlerDecl.mk "VisitFilterExpressionBase" "ParseTree::FilterExpression" Role.base,
  HandlerDecl.mk "VisitInnerJoinExpressionBase" "ParseTree::InnerJoinExpression" Role.base,
  HandlerDecl.mk "VisitSkipTakeExpressionBase" "ParseTree::SkipTakeExpression" Role.base,
  HandlerDecl.mk "VisitObjectInitializerExpressionBase" "ParseTree::ObjectInitializerExpression" Role.base,
  HandlerDecl.mk "VisitArrayTypeBase" "ParseTree::ArrayType" Role.base,
  HandlerDecl.mk "VisitImportDirectiveBase" "ParseTree::ImportDirective" Role.base,
  HandlerDecl.mk "VisitNamespaceImportDirectiveBase" "ParseTree::NamespaceImportDirective" Role.base,
  HandlerDecl.mk "VisitInitializerBase" "ParseTree::Initializer" Role.base,
  HandlerDecl.mk "VisitForeignMethodDeclarationStatementBase" "ParseTree::ForeignMethodDeclarationStatement" Role.base,
  HandlerDecl.mk "VisitEnumeratorStatementBase" "ParseTree::EnumeratorStatement" Role.base,
  HandlerDecl.mk "VisitTypeListStatementBase" "ParseTree::TypeListStatement" Role.base,
  HandlerDecl.mk "VisitExecutableBlockStatementBase" "ParseTree::ExecutableBlockStatement" Role.base,
  HandlerDecl.mk "VisitExpressionBlockStatementBase" "ParseTree::ExpressionBlockStatement" Role.base,
  HandlerDecl.mk "VisitForStatementBase" "ParseTree::ForStatement" Role.base,
  HandlerDecl.mk "VisitAssignStatementBase" "ParseTree::AssignmentStatement" Role.base,
  HandlerDecl.mk "VisitSyntaxErrorStatement" "ParseTree::Statement" Role.leaf,
  HandlerDecl.mk "VisitEmptyStatement" "ParseTree::Statement" Role.leaf,
  HandlerDecl.mk "VisitCCConstStatement" "ParseTree::CCConstStatement" Role.leaf,
  HandlerDecl.mk "VisitCCBranchStatement" "ParseTree::CCBranchStatement" Role.leaf,
  HandlerDecl.mk "VisitCCIfStatement" "ParseTree::CCIfStatement" Role.leaf,
  HandlerDecl.mk "VisitCCElseIfStatement" "ParseTree::CCIfStatement" Role.leaf,
  HandlerDecl.mk "VisitCCElseStatement" "ParseTree::CCElseStatement" Role.leaf,
  HandlerDecl.mk "VisitCCEndIfStatement" "ParseTree::CCEndStatement" Role.leaf,
  HandlerDecl.mk "VisitRegionStatement" "ParseTree::RegionStatement" Role.leaf,
  HandlerDecl.mk "VisitStructureStatement" "ParseTree::TypeStatement" Role.leaf,
  HandlerDecl.mk "VisitEnumStatement" "ParseTree::EnumTypeStatement" Role.leaf,
  HandlerDecl.mk "VisitInterfaceStatement" "ParseTree::TypeStatement" Role.leaf,
  HandlerDecl.mk "VisitClassStatement" "ParseTree::TypeStatement" Role.leaf,
  HandlerDecl.mk "VisitModuleStatement" "ParseTree::TypeStatement" Role.leaf,
  HandlerDecl.mk "VisitNamespaceStatement" "ParseTree::NamespaceStatement" Role.leaf,
  HandlerDecl.mk "VisitProcedureDeclarationStatement" "ParseTree::MethodDefinitionStatement" Role.leaf,
  HandlerDecl.mk "VisitFunctionDeclarationStatement" "ParseTree::MethodDefinitionStatement" Role.leaf,
  HandlerDecl.mk "VisitConstructorDeclarationStatement" "ParseTree::MethodDefinitionStatement" Role.leaf,
  HandlerDecl.mk "VisitOperatorDeclarationStatement" "ParseTree::OperatorDefinitionStatement" Role.leaf,
  HandlerDecl.mk "VisitDelegateProcedureDeclarationStatement" "ParseTree::DelegateDeclarationStatement" Role.leaf,
  HandlerDecl.mk "VisitDelegateFunctionDeclarationStatement" "ParseTree::DelegateDeclarationStatement" Role.leaf,
  HandlerDecl.mk "VisitEventDeclarationStatement" "ParseTree::EventDeclarationStatement" Role.leaf,
  HandlerDecl.mk "VisitBlockEventDeclarationStatement" "ParseTree::BlockEventDeclarationStatement" Role.leaf,
  HandlerDecl.mk "VisitAddHandlerDeclarationStatement" "ParseTree::MethodDefinitionStatement" Role.leaf,
  HandlerDecl.mk "VisitRemoveHandlerDeclarationStatement" "ParseTree::MethodDefinitionStatement" Role.leaf,
  HandlerDecl.mk "VisitRaiseEventDeclarationStatement" "ParseTree::MethodDefinitionStatement" Role.leaf,
  HandlerDecl.mk "VisitForeignProcedureDeclarationStatement" "ParseTree::ForeignMethodDeclarationStatement" Role.leaf,
  HandlerDecl.mk "VisitForeignFunctionDeclarationStatement" "ParseTree::ForeignMethodDeclarationStatement" Role.leaf,
  HandlerDecl.mk "VisitForeignFunctionNoneStatement" "ParseTree::ForeignMethodDeclarationStatement" Role.leaf,
  HandlerDecl.mk "VisitPropertyStatement" "ParseTree::PropertyStatement" Role.leaf,
  HandlerDecl.mk "VisitAutoPropertyStatement" "ParseTree::AutoPropertyStatement" Role.leaf,
  HandlerDecl.mk "VisitPropertyGetStatement" "ParseTree::MethodDefinitionStatement" Role.leaf,
  HandlerDecl.mk "VisitPropertySetStatement" "ParseTree::MethodDefinitionStatement" Role.leaf,
  HandlerDecl.mk "VisitEnumeratorStatement" "ParseTree::EnumeratorStatement" Role.leaf,
  HandlerDecl.mk "VisitEnumeratorWithValueStatement" "ParseTree::EnumeratorWithValueStatement" Role.leaf,
  HandlerDecl.mk "VisitVariableDeclarationStatement" "ParseTree::VariableDeclarationStatement" Role.leaf,
  HandlerDecl.mk "VisitImplementsStatement" "ParseTree::TypeListStatement" Role.leaf,
  HandlerDecl.mk "VisitInheritsStatement" "ParseTree::TypeListStatement" Role.leaf,
  HandlerDecl.mk "VisitImportsStatement" "ParseTree::ImportsStatement" Role.leaf,
  HandlerDecl.mk "VisitOptionUnknownStatement" "ParseTree::OptionStatement" Role.leaf,
  HandlerDecl.mk "VisitOptionInvalidStatement" "ParseTree::OptionStatement" Role.leaf,
  HandlerDecl.mk "VisitOptionCompareNoneStatement" "ParseTree::OptionStatement" Role.leaf,
  HandlerDecl.mk "VisitOptionCompareTextStatement" "ParseTree::OptionStatement" Role.leaf,
  HandlerDecl.mk "VisitOptionCompareBinaryStatement" "ParseTree::OptionStatement" Role.leaf,
  HandlerDecl.mk "VisitOptionExplicitOnStatement" "ParseTree::OptionStatement" Role.leaf,
  HandlerDecl.mk "VisitOptionExplicitOffStatement" "ParseTree::OptionStatement" Role.leaf,
  HandlerDecl.mk "VisitOptionStrictOnStatement" "ParseTree::OptionStatement" Role.leaf,
  HandlerDecl.mk "VisitOptionStrictOffStatement" "ParseTree::OptionStatement" Role.leaf,
  HandlerDecl.mk "VisitOptionInferOnStatement" "ParseTree::OptionStatement" Role.leaf,
  HandlerDecl.mk "VisitOptionInferOffStatement" "ParseTree::OptionStatement" Role.leaf,
  HandlerDecl.mk "VisitAttributeStatement" "ParseTree::AttributeStatement" Role.leaf,
  HandlerDecl.mk "VisitFileStatement" "ParseTree::FileBlockStatement" Role.leaf,
  HandlerDecl.mk "VisitProcedureBodyStatement" "ParseTree::MethodBodyStatement" Role.leaf,
  HandlerDecl.mk "VisitPropertyGetBodyStatement" "ParseTree::MethodBodyStatement" Role.leaf,
  HandlerDecl.mk "VisitPropertySetBodyStatement" "ParseTree::MethodBodyStatement" Role.leaf,
  HandlerDecl.mk "VisitFunctionBodyStatement" "ParseTree::MethodBodyStatement" Role.leaf,
  HandlerDecl.mk "VisitOperatorBodyStatement" "ParseTree::MethodBodyStatement" Role.leaf,
  HandlerDecl.mk "VisitAddHandlerBodyStatement" "ParseTree::MethodBodyStatement" Role.leaf,
  HandlerDecl.mk "VisitRemoveHandlerBodyStatement" "ParseTree::MethodBodyStatement" Role.leaf,
  HandlerDecl.mk "VisitRaiseEventBodyStatement" "ParseTree::MethodBodyStatement" Role.leaf,
  HandlerDecl.mk "VisitLambdaBodyStatement" "ParseTree::LambdaBodyStatement" Role.leaf,
  HandlerDecl.mk "VisitHiddenBlockStatement" "ParseTree::HiddenBlockStatement" Role.leaf,
  HandlerDecl.mk "VisitCommentBlockStatement" "ParseTree::CommentBlockStatement" Role.leaf,
  HandlerDecl.mk "VisitBlockIfStatement" "ParseTree::IfStatement" Role.leaf,
  HandlerDecl.mk "VisitLineIfStatement" "ParseTree::IfStatement" Role.leaf,
  HandlerDecl.mk "VisitElseIfStatement" "ParseTree::ElseIfStatement" Role.leaf,
  HandlerDecl.mk "VisitBlockElseStatement" "ParseTree::ElseStatement" Role.leaf,
  HandlerDecl.mk "VisitLineElseStatement" "ParseTree::ElseStatement" Role.leaf,
  HandlerDecl.mk "VisitSelectStatement" "ParseTree::SelectStatement" Role.leaf,
  HandlerDecl.mk "VisitCaseStatement" "ParseTree::CaseStatement" Role.leaf,
  HandlerDecl.mk "VisitCaseElseStatement" "ParseTree::ExecutableBlockStatement" Role.leaf,
  HandlerDecl.mk "VisitTryStatement" "ParseTree::ExecutableBlockStatement" Role.leaf,
  HandlerDecl.mk "VisitCatchStatement" "ParseTree::CatchStatement" Role.leaf,
  HandlerDecl.mk "VisitFinallyStatement" "ParseTree::FinallyStatement" Role.leaf,
  HandlerDecl.mk "VisitForFromToStatement" "ParseTree::ForFromToStatement" Role.leaf,
  HandlerDecl.mk "VisitForEachInStatement" "ParseTree::ForEachInStatement" Role.leaf,
  HandlerDecl.mk "VisitWhileStatement" "ParseTree::ExpressionBlockStatement" Role.leaf,
  HandlerDecl.mk "VisitDoWhileTopTestStatement" "ParseTree::TopTestDoStatement" Role.leaf,
  HandlerDecl.mk "VisitDoUntilTopTestStatement" "ParseTree::TopTestDoStatement" Role.leaf,
  HandlerDecl.mk "VisitDoWhileBottomTestStatement" "ParseTree::ExpressionBlockStatement" Role.leaf,
  HandlerDecl.mk "VisitDoUntilBottomTestStatement" "ParseTree::ExpressionBlockStatement" Role.leaf,
  HandlerDecl.mk "VisitDoForeverStatement" "ParseTree::ExpressionBlockStatement" Role.leaf,
  HandlerDecl.mk "VisitUsingStatement" "ParseTree::UsingStatement" Role.leaf,
  HandlerDecl.mk "VisitWithStatement" "ParseTree::ExpressionBlockStatement" Role.leaf,
  HandlerDecl.mk "VisitEndIfStatement" "ParseTree::EndBlockStatement" Role.leaf,
  HandlerDecl.mk "VisitEndUsingStatement" "ParseTree::EndBlockStatement" Role.leaf,
  HandlerDecl.mk "VisitEndWithStatement" "ParseTree::EndBlockStatement" Role.leaf,
  HandlerDecl.mk "VisitEndSelectStatement" "ParseTree::EndBlockStatement" Role.leaf,
  HandlerDecl.mk "VisitEndStructureStatement" "ParseTree::EndBlockStatement" Role.leaf,
  HandlerDecl.mk "VisitEndEnumStatement" "ParseTree::EndBlockStatement" Role.leaf,
  HandlerDecl.mk "VisitEndInterfaceStatement" "ParseTree::EndBlockStatement" Role.leaf,
  HandlerDecl.mk "VisitEndClassStatement" "ParseTree::EndBlockStatement" Role.leaf,
  HandlerDecl.mk "VisitEndModuleStatement" "ParseTree::EndBlockStatement" Role.leaf,
  HandlerDecl.mk "VisitEndNamespaceStatement" "ParseTree::EndBlockStatement" Role.leaf,
  HandlerDecl.mk "VisitEndSubStatement" "ParseTree::EndBlockStatement" Role.leaf,
  HandlerDecl.mk "VisitEndFunctionStatement" "ParseTree::EndBlockStatement" Role.leaf,
  HandlerDecl.mk "VisitEndGetStatement" "ParseTree::EndBlockStatement" Role.leaf,
  HandlerDecl.mk "VisitEndSetStatement" "ParseTree::EndBlockStatement" Role.leaf,
  HandlerDecl.mk "VisitEndPropertyStatement" "ParseTree::EndBlockStatement" Role.leaf,
  HandlerDecl.mk "VisitEndOperatorStatement" "ParseTree::EndBlockStatement" Role.leaf,
  HandlerDecl.mk "VisitEndEventStatement" "ParseTree::EndBlockStatement" Role.leaf,
  HandlerDecl.mk "VisitEndAddHandlerStatement" "ParseTree::EndBlockStatement" Role.leaf,
  HandlerDecl.mk "VisitEndRemoveHandlerStatement" "ParseTree::EndBlockStatement" Role.leaf,
  HandlerDecl.mk "VisitEndRaiseEventStatement" "ParseTree::EndBlockStatement" Role.leaf,
  HandlerDecl.mk "VisitEndNextStatement" "ParseTree::EndNextStatement" Role.leaf,
  HandlerDecl.mk "VisitEndWhileStatement" "ParseTree::EndBlockStatement" Role.leaf,
  HandlerDecl.mk "VisitEndLoopWhileStatement" "ParseTree::BottomTestLoopStatement" Role.leaf,
  HandlerDecl.mk "VisitEndLoopUntilStatement" "ParseTree::BottomTestLoopStatement" Role.leaf,
  HandlerDecl.mk "VisitEndLoopStatement" "ParseTree::EndBlockStatement" Role.leaf,
  HandlerDecl.mk "VisitEndTryStatement" "ParseTree::EndBlockStatement" Role.leaf,
  HandlerDecl.mk "VisitEndSyncLockStatement" "ParseTree::EndBlockStatement" Role.leaf,
  HandlerDecl.mk "VisitEndRegionStatement" "ParseTree::CCEndStatement" Role.leaf,
  HandlerDecl.mk "VisitEndCommentBlockStatement" "ParseTree::Statement" Role.leaf,
  HandlerDecl.mk "VisitEndUnknownStatement" "ParseTree::EndBlockStatement" Role.leaf,
  HandlerDecl.mk "VisitEndInvalidStatement" "ParseTree::EndBlockStatement" Role.leaf,
  HandlerDecl.mk "VisitLabelStatement" "ParseTree::LabelReferenceStatement" Role.leaf,
  HandlerDecl.mk "VisitGotoStatement" "ParseTree::LabelReferenceStatement" Role.leaf,
  HandlerDecl.mk "VisitReturnStatement" "ParseTree::ExpressionStatement" Role.leaf,
  HandlerDecl.mk "VisitOnErrorStatement" "ParseTree::OnErrorStatement" Role.leaf,
  HandlerDecl.mk "VisitResumeStatement" "ParseTree::ResumeStatement" Role.leaf,
  HandlerDecl.mk "VisitCallStatement" "ParseTree::CallStatement" Role.leaf,
  HandlerDecl.mk "VisitRaiseEventStatement" "ParseTree::RaiseEventStatement" Role.leaf,
  HandlerDecl.mk "VisitAssignStatement" "ParseTree::AssignmentStatement" Role.leaf,
  HandlerDecl.mk "VisitAssignPlusStatement" "ParseTree::AssignmentStatement" Role.leaf,
  HandlerDecl.mk "VisitAssignMinusStatement" "ParseTree::AssignmentStatement" Role.leaf,
  HandlerDecl.mk "VisitAssignMultiplyStatement" "ParseTree::AssignmentStatement" Role.leaf,
  HandlerDecl.mk "VisitAssignDivideStatement" "ParseTree::AssignmentStatement" Role.leaf,
  HandlerDecl.mk "VisitAssignPowerStatement" "ParseTree::AssignmentStatement" Role.leaf,
  HandlerDecl.mk "VisitAssignIntegralDivideStatement" "ParseTree::AssignmentStatement" Role.leaf,
  HandlerDecl.mk "VisitAssignConcatenateStatement" "ParseTree::AssignmentStatement" Role.leaf,
  HandlerDecl.mk "VisitAssignShiftLeftStatement" "ParseTree::AssignmentStatement" Role.leaf,
  HandlerDecl.mk "VisitAssignShiftRightStatement" "ParseTree::AssignmentStatement" Role.leaf,
  HandlerDecl.mk "VisitStopStatement" "ParseTree::Statement" Role.leaf,
  HandlerDecl.mk "VisitEndStatement" "ParseTree::Statement" Role.leaf,
  HandlerDecl.mk "VisitContinueDoStatement" "ParseTree::Statement" Role.leaf,
  HandlerDecl.mk "VisitContinueForStatement" "ParseTree::Statement" Role.leaf,
  HandlerDecl.mk "VisitContinueWhileStatement" "ParseTree::Statement" Role.leaf,
  HandlerDecl.mk "VisitContinueUnknownStatement" "ParseTree::Statement" Role.leaf,
  HandlerDecl.mk "VisitContinueInvalidStatement" "ParseTree::Statement" Role.leaf,
  HandlerDecl.mk "VisitExitDoStatement" "ParseTree::Statement" Role.leaf,
  HandlerDecl.mk "VisitExitForStatement" "ParseTree::Statement" Role.leaf,
  HandlerDecl.mk "VisitExitSubStatement" "ParseTree::Statement" Role.leaf,
  HandlerDecl.mk "VisitExitFunctionStatement" "ParseTree::Statement" Role.leaf,
  HandlerDecl.mk "VisitExitOperatorStatement" "ParseTree::Statement" Role.leaf,
  HandlerDecl.mk "VisitExitPropertyStatement" "ParseTree::Statement" Role.leaf,
  HandlerDecl.mk "VisitExitTryStatement" "ParseTree::Statement" Role.leaf,
  HandlerDecl.mk "VisitExitSelectStatement" "ParseTree::Statement" Role.leaf,
  HandlerDecl.mk "VisitExitWhileStatement" "ParseTree::Statement" Role.leaf,
  HandlerDecl.mk "VisitExitUnknownStatement" "ParseTree::Statement" Role.leaf,
  HandlerDecl.mk "VisitExitInvalidStatement" "ParseTree::Statement" Role.leaf,
  HandlerDecl.mk "VisitAssignMidStatement" "ParseTree::AssignMidStatement" Role.leaf,
  HandlerDecl.mk "VisitEraseStatement" "ParseTree::EraseStatement" Role.leaf,
  HandlerDecl.mk "VisitErrorStatement" "ParseTree::ExpressionStatement" Role.leaf,
  HandlerDecl.mk "VisitThrowStatement" "ParseTree::ExpressionStatement" Role.leaf,
  HandlerDecl.mk "VisitRedimStatement" "ParseTree::RedimStatement" Role.leaf,
  HandlerDecl.mk "VisitAddHandlerStatement" "ParseTree::HandlerStatement" Role.leaf,
  HandlerDecl.mk "VisitRemoveHandlerStatement" "ParseTree::HandlerStatement" Role.leaf,
  HandlerDecl.mk "VisitSyncLockStatement" "ParseTree::ExpressionBlockStatement" Role.leaf,
  HandlerDecl.mk "VisitYieldStatement" "ParseTree::ExpressionStatement" Role.leaf,
  HandlerDecl.mk "VisitAwaitStatement" "ParseTree::ExpressionStatement" Role.leaf,
  HandlerDecl.mk "VisitSyntaxErrorExpression" "ParseTree::Expression" Role.leaf,
  HandlerDecl.mk "VisitNameExpression" "ParseTree::NameExpression" Role.leaf,
  HandlerDecl.mk "VisitMeExpression" "ParseTree::Expression" Role.leaf,
  HandlerDecl.mk "VisitMyBaseExpression" "ParseTree::Expression" Role.leaf,
  HandlerDecl.mk "VisitMyClassExpression" "ParseTree::Expression" Role.leaf,
  HandlerDecl.mk "VisitGlobalNameSpaceExpression" "ParseTree::Expression" Role.leaf,
  HandlerDecl.mk "VisitParenthesizedExpression" "ParseTree::ParenthesizedExpression" Role.leaf,
  HandlerDecl.mk "VisitCallOrIndexExpression" "ParseTree::CallOrIndexExpression" Role.leaf,
  HandlerDecl.mk "VisitDotQualifiedExpression" "ParseTree::QualifiedExpression" Role.leaf,
  HandlerDecl.mk "VisitBangQualifiedExpression" "ParseTree::QualifiedExpression" Role.leaf,
  HandlerDecl.mk "VisitXmlElementsQualifiedExpression" "ParseTree::QualifiedExpression" Role.leaf,
  HandlerDecl.mk "VisitXmlAttributeQualifiedExpression" "ParseTree::QualifiedExpression" Role.leaf,
  HandlerDecl.mk "VisitXmlDescendantsQualifiedExpression" "ParseTree::QualifiedExpression" Role.leaf,
  HandlerDecl.mk "VisitGenericQualifiedExpression" "ParseTree::GenericQualifiedExpression" Role.leaf,
  HandlerDecl.mk "VisitIntegralLiteralExpression" "ParseTree::IntegralLiteralExpression" Role.leaf,
  HandlerDecl.mk "VisitCharacterLiteralExpression" "ParseTree::CharacterLiteralExpression" Role.leaf,
  HandlerDecl.mk "VisitBooleanLiteralExpression" "ParseTree::BooleanLiteralExpression" Role.leaf,
  HandlerDecl.mk "VisitDecimalLiteralExpression" "ParseTree::DecimalLiteralExpression" Role.leaf,
  HandlerDecl.mk "VisitFloatingLiteralExpression" "ParseTree::FloatingLiteralExpression" Role.leaf,
  HandlerDecl.mk "VisitDateLiteralExpression" "ParseTree::DateLiteralExpression" Role.leaf,
  HandlerDecl.mk "VisitStringLiteralExpression" "ParseTree::StringLiteralExpression" Role.leaf,
  HandlerDecl.mk "VisitNothingExpression" "ParseTree::Expression" Role.leaf,
  HandlerDecl.mk "VisitCastBooleanExpression" "ParseTree::UnaryExpression" Role.leaf,
  HandlerDecl.mk "VisitCastCharacterExpression" "ParseTree::UnaryExpression" Role.leaf,
  HandlerDecl.mk "VisitCastDateExpression" "ParseTree::UnaryExpression" Role.leaf,
  HandlerDecl.mk "VisitCastDoubleExpression" "ParseTree::UnaryExpression" Role.leaf,
  HandlerDecl.mk "VisitCastSignedByteExpression" "ParseTree::UnaryExpression" Role.leaf,
  HandlerDecl.mk "VisitCastByteExpression" "ParseTree::UnaryExpression" Role.leaf,
  HandlerDecl.mk "VisitCastShortExpression" "ParseTree::UnaryExpression" Role.leaf,
  HandlerDecl.mk "VisitCastUnsignedShortExpression" "ParseTree::UnaryExpression" Role.leaf,
  HandlerDecl.mk "VisitCastIntegerExpression" "ParseTree::UnaryExpression" Role.leaf,
  HandlerDecl.mk "VisitCastUnsignedIntegerExpression" "ParseTree::UnaryExpression" Role.leaf,
  HandlerDecl.mk "VisitCastLongExpression" "ParseTree::UnaryExpression" Role.leaf,
  HandlerDecl.mk "VisitCastUnsignedLongExpression" "ParseTree::UnaryExpression" Role.leaf,
  HandlerDecl.mk "VisitCastDecimalExpression" "ParseTree::UnaryExpression" Role.leaf,
  HandlerDecl.mk "VisitCastSingleExpression" "ParseTree::UnaryExpression" Role.leaf,
  HandlerDecl.mk "VisitCastStringExpression" "ParseTree::UnaryExpression" Role.leaf,
  HandlerDecl.mk "VisitCastObjectExpression" "ParseTree::UnaryExpression" Role.leaf,
  HandlerDecl.mk "VisitConversionExpression" "ParseTree::ConversionExpression" Role.leaf,
  HandlerDecl.mk "VisitDirectCastExpression" "ParseTree::ConversionExpression" Role.leaf,
  HandlerDecl.mk "VisitTryCastExpression" "ParseTree::ConversionExpression" Role.leaf,
  HandlerDecl.mk "VisitNegateExpression" "ParseTree::UnaryExpression" Role.leaf,
  HandlerDecl.mk "VisitNotExpression" "ParseTree::UnaryExpression" Role.leaf,
  HandlerDecl.mk "VisitUnaryPlusExpression" "ParseTree::UnaryExpression" Role.leaf,
  HandlerDecl.mk "VisitAddressOfExpression" "ParseTree::UnaryExpression" Role.leaf,
  HandlerDecl.mk "VisitPlusExpression" "ParseTree::BinaryExpression" Role.leaf,
  HandlerDecl.mk "VisitMinusExpression" "ParseTree::BinaryExpression" Role.leaf,
  HandlerDecl.mk "VisitMultiplyExpression" "ParseTree::BinaryExpression" Role.leaf,
  HandlerDecl.mk "VisitDivideExpression" "ParseTree::BinaryExpression" Role.leaf,
  HandlerDecl.mk "VisitPowerExpression" "ParseTree::BinaryExpression" Role.leaf,
  HandlerDecl.mk "VisitIntegralDivideExpression" "ParseTree::BinaryExpression" Role.leaf,
  HandlerDecl.mk "VisitConcatenateExpression" "ParseTree::BinaryExpression" Role.leaf,
  HandlerDecl.mk "VisitShiftLeftExpression" "ParseTree::BinaryExpression" Role.leaf,
  HandlerDecl.mk "VisitShiftRightExpression" "ParseTree::BinaryExpression" Role.leaf,
  HandlerDecl.mk "VisitModulusExpression" "ParseTree::BinaryExpression" Role.leaf,
  HandlerDecl.mk "VisitOrExpression" "ParseTree::BinaryExpression" Role.leaf,
  HandlerDecl.mk "VisitOrElseExpression" "ParseTree::BinaryExpression" Role.leaf,
  HandlerDecl.mk "VisitXorExpression" "ParseTree::BinaryExpression" Role.leaf,
  HandlerDecl.mk "VisitAndExpression" "ParseTree::BinaryExpression" Role.leaf,
  HandlerDecl.mk "VisitAndAlsoExpression" "ParseTree::BinaryExpression" Role.leaf,
  HandlerDecl.mk "VisitLikeExpression" "ParseTree::BinaryExpression" Role.leaf,
  HandlerDecl.mk "VisitIsExpression" "ParseTree::BinaryExpression" Role.leaf,
  HandlerDecl.mk "VisitIsNotExpression" "ParseTree::BinaryExpression" Role.leaf,
  HandlerDecl.mk "VisitEqualExpression" "ParseTree::BinaryExpression" Role.leaf,
  HandlerDecl.mk "VisitNotEqualExpression" "ParseTree::BinaryExpression" Role.leaf,
  HandlerDecl.mk "VisitLessExpression" "ParseTree::BinaryExpression" Role.leaf,
  HandlerDecl.mk "VisitLessEqualExpression" "ParseTree::BinaryExpression" Role.leaf,
  HandlerDecl.mk "VisitGreaterEqualExpression" "ParseTree::BinaryExpression" Role.leaf,
  HandlerDecl.mk "VisitGreaterExpression" "ParseTree::BinaryExpression" Role.leaf,
  HandlerDecl.mk "VisitXmlDocumentExpression" "ParseTree::XmlDocumentExpression" Role.leaf,
  HandlerDecl.mk "VisitXmlElementExpression" "ParseTree::XmlElementExpression" Role.leaf,
  HandlerDecl.mk "VisitXmlAttributeExpression" "ParseTree::XmlAttributeExpression" Role.leaf,
  HandlerDecl.mk "VisitXmlAttributeValueListExpression" "ParseTree::XmlExpression" Role.leaf,
  HandlerDecl.mk "VisitXmlNameExpression" "ParseTree::XmlNameExpression" Role.leaf,
  HandlerDecl.mk "VisitXmlCharDataExpression" "ParseTree::XmlCharDataExpression" Role.leaf,
  HandlerDecl.mk "VisitXmlCDataExpression" "ParseTree::XmlExpression" Role.leaf,
  HandlerDecl.mk "VisitXmlPIExpression" "ParseTree::XmlPIExpression" Role.leaf,
  HandlerDecl.mk "VisitXmlCommentExpression" "ParseTree::XmlExpression" Role.leaf,
  HandlerDecl.mk "VisitXmlReferenceExpression" "ParseTree::XmlReferenceExpression" Role.leaf,
  HandlerDecl.mk "VisitXmlEmbeddedExpression" "ParseTree::XmlEmbeddedExpression" Role.leaf,
  HandlerDecl.mk "VisitFromExpression" "ParseTree::FromExpression" Role.leaf,
  HandlerDecl.mk "VisitLetExpression" "ParseTree::FromExpression" Role.leaf,
  HandlerDecl.mk "VisitAggregateExpression" "ParseTree::AggregateExpression" Role.leaf,
  HandlerDecl.mk "VisitQueryAggregateGroupExpression" "ParseTree::QueryAggregateGroupExpression" Role.leaf,
  HandlerDecl.mk "VisitCrossJoinExpression" "ParseTree::CrossJoinExpression" Role.leaf,
  HandlerDecl.mk "VisitWhereExpression" "ParseTree::WhereExpression" Role.leaf,
  HandlerDecl.mk "VisitSelectExpression" "ParseTree::SelectExpression" Role.leaf,
  HandlerDecl.mk "VisitGroupByExpression" "ParseTree::GroupByExpression" Role.leaf,
  HandlerDecl.mk "VisitGroupRefExpression" "ParseTree::Expression" Role.leaf,
  HandlerDecl.mk "VisitAggregationExpression" "ParseTree::AggregationExpression" Role.leaf,
  HandlerDecl.mk "VisitQueryOperatorCallExpression" "ParseTree::QueryOperatorCallExpression" Role.leaf,
  HandlerDecl.mk "VisitDistinctExpression" "ParseTree::DistinctExpression" Role.leaf,
  HandlerDecl.mk "VisitOrderByExpression" "ParseTree::OrderByExpression" Role.leaf,
  HandlerDecl.mk "VisitLinqSourceExpression" "ParseTree::LinqSourceExpression" Role.leaf,
  HandlerDecl.mk "VisitInnerJoinExpression" "ParseTree::InnerJoinExpression" Role.leaf,
  HandlerDecl.mk "VisitGroupJoinExpression" "ParseTree::GroupJoinExpression" Role.leaf,
  HandlerDecl.mk "VisitEqualsExpression" "ParseTree::BinaryExpression" Role.leaf,
  HandlerDecl.mk "VisitTakeWhileExpression" "ParseTree::WhileExpression" Role.leaf,
  HandlerDecl.mk "VisitSkipWhileExpression" "ParseTree::WhileExpression" Role.leaf,
  HandlerDecl.mk "VisitTakeExpression" "ParseTree::SkipTakeExpression" Role.leaf,
  HandlerDecl.mk "VisitSkipExpression" "ParseTree::SkipTakeExpression" Role.leaf,
  HandlerDecl.mk "VisitImplicitConversionExpression" "ParseTree::ImplicitConversionExpression" Role.leaf,
  HandlerDecl.mk "VisitIsTypeExpression" "ParseTree::TypeValueExpression" Role.leaf,
  HandlerDecl.mk "VisitTypeReferenceExpression" "ParseTree::TypeReferenceExpression" Role.leaf,
  HandlerDecl.mk "VisitNewExpression" "ParseTree::NewExpression" Role.leaf,
  HandlerDecl.mk "VisitArrayInitializerExpression" "ParseTree::ArrayInitializerExpression" Role.leaf,
  HandlerDecl.mk "VisitNewArrayInitializerExpression" "ParseTree::NewArrayInitializerExpression" Role.leaf,
  HandlerDecl.mk "VisitNewObjectInitializerExpression" "ParseTree::NewObjectInitializerExpression" Role.leaf,
  HandlerDecl.mk "VisitGetTypeExpression" "ParseTree::GetTypeExpression" Role.leaf,
  HandlerDecl.mk "VisitGetXmlNamespaceExpression" "ParseTree::GetXmlNamespaceExpression" Role.leaf,
  HandlerDecl.mk "VisitLambdaExpression" "ParseTree::LambdaExpression" Role.leaf,
  HandlerDecl.mk "VisitIIfExpression" "ParseTree::IIfExpression" Role.leaf,
  HandlerDecl.mk "VisitCollectionInitializerExpression" "ParseTree::CollectionInitializerExpression" Role.leaf,
  HandlerDecl.mk "VisitAlreadyBoundExpression" "ParseTree::AlreadyBoundExpression" Role.leaf,
  HandlerDecl.mk "VisitAlreadyBoundSymbolExpression" "ParseTree::AlreadyBoundSymbolExpression" Role.leaf,
  HandlerDecl.mk "VisitDeferredExpression" "ParseTree::DeferredExpression" Role.leaf,
  HandlerDecl.mk "VisitAwaitExpression" "ParseTree::UnaryExpression" Role.leaf,
  HandlerDecl.mk "VisitSimpleName" "ParseTree::SimpleName" Role.leaf,
  HandlerDecl.mk "VisitSimpleWithArgumentsName" "ParseTree::SimpleWithArgumentsName" Role.leaf,
  HandlerDecl.mk "VisitQualifiedName" "ParseTree::QualifiedName" Role.leaf,
  HandlerDecl.mk "VisitQualifiedWithArgumentsName" "ParseTree::QualifiedWithArgumentsName" Role.leaf,
  HandlerDecl.mk "VisitGlobalNameSpaceName" "ParseTree::Name" Role.leaf,
  HandlerDecl.mk "VisitSyntaxErrorType" "ParseTree::Type" Role.leaf,
  HandlerDecl.mk "VisitBooleanType" "ParseTree::Type" Role.leaf,
  HandlerDecl.mk "VisitSignedByteType" "ParseTree::Type" Role.leaf,
  HandlerDecl.mk "VisitByteType" "ParseTree::Type" Role.leaf,
  HandlerDecl.mk "VisitShortType" "ParseTree::Type" Role.leaf,
  HandlerDecl.mk "VisitUnsignedShortType" "ParseTree::Type" Role.leaf,
  HandlerDecl.mk "VisitIntegerType" "ParseTree::Type" Role.leaf,
  HandlerDecl.mk "VisitUnsignedIntegerType" "ParseTree::Type" Role.leaf,
  HandlerDecl.mk "VisitLongType" "ParseTree::Type" Role.leaf,
  HandlerDecl.mk "VisitUnsignedLongType" "ParseTree::Type" Role.leaf,
  HandlerDecl.mk "VisitDecimalType" "ParseTree::Type" Role.leaf,
  HandlerDecl.mk "VisitSingleType" "ParseTree::Type" Role.leaf,
  HandlerDecl.mk "VisitDoubleType" "ParseTree::Type" Role.leaf,
  HandlerDecl.mk "VisitDateType" "ParseTree::Type" Role.leaf,
  HandlerDecl.mk "VisitCharType" "ParseTree::Type" Role.leaf,
  HandlerDecl.mk "VisitStringType" "ParseTree::Type" Role.leaf,
  HandlerDecl.mk "VisitObjectType" "ParseTree::Type" Role.leaf,
  HandlerDecl.mk "VisitAlreadyBoundType" "ParseTree::AlreadyBoundType" Role.leaf,
  HandlerDecl.mk "VisitAlreadyBoundDelayCalculatedType" "ParseTree::AlreadyBoundDelayCalculatedType" Role.leaf,
  HandlerDecl.mk "VisitNamedType" "ParseTree::NamedType" Role.leaf,
  HandlerDecl.mk "VisitArrayWithoutSizesType" "ParseTree::ArrayType" Role.leaf,
  HandlerDecl.mk "VisitArrayWithSizesType" "ParseTree::ArrayWithSizesType" Role.leaf,
  HandlerDecl.mk "VisitNullableType" "ParseTree::NullableType" Role.leaf,
  HandlerDecl.mk "VisitNoInitializerVariableDeclaration" "ParseTree::VariableDeclaration" Role.leaf,
  HandlerDecl.mk "VisitWithInitializerVariableDeclaration" "ParseTree::InitializerVariableDeclaration" Role.leaf,
  HandlerDecl.mk "VisitWithNewVariableDeclaration" "ParseTree::NewVariableDeclaration" Role.leaf,
  HandlerDecl.mk "VisitNewConstraint" "ParseTree::Constraint" Role.leaf,
  HandlerDecl.mk "VisitClassConstraint" "ParseTree::Constraint" Role.leaf,
  HandlerDecl.mk "VisitStructConstraint" "ParseTree::Constraint" Role.leaf,
  HandlerDecl.mk "VisitTypeConstraint" "ParseTree::TypeConstraint" Role.leaf,
  HandlerDecl.mk "VisitNamespaceImportDirective" "ParseTree::NamespaceImportDirective" Role.leaf,
  HandlerDecl.mk "VisitAliasImportDirective" "ParseTree::AliasImportDirective" Role.leaf,
  HandlerDecl.mk "VisitXmlNamespaceImportDirective" "ParseTree::XmlNamespaceImportDirective" Role.leaf,
  HandlerDecl.mk "VisitSyntaxErrorCase" "ParseTree::Case" Role.leaf,
  HandlerDecl.mk "VisitRelationalCase" "ParseTree::RelationalCase" Role.leaf,
  HandlerDecl.mk "VisitValueCase" "ParseTree::ValueCase" Role.leaf,
  HandlerDecl.mk "VisitRangeCase" "ParseTree::RangeCase" Role.leaf,
  HandlerDecl.mk "VisitExpressionInitializer" "ParseTree::ExpressionInitializer" Role.leaf,
  HandlerDecl.mk "VisitDeferredInitializer" "ParseTree::DeferredInitializer" Role.leaf,
  HandlerDecl.mk "VisitAssignmentInitializer" "ParseTree::AssignmentInitializer" Role.leaf,
  HandlerDecl.mk "VisitAutoPropertyInitBase" "ParseTree::AutoPropertyInitialization" Role.base,
  HandlerDecl.mk "VisitWithInitializerAutoPropInit" "ParseTree::InitializerAutoPropertyDeclaration" Role.leaf,
  HandlerDecl.mk "VisitWithNewAutoPropInit" "ParseTree::NewAutoPropertyDeclaration" Role.leaf,
  HandlerDecl.mk "VisitAttributeList" "ParseTree::AttributeList" Role.leaf,
  HandlerDecl.mk "VisitSpecifierList" "ParseTree::SpecifierList" Role.leaf,
  HandlerDecl.mk "VisitAttributeSpecifierList" "ParseTree::AttributeSpecifierList" Role.leaf,
  HandlerDecl.mk "VisitConstraintList" "ParseTree::ConstraintList" Role.leaf,
  HandlerDecl.mk "VisitGenericParameterList" "ParseTree::GenericParameterList" Role.leaf,
  HandlerDecl.mk "VisitParameterSpecifierList" "ParseTree::ParameterSpecifierList" Role.leaf,
  HandlerDecl.mk "VisitParameterList" "ParseTree::ParameterList" Role.leaf,
  HandlerDecl.mk "VisitDeclaratorList" "ParseTree::DeclaratorList" Role.leaf,
  HandlerDecl.mk "VisitVariableDeclarationList" "ParseTree::VariableDeclarationList" Role.leaf,
  HandlerDecl.mk "VisitImportDirectiveList" "ParseTree::ImportDirectiveList" Role.leaf,
  HandlerDecl.mk "VisitCaseList" "ParseTree::CaseList" Role.leaf,
  HandlerDecl.mk "VisitCommentList" "ParseTree::CommentList" Role.leaf,
  HandlerDecl.mk "VisitNameList" "ParseTree::NameList" Role.leaf,
  HandlerDecl.mk "VisitTypeList" "ParseTree::TypeList" Role.leaf,
  HandlerDecl.mk "VisitArgumentList" "ParseTree::ArgumentList" Role.leaf,
  HandlerDecl.mk "VisitExpressionList" "ParseTree::ExpressionList" Role.leaf,
  HandlerDecl.mk "VisitArrayDimList" "ParseTree::ArrayDimList" Role.leaf,
  HandlerDecl.mk "VisitFromList" "ParseTree::FromList" Role.leaf,
  HandlerDecl.mk "VisitOrderByList" "ParseTree::OrderByList" Role.leaf,
  HandlerDecl.mk "VisitInitializerList" "ParseTree::InitializerList" Role.leaf,
  HandlerDecl.mk "VisitParenthesizedArgumentList" "ParseTree::ParenthesizedArgumentList" Role.leaf,
  HandlerDecl.mk "VisitAttribute" "ParseTree::Attribute" Role.leaf,
  HandlerDecl.mk "VisitArgument" "ParseTree::Argument" Role.leaf,
  HandlerDecl.mk "VisitBracedInitializerList" "ParseTree::BracedInitializerList" Role.leaf,
  HandlerDecl.mk "VisitExternalSourceDirective" "ParseTree::ExternalSourceDirective" Role.leaf,
  HandlerDecl.mk "VisitStatementList" "ParseTree::StatementList" Role.leaf,
  HandlerDecl.mk "VisitGenericArguments" "ParseTree::GenericArguments" Role.leaf,
  HandlerDecl.mk "VisitAttributeSpecifier" "ParseTree::AttributeSpecifier" Role.leaf,
  HandlerDecl.mk "VisitGenericParameter" "ParseTree::GenericParameter" Role.leaf,
  HandlerDecl.mk "VisitParameter" "ParseTree::Parameter" Role.leaf,
  HandlerDecl.mk "VisitDeclarator" "ParseTree::Declarator" Role.leaf,
  HandlerDecl.mk "VisitComment" "ParseTree::Comment" Role.leaf,
  HandlerDecl.mk "VisitArrayDim" "ParseTree::ArrayDim" Role.leaf,
  HandlerDecl.mk "VisitFromItem" "ParseTree::FromItem" Role.leaf,
  HandlerDecl.mk "VisitOrderByItem" "ParseTree::OrderByItem" Role.leaf,
  HandlerDecl.mk "VisitObjectInitializerList" "ParseTree::ObjectInitializerList" Role.leaf,
  HandlerDecl.mk "VisitSpecifier" "ParseTree::Specifier" Role.leaf,
  HandlerDecl.mk "VisitParameterSpecifier" "ParseTree::ParameterSpecifier" Role.leaf]

/-- The universal handler `Default(void *)` (line 9). -/
def HandlerDecl.Default : HandlerDecl :=
  HandlerDecl.mk "Default" "void" Role.universal

/-- The node-level base handler `VisitParseTreeNodeBase` (line 13). -/
def HandlerDecl.VisitParseTreeNodeBase : HandlerDecl :=
  HandlerDecl.mk "VisitParseTreeNodeBase" "ParseTree::ParseTreeNode" Role.base

/-- The leaf handlers, in declaration order. -/
def leafHandlers : List HandlerDecl := handlerTable.filter (fun d => d.role = Role.leaf)

/-- The family handlers `Visit…Base`, in declaration order. -/
def baseHandlers : List HandlerDecl := handlerTable.filter (fun d => d.role = Role.base)

/-- Modelled from the spec: the closed set of discriminants.  The opcode
enumerations of `ParseTree` are not under `src/`; by §4.3 there is one leaf
handler per concrete discriminant, so the discriminants are numbered as the
leaf handlers are declared: tag `i` is the kind of the `i`-th leaf handler, and
the valid tags are those below `kindCount`. -/
def kindCount : Nat := leafHandlers.length

/-- Modelled from the spec: the single error of the dispatch core (§7), a
discriminant outside the closed set; the dispatch code is not under `src/`. -/
inductive DispatchError where
  | contractViolation
deriving DecidableEq, Repr

/-- Modelled from the spec: the dispatch core (`SimpleParseTreeVisitor`, not
under `src/`).  By §4.1 it identifies the exact kind of the node and calls the
matching leaf handler; by §7 a discriminant outside the valid set is a
contract violation that is raised as an error. -/
def dispatch (tag : Nat) : Except DispatchError HandlerDecl :=
  match leafHandlers[tag]? with
  | some h => .ok h
  | none => .error .contractViolation

/-- Modelled from the spec: what the header leaves open about the default
bodies (`autoparsetreevisitor.cpp` is not under `src/`): the immediate family
Base handler of each leaf handler (§4.3), and for each family Base handler
whether it forwards to `VisitParseTreeNodeBase` or straight to `Default`
(§4.2). -/
structure Taxonomy where
  familyBase : HandlerDecl → HandlerDecl
  viaNodeBase : HandlerDecl → Bool

/-- The family assigned to every leaf handler is one of the declared
`Visit…Base` handlers. -/
def Taxonomy.WellFormed (t : Taxonomy) : Prop :=
  ∀ h ∈ leafHandlers, t.familyBase h ∈ baseHandlers

/-- Modelled from the spec: the default body of a handler, as the one handler
it forwards to.  A leaf handler makes exactly one call, to its immediate
family Base handler (§4.3); a family Base handler forwards to
`VisitParseTreeNodeBase` or to `Default`, and `VisitParseTreeNodeBase` to
`Default` (§4.2); `Default` calls nothing (§4.1). -/
def defaultBody (t : Taxonomy) (h : HandlerDecl) : Option HandlerDecl :=
  match h.role with
  | .leaf => some (t.familyBase h)
  | .base =>
    if h = HandlerDecl.VisitParseTreeNodeBase then some HandlerDecl.Default
    else if t.viaNodeBase h then some HandlerDecl.VisitParseTreeNodeBase
    else some HandlerDecl.Default
  | .universal => none

/-- The handlers entered, in order, when `h` is called and no handler is
overridden; `fuel` bounds the length of the chain. -/
def defaultChain (t : Taxonomy) : Nat → HandlerDecl → List HandlerDecl
  | 0, _ => []
  | fuel + 1, h =>
    h :: (match defaultBody t h with
      | some g => defaultChain t fuel g
      | none => [])

/-- A taxonomy read off the parameter types of the header: the family of a leaf
handler is the first `Visit…Base` handler that takes the same parameter type,
and `VisitParseTreeNodeBase` when there is none; every family handler
forwards through `VisitParseTreeNodeBase`. -/
def byParameterType : Taxonomy where
  familyBase := fun h =>
    (baseHandlers.find? (fun b => b.param = h.param)).getD HandlerDecl.VisitParseTreeNodeBase
  viaNodeBase := fun _ => true

/-! ### Call sequences, the recursive walk, and joined lists -/

/-- The handler that a call names. -/
def Handlers.handler {ε σ : Type} (h : Handlers ε σ) :
    Callee → Ptr → Mem σ → Outcome ε (Mem σ)
  | .VisitParseTreeNodeBase => h.VisitParseTreeNodeBase
  | .visit_func => h.visit_func

/-- The calls `todo` made one after the other, starting from memory `m` and
after the calls `made`: each call runs in the memory its predecessor left, and
the first call that raises ends the sequence with its error. -/
def runCalls {ε σ : Type} (h : Handlers ε σ) :
    List Call → Mem σ → List Call → Outcome ε (Mem σ × List Call)
  | [], m, made => .returned (m, made)
  | c :: todo, m, made =>
    match h.handler c.callee c.arg m with
    | .returned m1 => runCalls h todo m1 (made ++ [c])
    | .raised e m1 => .raised e (m1, made ++ [c])

/-- The result of a call seen through `f`. -/
def Outcome.map {ε α β : Type} (f : α → β) : Outcome ε α → Outcome ε β
  | .returned a => .returned (f a)
  | .raised e a => .raised e (f a)

/-- What a caller can observe of a finished loop: the memory and the calls made. -/
def LoopState.observed {σ : Type} (st : LoopState σ) : Mem σ × List Call :=
  (st.mem, st.calls)

/-- A call without the frame it was issued from. -/
def Call.visit (c : Call) : Callee × Ptr := (c.callee, c.arg)

/-- The recursive list walk, written after the words
"walk(nil) = nothing; walk(node) = visit node, visit node.Element if present,
then walk(node.Next)".  Each recursive call runs one frame deeper than its
caller, and the trace of a node is put in front of the trace of its tail. -/
def walk {ε σ : Type} (h : Handlers ε σ) :
    Nat → Nat → Ptr → Mem σ → Option (Outcome ε (Mem σ × List Call))
  | 0, _, _, _ => none
  | fuel + 1, depth, node, m =>
    if node = 0 then
      some (.returned (m, []))
    else
      match h.VisitParseTreeNodeBase node m with
      | .raised e m1 => some (.raised e (m1, [⟨.VisitParseTreeNodeBase, node, depth + 1⟩]))
      | .returned m1 =>
        if (m1.heap node).Element ≠ 0 then
          match h.visit_func (m1.heap node).Element m1 with
          | .raised e m2 =>
            some (.raised e (m2, [⟨.VisitParseTreeNodeBase, node, depth + 1⟩,
              ⟨.visit_func, (m1.heap node).Element, depth + 1⟩]))
          | .returned m2 =>
            (walk h fuel (depth + 1) (m2.heap node).Next m2).map
              (Outcome.map fun r => (r.1, [⟨.VisitParseTreeNodeBase, node, depth + 1⟩,
                ⟨.visit_func, (m1.heap node).Element, depth + 1⟩] ++ r.2))
        else
          (walk h fuel (depth + 1) (m1.heap node).Next m1).map
            (Outcome.map fun r => (r.1, [⟨.VisitParseTreeNodeBase, node, depth + 1⟩] ++ r.2))

/-- The heap in which the `Next` of node `p` is `q` and all else is as before. -/
def setNext (heap : Heap) (p q : Ptr) : Heap := fun a =>
  if a = p then ⟨(heap a).Element, q⟩ else heap a

/-- List A followed by list B: the `Next` of the last node of A is pointed at
the head of B; the result is the new heap and the head of the joined list
(the head of B when A is empty). -/
def appendList (heap : Heap) (nodesA : List Ptr) (pA pB : Ptr) : Heap × Ptr :=
  match nodesA.getLast? with
  | none => (heap, pB)
  | some last => (setNext heap last pB, pA)

/-- A visitor whose element handler raises on the element 30. -/
def failing : Handlers String (List Ptr) where
  VisitParseTreeNodeBase := fun p m => .returned ⟨m.heap, m.visitor ++ [p]⟩
  visit_func := fun e m =>
    if e = 30 then .raised "bad element" ⟨m.heap, m.visitor⟩
    else .returned ⟨m.heap, m.visitor ++ [e]⟩

/-- Two lists in one heap: nodes 1, 2 (elements 10, none) and nodes 5, 6
(elements 50, 60). -/
def heapTwo : Heap := fun p =>
  if p = 1 then ⟨10, 2⟩ else if p = 2 then ⟨0, 0⟩
  else if p = 5 then ⟨50, 6⟩ else if p = 6 then ⟨60, 0⟩ else ⟨0, 0⟩

end AutoParseTreeVisitor

/-! ## The metered string `CString` (`src/wpf/src/host/shared/string.cxx`)

Machine integers are natural numbers reduced where the source narrows them:
`ULONG` is 32 bits wide, `size_t` is `sz` bytes wide (`sz` is 4 or 8), a
`wchar_t` is two bytes.  `CKHR(x)` stores `x` in `hr` and jumps to `Cleanup`
when it is a failure; `CK_ALLOC(p)` does the same with `E_OUTOFMEMORY` when
`p` is null.
-/

namespace WpfHost

/-- An `HRESULT`: a signed 32-bit status code; the negative ones are failures. -/
abbrev HRESULT := Int

def S_OK : HRESULT := 0

def S_FALSE : HRESULT := 1

def E_FAIL : HRESULT := -2147467259

def E_OUTOFMEMORY : HRESULT := -2147024882

def STRSAFE_E_INVALID_PARAMETER : HRESULT := -2147024809

/-- The test `FAILED(hr)`. -/
def FAILED (hr : HRESULT) : Bool := decide (hr < 0)

/-- The test `SUCCEEDED(hr)`. -/
def SUCCEEDED (hr : HRESULT) : Bool := decide (0 ≤ hr)

/-- Conversion to `ULONG`: the low 32 bits. -/
def toULONG (n : Nat) : Nat := n % 4294967296

/-- The `k` bytes of the little-endian representation of `n`. -/
def toBytes : Nat → Nat → List Nat
  | 0, _ => []
  | k + 1, n => n % 256 :: toBytes k (n / 256)

/-- The number that a little-endian byte sequence represents. -/
def ofBytes : List Nat → Nat
  | [] => 0
  | b :: bs => b + 256 * ofBytes bs

/-- The bytes of an array of `wchar_t`. -/
def wcharsToBytes : List Nat → List Nat
  | [] => []
  | c :: cs => c % 256 :: (c / 256) % 256 :: wcharsToBytes cs

/-- The array of `wchar_t` that a byte sequence holds. -/
def bytesToWchars : List Nat → List Nat
  | b0 :: b1 :: rest => (b0 + 256 * b1) :: bytesToWchars rest
  | _ => []

/-- The string that a `LPCWSTR` points to: the characters before the first
terminator.  The memory is given as the characters at the pointer; the end of
the list is a terminator. -/
def cstr (mem : List Nat) : List Nat := mem.takeWhile (fun c => c ≠ 0)

/-- What `operator new[]` does at one call: whether it succeeds, and the
indeterminate contents of the fresh array. -/
structure Alloc where
  succeeds : Bool
  garbage : Nat → Nat

/-- The call `new wchar_t[n]`: null on failure. -/
def Alloc.newArray (a : Alloc) (n : Nat) : Option (List Nat) :=
  if a.succeeds then some ((List.range n).map a.garbage) else none

/-- The first `n` bytes of a byte sequence, or all of it when it is shorter,
and what follows them. -/
def readBytes : Nat → List Nat → List Nat × List Nat
  | 0, l => ([], l)
  | _ + 1, [] => ([], [])
  | n + 1, b :: l => (b :: (readBytes n l).1, (readBytes n l).2)

/-- A byte stream behind the `IStream` interface: the bytes before the seek
pointer, the bytes from the seek pointer on, and its health: `faultAfter` is
the number of calls that still succeed before one fails with `fault`
(`none`: no call fails). -/
structure IStream where
  behind : List Nat
  data : List Nat
  faultAfter : Option Nat
  fault : HRESULT

/-- The call `Read(pv, cb, &bytesRead)`: up to `cb` bytes from the seek pointer;
`S_FALSE` when the stream ends before `cb` bytes. -/
def IStream.Read (s : IStream) (cb : Nat) : HRESULT × List Nat × IStream :=
  match s.faultAfter with
  | some 0 => (s.fault, [], s)
  | fa =>
    ((if (readBytes cb s.data).1.length = cb then S_OK else S_FALSE),
      (readBytes cb s.data).1,
      ⟨s.behind ++ (readBytes cb s.data).1, (readBytes cb s.data).2, fa.map Nat.pred, s.fault⟩)

/-- The call `Write(pv, cb, &bytesWritten)`: the bytes are written at the seek
pointer, over what was there. -/
def IStream.Write (s : IStream) (bytes : List Nat) : HRESULT × IStream :=
  match s.faultAfter with
  | some 0 => (s.fault, s)
  | fa => (S_OK, ⟨s.behind ++ bytes, s.data.drop bytes.length, fa.map Nat.pred, s.fault⟩)

/-- `STRSAFE_MAX_CCH`, the largest character count the strsafe functions accept. -/
def STRSAFE_MAX_CCH : Nat := 2147483647

/-- `StringCchLengthW(psz, cchMax, &length)` for non-null `psz`, after its
documented contract (strsafe.h): it succeeds when `cchMax` is at most
`STRSAFE_MAX_CCH` and a terminator occurs within the first `cchMax`
characters, and then gives the number of characters before it; otherwise it
fails with `STRSAFE_E_INVALID_PARAMETER` and gives 0. -/
def StringCchLengthW (psz : List Nat) (cchMax : Nat) : HRESULT × Nat :=
  if cchMax > STRSAFE_MAX_CCH then (STRSAFE_E_INVALID_PARAMETER, 0)
  else if (cstr psz).length < cchMax then (S_OK, (cstr psz).length)
  else (STRSAFE_E_INVALID_PARAMETER, 0)

/-- `wcscpy_s(dest, n, src)`: the string and its terminator are copied to the
start of `dest` when they fit in `n` characters; otherwise `dest` is made the
empty string. -/
def wcscpy_s (dest : List Nat) (n : Nat) (src : List Nat) : List Nat :=
  if (cstr src).length < n then cstr src ++ 0 :: dest.drop ((cstr src).length + 1)
  else 0 :: dest.drop 1

/-- The fields of a `CString`; `m_pwzValue` is null or the array it points to. -/
structure CString where
  m_maxLength : Nat
  m_pwzValue : Option (List Nat)
  m_curLength : Nat

/-- The constructor `CString::CString(maxLength)`. -/
def CString.ctor (maxLength : Nat) : CString :=
  ⟨maxLength, none, 0⟩

/-- The method `CString::Free`. -/
def CString.Free (s : CString) : CString :=
  match s.m_pwzValue with
  | some _ =>
    -- delete [] m_pwzValue; m_pwzValue = NULL;
    ⟨s.m_maxLength, none, 0⟩
  | none => ⟨s.m_maxLength, s.m_pwzValue, 0⟩

/-- The method `CString::SetValue`; `pwzSource` is null or the characters at
the pointer. -/
def CString.SetValue (a : Alloc) (s : CString) (pwzSource : Option (List Nat)) :
    HRESULT × CString :=
  -- Free();
  let s := s.Free
  match pwzSource with
  | none => (S_OK, s)
  | some src =>
    -- CKHR(StringCchLengthW(pwzSource, m_maxLength, &m_curLength));
    let r := StringCchLengthW src s.m_maxLength
    if FAILED r.1 then
      (r.1, ⟨s.m_maxLength, s.m_pwzValue, r.2⟩)
    else
      -- m_pwzValue = new wchar_t[m_curLength+1];
      match a.newArray (r.2 + 1) with
      | none =>
        -- m_curLength = 0; CKHR(E_OUTOFMEMORY);
        (E_OUTOFMEMORY, ⟨s.m_maxLength, none, 0⟩)
      | some buf =>
        -- wcscpy_s(m_pwzValue, m_curLength+1, pwzSource);
        (r.1, ⟨s.m_maxLength, some (wcscpy_s buf (r.2 + 1) src), r.2⟩)

/-- The static method `CString::CreateOnHeap`; `objectAllocated` tells whether
`new CString(maxLength)` gave an object, and the result is null or the object. -/
def CString.CreateOnHeap (objectAllocated : Bool) (a : Alloc) (pszValue : Option (List Nat))
    (maxLength : Nat) : Option CString :=
  if objectAllocated then
    -- if(FAILED(p->SetValue(pszValue))) { delete p; p = 0; }
    if FAILED (CString.SetValue a (CString.ctor maxLength) pszValue).1 then none
    else some (CString.SetValue a (CString.ctor maxLength) pszValue).2
  else none

/-- The method `CString::WriteToStream`. -/
def CString.WriteToStream (sz : Nat) (s : CString) (pOutputStream : IStream) :
    HRESULT × IStream :=
  -- CKHR(pOutputStream->Write((void*)&m_curLength, sizeof(m_curLength), &bytesWritten));
  let w := pOutputStream.Write (toBytes sz s.m_curLength)
  if FAILED w.1 then w
  else if s.m_curLength ≠ 0 then
    -- CKHR(pOutputStream->Write((void*)m_pwzValue, (ULONG) m_curLength * sizeof(WCHAR), ..));
    w.2.Write ((wcharsToBytes (s.m_pwzValue.getD [])).take (toULONG (toULONG s.m_curLength * 2)))
  else w

/-- The line `ULONG charsToRead = (ULONG) (length > m_maxLength ? m_maxLength : length);`. -/
def CString.charsToRead (length maxLength : Nat) : Nat :=
  toULONG (if length > maxLength then maxLength else length)

/-- The method `CString::ReadFromStream`. -/
def CString.ReadFromStream (sz : Nat) (a : Alloc) (s : CString) (pInputStream : IStream) :
    HRESULT × CString × IStream :=
  -- Free();
  let s := s.Free
  -- size_t length = 0; CKHR(pInputStream->Read((void*)&length, sizeof(length), &bytesRead));
  let r := pInputStream.Read sz
  if FAILED r.1 then
    (r.1, s.Free, r.2.2)
  else if ofBytes r.2.1 ≠ 0 then
    -- ULONG charsToRead = (ULONG) (length > m_maxLength ? m_maxLength : length);
    let charsToRead := CString.charsToRead (ofBytes r.2.1) s.m_maxLength
    -- m_pwzValue = new wchar_t[charsToRead + 1]; CK_ALLOC(m_pwzValue);
    match a.newArray (toULONG (charsToRead + 1)) with
    | none => (E_OUTOFMEMORY, s.Free, r.2.2)
    | some buf =>
      -- CKHR(pInputStream->Read((void*)m_pwzValue, charsToRead * sizeof(WCHAR), &bytesRead));
      let q := r.2.2.Read (toULONG (charsToRead * 2))
      let filled := bytesToWchars (q.2.1 ++ (wcharsToBytes buf).drop q.2.1.length)
      if FAILED q.1 then
        (q.1, (CString.mk s.m_maxLength (some filled) 0).Free, q.2.2)
      else
        -- m_pwzValue[charsToRead] = L'\0'; m_curLength = charsToRead;
        (q.1, ⟨s.m_maxLength, some (filled.set charsToRead 0), charsToRead⟩, q.2.2)
  else
    (r.1, s, r.2.2)

/-- One call on a `CString`, with what its environment does during the call. -/
inductive Op where
  | SetValue (a : Alloc) (pwzSource : Option (List Nat))
  | ReadFromStream (sz : Nat) (a : Alloc) (pInputStream : IStream)
  | Free

/-- The string after one call. -/
def Op.apply : Op → CString → CString
  | .SetValue a src, s => (CString.SetValue a s src).2
  | .ReadFromStream sz a inp, s => (CString.ReadFromStream sz a s inp).2.1
  | .Free, s => s.Free

/-- An allocator call that succeeds and hands out memory full of `0xCDCD`. -/
def okAlloc : Alloc := ⟨true, fun _ => 52685⟩

/-- An allocator call that fails. -/
def noAlloc : Alloc := ⟨false, fun _ => 0⟩

/-- An empty, healthy stream. -/
def emptyStream : IStream := ⟨[], [], none, E_FAIL⟩

/-- A healthy stream positioned at the start of the given bytes. -/
def streamOf (bytes : List Nat) : IStream := ⟨[], bytes, none, E_FAIL⟩

end WpfHost

/-! ## The Ignorable-prefix tokenizer of `CMarkupVersion::startElement`
(`src/wpf/src/host/shimimpl/markupversion.cxx`, lines 99-157)

The attribute value is the memory at `pwzValue`; the pointer `pStart` is an
index into it, and a read past its end gives the terminator.  The three maps
of the class and the attribute lookup are calls into code that is not part of
this file: they are parameters.  Every loop is fuelled.
-/

namespace WpfHost

/-- The constant `MAX_PREFIX_LENGTH`. -/
def MAX_PREFIX_LENGTH : Nat := 128

/-- The character `L' '`. -/
def SPACE : Nat := 32

/-- The character `*p` for the pointer at index `p` of `value`. -/
def charAt (value : List Nat) (p : Nat) : Nat := value.getD p 0

/-- What `startElement` calls: the lookup of the `Ignorable` attribute (its
`HRESULT` and the memory at the `pwzValue` it hands back), the indeterminate
contents of the local array `wzPrefix`, and the maps `m_mapPrefixNamespace`
(`Find`), `m_mapNamespaceVersion` (`Find`) and
`m_mapIgnorableNamespaceVersion` (`Add`, given the entries added so far). -/
structure Environment where
  getValueFromName : HRESULT × List Nat
  stack : Nat → Nat
  findPrefixNamespace : List Nat → Option (List Nat)
  findNamespaceVersion : List Nat → Option (List Nat)
  addIgnorable : List (List Nat × List Nat) → List Nat → List Nat → HRESULT

/-- The variables of the tokenizer loop, and three ghost fields: the entries
added to the ignorable map, the contents of `wzPrefix` at each call of
`m_mapPrefixNamespace.Find`, and the indices at which `wzPrefix` was written. -/
structure Tokenizer where
  pStart : Nat
  nIndex : Nat
  wzPrefix : List Nat
  ignorable : List (List Nat × List Nat)
  lookups : List (List Nat)
  writes : List Nat

/-- How one pass of the outer loop body, or the loop, ends: it runs to its
end, or a `CKHR` jumps to `Cleanup` with a failure. -/
inductive LoopEnd where
  | completed (st : Tokenizer)
  | cleanup (hr : HRESULT) (st : Tokenizer)

/-- The variables at the end. -/
def LoopEnd.state : LoopEnd → Tokenizer
  | .completed st => st
  | .cleanup _ st => st

/-- The loop `while (*pStart && *pStart == L' ') { ++pStart; }`. -/
def skipSpaces (value : List Nat) : Nat → Nat → Option Nat
  | 0, _ => none
  | fuel + 1, pStart =>
    if charAt value pStart ≠ 0 ∧ charAt value pStart = SPACE then
      skipSpaces value fuel (pStart + 1)
    else
      some pStart

/-- The loop
`while (*pStart && *pStart != L' ' && nIndex < MAX_PREFIX_LENGTH - 1)
{ wzPrefix[nIndex++] = *(pStart++); }`. -/
def copyPrefix (value : List Nat) : Nat → Tokenizer → Option Tokenizer
  | 0, _ => none
  | fuel + 1, st =>
    if charAt value st.pStart ≠ 0 ∧ charAt value st.pStart ≠ SPACE ∧
        st.nIndex < MAX_PREFIX_LENGTH - 1 then
      copyPrefix value fuel
        ⟨st.pStart + 1, st.nIndex + 1, st.wzPrefix.set st.nIndex (charAt value st.pStart),
          st.ignorable, st.lookups, st.writes ++ [st.nIndex]⟩
    else
      some st

/-- The end of the body of the outer loop, after the copy loop: the prefix is
terminated and, unless it is empty, looked up (lines 136-150). -/
def lookupPrefix (env : Environment) (c : Tokenizer) : LoopEnd :=
  -- wzPrefix[nIndex] = 0;
  let buf := c.wzPrefix.set c.nIndex 0
  let writes := c.writes ++ [c.nIndex]
  -- if (*wzPrefix)
  if buf.getD 0 0 ≠ 0 then
    -- if (SUCCEEDED(m_mapPrefixNamespace.Find(wzPrefix, &pStrNamespace)))
    match env.findPrefixNamespace (cstr buf) with
    | some ns =>
      -- if (SUCCEEDED(m_mapNamespaceVersion.Find(pStrNamespace->GetValue(), &pStrVersion)))
      match env.findNamespaceVersion ns with
      | some version =>
        -- CKHR(m_mapIgnorableNamespaceVersion.Add(pStrNamespace->GetValue(), pStrVersion));
        if FAILED (env.addIgnorable c.ignorable ns version) then
          .cleanup (env.addIgnorable c.ignorable ns version)
            ⟨c.pStart, c.nIndex, buf, c.ignorable, c.lookups ++ [buf], writes⟩
        else
          .completed
            ⟨c.pStart, c.nIndex, buf, c.ignorable ++ [(ns, version)], c.lookups ++ [buf], writes⟩
      | none => .completed ⟨c.pStart, c.nIndex, buf, c.ignorable, c.lookups ++ [buf], writes⟩
    | none => .completed ⟨c.pStart, c.nIndex, buf, c.ignorable, c.lookups ++ [buf], writes⟩
  else
    .completed ⟨c.pStart, c.nIndex, buf, c.ignorable, c.lookups, writes⟩

/-- The body of the outer loop `while (*pStart)`; `budget` is the fuel of the
inner loops. -/
def tokenizeStep (env : Environment) (value : List Nat) (budget : Nat) (st : Tokenizer) :
    Option LoopEnd :=
  -- Remove any leading spaces
  match skipSpaces value budget st.pStart with
  | none => none
  | some p1 =>
    -- __bound UINT nIndex = 0; then the copy loop
    match copyPrefix value budget
        ⟨p1, 0, st.wzPrefix, st.ignorable, st.lookups, st.writes⟩ with
    | none => none
    | some c => some (lookupPrefix env c)

/-- The outer loop `while (*pStart) { ... }`. -/
def tokenizeLoop (env : Environment) (value : List Nat) (budget : Nat) :
    Nat → Tokenizer → Option LoopEnd
  | 0, _ => none
  | fuel + 1, st =>
    if charAt value st.pStart = 0 then
      some (.completed st)
    else
      match tokenizeStep env value budget st with
      | none => none
      | some (.completed st1) => tokenizeLoop env value budget fuel st1
      | some (.cleanup hr st1) => some (.cleanup hr st1)

/-- The variables on entry to the loop: `pStart = pwzValue`, `wzPrefix` not
yet written. -/
def Tokenizer.entry (env : Environment) : Tokenizer :=
  ⟨0, 0, (List.range MAX_PREFIX_LENGTH).map env.stack, [], [], []⟩

/-- The method `CMarkupVersion::startElement`: the `HRESULT` it returns and the
variables at the end. -/
def startElement (env : Environment) (fuel : Nat) : Option (HRESULT × Tokenizer) :=
  -- CKHR(pAttributes->getValueFromName(COMPATURL, ..., IGNORABLE, ..., &pwzValue, &nLength));
  if FAILED env.getValueFromName.1 then
    some (env.getValueFromName.1, Tokenizer.entry env)
  else
    match tokenizeLoop env env.getValueFromName.2 fuel fuel (Tokenizer.entry env) with
    | none => none
    | some (.cleanup hr st) => some (hr, st)
    | some (.completed st) =>
      -- CKHR(E_FAIL); // to stop the parsing
      some (E_FAIL, st)

/-- The maximal runs of characters other than the space, in order. -/
def runs (s : List Nat) : List (List Nat) :=
  (s.splitOn SPACE).filter (fun r => r ≠ [])

/-- A list cut into consecutive pieces of `n` elements, the last one holding
what is left; `fuel` bounds the number of pieces. -/
def piecesAux (n : Nat) : Nat → List Nat → List (List Nat)
  | 0, _ => []
  | fuel + 1, l => if l = [] then [] else l.take n :: piecesAux n fuel (l.drop n)

/-- A list cut into consecutive pieces of `n` elements. -/
def pieces (n : Nat) (l : List Nat) : List (List Nat) := piecesAux n l.length l

/-- The prefixes that an attribute value stands for: its runs, each cut into
pieces of `MAX_PREFIX_LENGTH - 1` characters. -/
def prefixesOf (s : List Nat) : List (List Nat) :=
  (runs s).flatMap (pieces (MAX_PREFIX_LENGTH - 1))

/-- An environment that knows the prefix `ab` and the namespace it maps to. -/
def sampleEnvironment (value : List Nat) : Environment where
  getValueFromName := (S_OK, value)
  stack := fun _ => 52685
  findPrefixNamespace := fun k => if k = [97, 98] then some [110] else none
  findNamespaceVersion := fun ns => if ns = [110] then some [51] else none
  addIgnorable := fun _ _ _ => S_OK

end WpfHost

/-! ## Overrides, family entry points and the search utility

The subclasses of `AutoParseTreeVisitor`, the dispatcher
`SimpleParseTreeVisitor` and `ParseTreeSearcher` are named in
`autoparsetreevisitor.h` (lines 3-9) but their code is not part of the
sources at hand; what follows is their model.
-/

namespace AutoParseTreeVisitor

/-- Modelled from the spec: the handlers entered, in order, when `h` is called
on a visitor that overrides the handlers in `overridden` (the subclasses are
not under `src/`).  By §6 a consumer overrides exactly the handlers relevant to
its task; an overriding handler intercepts the node, so the chain of default
bodies ends there; a handler that is not overridden runs its default body
(§4.1).  `fuel` bounds the length of the chain. -/
def visitChain (t : Taxonomy) (overridden : HandlerDecl → Bool) :
    Nat → HandlerDecl → List HandlerDecl
  | 0, _ => []
  | fuel + 1, h =>
    h :: (if overridden h then []
      else match defaultBody t h with
        | some g => visitChain t overridden fuel g
        | none => [])

/-- Modelled from the spec: the calls that the default body of `h` makes on a
node, each with the node it passes (`autoparsetreevisitor.cpp` is not under
`src/`).  By §4.3 the body forwards the node it received and does not look at
the tree. -/
def defaultCalls (t : Taxonomy) (h : HandlerDecl) (_heap : Heap) (node : Ptr) :
    List (HandlerDecl × Ptr) :=
  match defaultBody t h with
  | some g => [(g, node)]
  | none => []

/-- Modelled from the spec: a family-level dispatch entry point
(`DispatchStatement`, `DispatchExpression`, … of §4.1; the dispatcher is not
under `src/`), given the discriminant set that the family declares.  By §7 a
discriminant outside that set is raised as an error; otherwise the node is
dispatched on its kind. -/
def dispatchVia (valid : Nat → Bool) (tag : Nat) : Except DispatchError HandlerDecl :=
  if valid tag then dispatch tag else .error .contractViolation

/-- The expression kinds with a binary operator, `VisitPlusExpression` to
`VisitGreaterExpression` (lines 259-282), as a discriminant set. -/
def binaryExpressionKinds (tag : Nat) : Bool := decide (205 ≤ tag ∧ tag ≤ 228)

/-- Modelled from the spec: a parse tree in first-child / next-sibling form,
each node with what the predicate of a search looks at (the `ParseTree` types
are not under `src/`).  `empty` is the empty reference. -/
inductive SyntaxTree where
  | empty
  | node (id : Nat) (firstChild : SyntaxTree) (nextSibling : SyntaxTree)

/-- Modelled from the spec: the nodes of a tree in traversal (source) order: a
node, then what is below it, then the siblings that follow it (§4.4, §5). -/
def SyntaxTree.traversal : SyntaxTree → List Nat
  | .empty => []
  | .node id firstChild nextSibling => id :: (firstChild.traversal ++ nextSibling.traversal)

/-- Modelled from the spec: the pass of `ParseTreeSearcher` (§4.5; its code is
not under `src/`): at each node visited the overridden `Default` tests the node
against the predicate, records it when it matches, and the pass continues
descending.  `found` is the state of the searcher. -/
def SyntaxTree.searchFrom (predicate : Nat → Bool) : SyntaxTree → List Nat → List Nat
  | .empty, found => found
  | .node id firstChild nextSibling, found =>
    nextSibling.searchFrom predicate
      (firstChild.searchFrom predicate (if predicate id then found ++ [id] else found))

/-- Modelled from the spec: `Search(root, predicate)` of §4.5 and §8. -/
def Search (root : SyntaxTree) (predicate : Nat → Bool) : List Nat :=
  root.searchFrom predicate []

/-- A tree of five nodes: node 1 with the children 2, 3 and 5, node 3 with the
child 4. -/
def sampleTree : SyntaxTree :=
  .node 1 (.node 2 .empty (.node 3 (.node 4 .empty .empty) (.node 5 .empty .empty))) .empty

/-- The intermediate families that §4.2 of the specification names. -/
def families : List String := [
  "Statement", "Expression", "Name", "Type", "Constraint", "VariableDeclaration", "Case",
  "Initializer", "PropertyStatement", "BlockStatement", "TypeStatement",
  "MethodSignatureStatement", "MethodDeclarationStatement", "MethodDefinitionStatement",
  "TypeValueExpression", "BinaryExpression", "ArrayInitializerExpression", "SimpleName",
  "QualifiedName", "HandlerStatement", "UnaryExpression", "QualifiedExpression",
  "XmlExpression", "FromExpression", "LinqOperatorExpression", "FilterExpression",
  "InnerJoinExpression", "SkipTakeExpression", "ObjectInitializerExpression", "ArrayType",
  "ImportDirective", "NamespaceImportDirective", "ExecutableBlockStatement",
  "ExpressionBlockStatement", "ForStatement", "AssignStatement"]

/-- The handler `Visit<Family>Base` among the family handlers of the table. -/
def baseHandlerOf (family : String) : Option HandlerDecl :=
  baseHandlers.find? (fun d => d.name = "Visit" ++ family ++ "Base")

/-- A name read as a number in base 256. -/
def nameKey (s : String) : Nat := s.data.foldl (fun a c => a * 256 + c.toNat) 0

/-- Whether the numbers of a list are pairwise different. -/
def distinctKeys : List Nat → Bool
  | [] => true
  | a :: l => !(l.contains a) && distinctKeys l

end AutoParseTreeVisitor
namespace AutoParseTreeVisitor

/-! ### The loop on a finite list -/

/-- A call to a returning, read-only handler: it is logged and it leaves the
loop variable and the tree memory as they were. -/
theorem invoke_returns {ε σ : Type} (f : Ptr → Mem σ → Outcome ε (Mem σ)) (c : Callee)
    (depth arg : Nat) (st : LoopState σ)
    (hret : (f arg st.mem).isReturned = true) (hro : (f arg st.mem).state.heap = st.mem.heap) :
    ∃ m : Mem σ, m.heap = st.mem.heap ∧
      invoke f c depth arg st =
        .returned ⟨st.pList, m, st.calls ++ [⟨c, arg, depth + 1⟩], st.iterations⟩ := by
  cases hfo : f arg st.mem with
  | returned m =>
    rw [hfo] at hro
    exact ⟨m, hro, by simp [invoke, hfo]⟩
  | raised e m =>
    rw [hfo] at hret
    simp [Outcome.isReturned] at hret

/-- One loop body with returning, read-only handlers. -/
theorem VisitList_body_returns {ε σ : Type} (h : Handlers ε σ) (depth : Nat) (st : LoopState σ)
    (hro : h.ReadOnly) (hret : h.Returns) :
    ∃ m : Mem σ, m.heap = st.mem.heap ∧
      VisitList_body h depth st =
        .returned ⟨(st.mem.heap st.pList).Next, m,
          st.calls ++ nodeCalls st.mem.heap depth st.pList, st.iterations + 1⟩ := by
  obtain ⟨m1, hm1, e1⟩ := invoke_returns h.VisitParseTreeNodeBase .VisitParseTreeNodeBase depth
    st.pList st (hret _ _).1 (hro _ _).1
  by_cases hel : (st.mem.heap st.pList).Element = 0
  · refine ⟨m1, hm1, ?_⟩
    simp [VisitList_body, e1, Outcome.andThen, hm1, hel, nodeCalls]
  · obtain ⟨m2, hm2, e2⟩ := invoke_returns h.visit_func .visit_func depth
      (st.mem.heap st.pList).Element
      ⟨st.pList, m1, st.calls ++ [⟨.VisitParseTreeNodeBase, st.pList, depth + 1⟩], st.iterations⟩
      (hret _ _).2 (hro _ _).2
    refine ⟨m2, by rw [hm2, hm1], ?_⟩
    simp only at hm2 e2
    simp [VisitList_body, e1, Outcome.andThen, hm1, hel, nodeCalls, e2, hm2]

/-- The loop on a finite list, with returning, read-only handlers and enough
fuel: it ends with `pList` null, after one body per node, having made the
calls of each node in turn and written nothing to the tree. -/
theorem VisitList_loop_finite {ε σ : Type} (h : Handlers ε σ) (depth : Nat)
    (hro : h.ReadOnly) (hret : h.Returns) (nodes : List Ptr) :
    ∀ (fuel : Nat) (st : LoopState σ), IsList st.mem.heap st.pList nodes →
      nodes.length < fuel →
      ∃ m : Mem σ, m.heap = st.mem.heap ∧
        VisitList_loop h depth fuel st =
          some (.returned ⟨0, m, st.calls ++ nodes.flatMap (nodeCalls st.mem.heap depth),
            st.iterations + nodes.length⟩) := by
  induction nodes with
  | nil =>
    intro fuel st hl hf
    cases fuel with
    | zero => simp at hf
    | succ fuel =>
      have hp : st.pList = 0 := hl
      refine ⟨st.mem, rfl, ?_⟩
      cases st with
      | mk p m c i =>
        simp only at hp
        subst hp
        simp [VisitList_loop]
  | cons q rest ih =>
    intro fuel st hl hf
    obtain ⟨hne, hq, htail⟩ := hl
    cases fuel with
    | zero => simp at hf
    | succ fuel =>
      obtain ⟨m1, hm1, hb⟩ := VisitList_body_returns h depth st hro hret
      have hl1 : IsList m1.heap (st.mem.heap st.pList).Next rest := by rw [hm1]; exact htail
      obtain ⟨m2, hm2, hrun⟩ := ih fuel
        ⟨(st.mem.heap st.pList).Next, m1, st.calls ++ nodeCalls st.mem.heap depth st.pList,
          st.iterations + 1⟩ hl1 (by simpa using hf)
      refine ⟨m2, by rw [hm2, hm1], ?_⟩
      simp only at hrun hm2
      rw [VisitList_loop, if_neg hne, hb]
      simp only
      rw [hrun, hm1, ← hq]
      simp [List.flatMap_cons, List.append_assoc, Nat.add_assoc, Nat.add_comm 1]

/-- With as many condition tests as nodes, or fewer, the loop has not ended. -/
theorem VisitList_loop_starved {ε σ : Type} (h : Handlers ε σ) (depth : Nat)
    (hro : h.ReadOnly) (hret : h.Returns) (nodes : List Ptr) :
    ∀ (fuel : Nat) (st : LoopState σ), IsList st.mem.heap st.pList nodes →
      fuel ≤ nodes.length → VisitList_loop h depth fuel st = none := by
  induction nodes with
  | nil =>
    intro fuel st _ hf
    have : fuel = 0 := by simpa using hf
    subst this
    rfl
  | cons q rest ih =>
    intro fuel st hl hf
    obtain ⟨hne, _, htail⟩ := hl
    cases fuel with
    | zero => rfl
    | succ fuel =>
      obtain ⟨m1, hm1, hb⟩ := VisitList_body_returns h depth st hro hret
      rw [VisitList_loop, if_neg hne, hb]
      exact ih fuel _ (by simpa [hm1] using htail) (by simpa using hf)


/-- More fuel never changes the result of a loop that has ended. -/
theorem VisitList_loop_mono {ε σ : Type} (h : Handlers ε σ) (depth : Nat) :
    ∀ (fuel extra : Nat) (st : LoopState σ) (r : Outcome ε (LoopState σ)),
      VisitList_loop h depth fuel st = some r →
      VisitList_loop h depth (fuel + extra) st = some r := by
  intro fuel
  induction fuel with
  | zero => intro extra st r hr; simp [VisitList_loop] at hr
  | succ fuel ih =>
    intro extra st r hr
    rw [Nat.add_right_comm]
    rw [VisitList_loop] at hr ⊢
    by_cases hp : st.pList = 0
    · rw [if_pos hp] at hr ⊢; exact hr
    · rw [if_neg hp] at hr ⊢
      cases hb : VisitList_body h depth st with
      | returned st1 => rw [hb] at hr; simp only at hr ⊢; exact ih extra st1 r hr
      | raised e st1 => rw [hb] at hr; simp only at hr ⊢; exact hr

/-- A read-only call keeps the tree memory, however it ends. -/
theorem invoke_heap {ε σ : Type} (f : Ptr → Mem σ → Outcome ε (Mem σ)) (c : Callee)
    (depth arg : Nat) (st : LoopState σ) (hro : (f arg st.mem).state.heap = st.mem.heap) :
    (invoke f c depth arg st).state.mem.heap = st.mem.heap := by
  unfold invoke
  cases hfo : f arg st.mem with
  | returned m => rw [hfo] at hro; simpa [Outcome.state] using hro
  | raised e m => rw [hfo] at hro; simpa [Outcome.state] using hro

/-- One loop body with read-only handlers keeps the tree memory, however it ends. -/
theorem VisitList_body_heap {ε σ : Type} (h : Handlers ε σ) (depth : Nat) (st : LoopState σ)
    (hro : h.ReadOnly) : (VisitList_body h depth st).state.mem.heap = st.mem.heap := by
  have h1 := invoke_heap h.VisitParseTreeNodeBase .VisitParseTreeNodeBase depth st.pList st
    (hro _ _).1
  unfold VisitList_body
  cases hi : invoke h.VisitParseTreeNodeBase .VisitParseTreeNodeBase depth st.pList st with
  | raised e st1 =>
    rw [hi] at h1
    simpa [Outcome.andThen, Outcome.state] using h1
  | returned st1 =>
    rw [hi] at h1
    simp only [Outcome.state] at h1
    simp only [Outcome.andThen]
    by_cases hel : (st1.mem.heap st1.pList).Element = 0
    · rw [if_neg (not_not.mpr hel)]
      exact h1
    · have h2 := invoke_heap h.visit_func .visit_func depth (st1.mem.heap st1.pList).Element st1
        (hro _ _).2
      rw [if_pos hel]
      cases hj : invoke h.visit_func .visit_func depth (st1.mem.heap st1.pList).Element st1 with
      | raised e st2 =>
        rw [hj] at h2
        simp only [Outcome.state] at h2 ⊢
        rw [h2, h1]
      | returned st2 =>
        rw [hj] at h2
        simp only [Outcome.state] at h2 ⊢
        rw [h2, h1]

/-- The loop with read-only handlers keeps the tree memory: on every list,
finite or not, and whether it ends by return or by a raised error. -/
theorem VisitList_loop_heap {ε σ : Type} (h : Handlers ε σ) (depth : Nat) (hro : h.ReadOnly) :
    ∀ (fuel : Nat) (st : LoopState σ) (r : Outcome ε (LoopState σ)),
      VisitList_loop h depth fuel st = some r → r.state.mem.heap = st.mem.heap := by
  intro fuel
  induction fuel with
  | zero => intro st r hr; simp [VisitList_loop] at hr
  | succ fuel ih =>
    intro st r hr
    rw [VisitList_loop] at hr
    by_cases hp : st.pList = 0
    · rw [if_pos hp] at hr
      cases hr
      rfl
    · rw [if_neg hp] at hr
      have hb := VisitList_body_heap h depth st hro
      cases hbo : VisitList_body h depth st with
      | returned st1 =>
        rw [hbo] at hr hb
        simp only at hr
        rw [ih st1 r hr]
        exact hb
      | raised e st1 =>
        rw [hbo] at hr hb
        simp only [Option.some.injEq] at hr
        subst hr
        exact hb

/-! ### Finite lists in memory -/

/-- A pointer denotes at most one list. -/
theorem IsList.unique (heap : Heap) : ∀ (l1 l2 : List Ptr) (p : Ptr),
    IsList heap p l1 → IsList heap p l2 → l1 = l2 := by
  intro l1
  induction l1 with
  | nil =>
    intro l2 p h1 h2
    cases l2 with
    | nil => rfl
    | cons q rest => exact absurd h1 h2.1
  | cons q rest ih =>
    intro l2 p h1 h2
    cases l2 with
    | nil => exact absurd h2 h1.1
    | cons q2 rest2 =>
      obtain ⟨_, e1, t1⟩ := h1
      obtain ⟨_, e2, t2⟩ := h2
      rw [← e1, ← e2, ih rest2 _ t1 t2]

/-- Every suffix of a list in memory is the list denoted by its first node. -/
theorem IsList.suffix (heap : Heap) : ∀ (a : List Ptr) (q : Ptr) (b : List Ptr) (p : Ptr),
    IsList heap p (a ++ q :: b) → IsList heap q (q :: b) := by
  intro a
  induction a with
  | nil =>
    intro q b p hl
    obtain ⟨hne, e, t⟩ := hl
    subst e
    exact ⟨hne, rfl, t⟩
  | cons x a ih =>
    intro q b p hl
    exact ih q b _ hl.2.2

/-- The nodes of a list in memory are pairwise distinct: a finite chain that
reaches null does not pass through a node twice. -/
theorem IsList.nodup (heap : Heap) : ∀ (nodes : List Ptr) (p : Ptr),
    IsList heap p nodes → nodes.Nodup := by
  intro nodes
  induction nodes with
  | nil => intro p _; exact List.nodup_nil
  | cons q rest ih =>
    intro p hl
    refine List.nodup_cons.mpr ⟨?_, ih _ hl.2.2⟩
    intro hmem
    obtain ⟨a, b, hab⟩ := List.append_of_mem hmem
    have hq : IsList heap q (q :: rest) := by
      obtain ⟨hne, e, t⟩ := hl
      subst e
      exact ⟨hne, rfl, t⟩
    have hq2 : IsList heap q (q :: b) := by
      have := hl.2.2
      rw [hab] at this
      exact IsList.suffix heap a q b _ this
    have hEq := IsList.unique heap _ _ q hq hq2
    have hlen := congrArg List.length hEq
    rw [hab] at hlen
    simp at hlen
    omega

/-- The tail after position `i` is the list denoted by the `Next` of node `i`. -/
theorem IsList.drop (heap : Heap) : ∀ (nodes : List Ptr) (p : Ptr) (i : Nat) (hi : i < nodes.length),
    IsList heap p nodes → IsList heap (heap nodes[i]).Next (nodes.drop (i + 1)) := by
  intro nodes
  induction nodes with
  | nil => intro p i hi; simp at hi
  | cons q rest ih =>
    intro p i hi hl
    obtain ⟨_, e, t⟩ := hl
    cases i with
    | zero => simpa [← e] using t
    | succ i =>
      simp only [List.length_cons, Nat.add_lt_add_iff_right] at hi
      simpa using ih _ i hi t

/-- The last node of a list in memory has a null `Next`. -/
theorem IsList.getLast_next (heap : Heap) : ∀ (nodes : List Ptr) (p : Ptr) (hne : nodes ≠ []),
    IsList heap p nodes → (heap (nodes.getLast hne)).Next = 0 := by
  intro nodes
  induction nodes with
  | nil => intro p hne; exact absurd rfl hne
  | cons q rest ih =>
    intro p hne hl
    obtain ⟨_, e, t⟩ := hl
    cases rest with
    | nil =>
      have : (heap p).Next = 0 := t
      simpa [← e] using this
    | cons r rest2 =>
      rw [List.getLast_cons (by simp)]
      exact ih _ (by simp) t

/-! ### Reading a trace -/

theorem elementVisits_append (a b : List Call) :
    elementVisits (a ++ b) = elementVisits a ++ elementVisits b := by
  simp [elementVisits]

theorem nodeVisits_append (a b : List Call) :
    nodeVisits (a ++ b) = nodeVisits a ++ nodeVisits b := by
  simp [nodeVisits]

theorem elementVisits_nodeCalls (heap : Heap) (depth : Nat) (p : Ptr) :
    elementVisits (nodeCalls heap depth p) = elementsOf heap [p] := by
  by_cases hel : (heap p).Element = 0 <;> simp [elementVisits, nodeCalls, elementsOf, hel]

theorem nodeVisits_nodeCalls (heap : Heap) (depth : Nat) (p : Ptr) :
    nodeVisits (nodeCalls heap depth p) = [p] := by
  by_cases hel : (heap p).Element = 0 <;> simp [nodeVisits, nodeCalls, hel]

theorem elementsOf_append (heap : Heap) (a b : List Ptr) :
    elementsOf heap (a ++ b) = elementsOf heap a ++ elementsOf heap b := by
  simp [elementsOf]

/-- The element visits of the per-node trace are the non-empty slots in order. -/
theorem elementVisits_flatMap (heap : Heap) (depth : Nat) (nodes : List Ptr) :
    elementVisits (nodes.flatMap (nodeCalls heap depth)) = elementsOf heap nodes := by
  induction nodes with
  | nil => rfl
  | cons q rest ih =>
    rw [List.flatMap_cons, elementVisits_append, ih, elementVisits_nodeCalls,
      ← elementsOf_append]
    rfl

/-- The list-node visits of the per-node trace are the nodes in order. -/
theorem nodeVisits_flatMap (heap : Heap) (depth : Nat) (nodes : List Ptr) :
    nodeVisits (nodes.flatMap (nodeCalls heap depth)) = nodes := by
  induction nodes with
  | nil => rfl
  | cons q rest ih =>
    rw [List.flatMap_cons, nodeVisits_append, ih, nodeVisits_nodeCalls]
    rfl

/-- The per-node trace splits around position `i`. -/
theorem flatMap_split (heap : Heap) (depth : Nat) (nodes : List Ptr) (i : Nat)
    (hi : i < nodes.length) :
    nodes.flatMap (nodeCalls heap depth) =
      (nodes.take i).flatMap (nodeCalls heap depth) ++ nodeCalls heap depth nodes[i] ++
        (nodes.drop (i + 1)).flatMap (nodeCalls heap depth) := by
  have hsplit : nodes = nodes.take i ++ nodes[i] :: nodes.drop (i + 1) := by
    rw [List.getElem_cons_drop, List.take_append_drop]
  have hmap := congrArg (fun l => List.flatMap l (nodeCalls heap depth)) hsplit
  exact hmap.trans (by
    show List.flatMap _ _ = _
    rw [List.flatMap_append, List.flatMap_cons, List.append_assoc])

theorem getElem?_after_prefix (pre post : List Call) (a b : Call) :
    (pre ++ [a, b] ++ post)[pre.length]? = some a := by
  rw [List.append_assoc, List.getElem?_append_right (Nat.le_refl _)]
  simp

theorem getElem?_succ_after_prefix (pre post : List Call) (a b : Call) :
    (pre ++ [a, b] ++ post)[pre.length + 1]? = some b := by
  rw [List.append_assoc, List.getElem?_append_right (Nat.le_succ _)]
  simp

theorem take_succ_after_prefix (pre post : List Call) (a b : Call) :
    (pre ++ [a, b] ++ post).take (pre.length + 1) = pre ++ [a] := by
  rw [List.append_assoc, List.take_append]
  simp

/-- The run of `VisitList` on a finite list, in the terms of `VisitList_loop_finite`. -/
theorem VisitList_finite {ε σ : Type} (h : Handlers ε σ) (depth fuel : Nat) (pList : Ptr)
    (mem : Mem σ) (nodes : List Ptr) (hro : h.ReadOnly) (hret : h.Returns)
    (hlist : IsList mem.heap pList nodes) (hfuel : nodes.length < fuel) :
    ∃ m : Mem σ, m.heap = mem.heap ∧
      VisitList h depth fuel pList mem =
        some (.returned ⟨0, m, nodes.flatMap (nodeCalls mem.heap depth), nodes.length⟩) := by
  obtain ⟨m, hm, hrun⟩ := VisitList_loop_finite h depth hro hret nodes fuel ⟨pList, mem, [], 0⟩
    hlist hfuel
  exact ⟨m, hm, by simpa [VisitList] using hrun⟩

theorem recorder_readOnly : recorder.ReadOnly := fun _ _ => ⟨rfl, rfl⟩

theorem recorder_returns : recorder.Returns := fun _ _ => ⟨rfl, rfl⟩

theorem counter_readOnly : counter.ReadOnly := fun _ _ => ⟨rfl, rfl⟩

theorem counter_returns : counter.Returns := fun _ _ => ⟨rfl, rfl⟩

/-! ### The claims about `VisitList` -/

/-- C1. On a finite list with nodes `nodes` (head to tail), traversed to the end
with handlers that return and leave the tree alone, the element-visiting
function is called on exactly the non-empty `Element` slots in list order, and
for every position `i` with a non-empty slot the trace holds the
`VisitParseTreeNodeBase` call on node `i` at an index `j` before the index `k`
of the visit of its element, where `k` is the visit that comes after exactly
the element visits of the positions before `i`. -/
theorem VisitList_element_order {ε σ : Type} (h : Handlers ε σ) (depth fuel : Nat)
    (pList : Ptr) (mem : Mem σ) (nodes : List Ptr) (hro : h.ReadOnly) (hret : h.Returns)
    (hlist : IsList mem.heap pList nodes) (hfuel : nodes.length < fuel) :
    ∃ st : LoopState σ, VisitList h depth fuel pList mem = some (.returned st) ∧
      elementVisits st.calls = elementsOf mem.heap nodes ∧
      ∀ (i : Nat) (hi : i < nodes.length), (mem.heap nodes[i]).Element ≠ 0 →
        ∃ j k : Nat, j < k ∧
          st.calls[j]? = some ⟨.VisitParseTreeNodeBase, nodes[i], depth + 1⟩ ∧
          st.calls[k]? = some ⟨.visit_func, (mem.heap nodes[i]).Element, depth + 1⟩ ∧
          elementVisits (st.calls.take k) = elementsOf mem.heap (nodes.take i) := by
  obtain ⟨m, _, hrun⟩ := VisitList_finite h depth fuel pList mem nodes hro hret hlist hfuel
  refine ⟨_, hrun, elementVisits_flatMap _ _ _, ?_⟩
  intro i hi hel
  have hs := flatMap_split mem.heap depth nodes i hi
  have hnc : nodeCalls mem.heap depth nodes[i] =
      [⟨.VisitParseTreeNodeBase, nodes[i], depth + 1⟩,
        ⟨.visit_func, (mem.heap nodes[i]).Element, depth + 1⟩] := by
    simp [nodeCalls, hel]
  rw [hnc] at hs
  refine ⟨((nodes.take i).flatMap (nodeCalls mem.heap depth)).length,
    ((nodes.take i).flatMap (nodeCalls mem.heap depth)).length + 1, Nat.lt_succ_self _, ?_, ?_, ?_⟩
  · show (nodes.flatMap (nodeCalls mem.heap depth))[_]? = _
    rw [hs]
    exact getElem?_after_prefix _ _ _ _
  · show (nodes.flatMap (nodeCalls mem.heap depth))[_]? = _
    rw [hs]
    exact getElem?_succ_after_prefix _ _ _ _
  · show elementVisits ((nodes.flatMap (nodeCalls mem.heap depth)).take _) = _
    rw [hs, take_succ_after_prefix, elementVisits_append, elementVisits_flatMap]
    simp [elementVisits]

theorem VisitList_element_order_witness :
    (recorder.ReadOnly ∧ recorder.Returns ∧ IsList heap3 1 [1, 2, 3] ∧ [1, 2, 3].length < 4) ∧
    ∃ st : LoopState (List Ptr), VisitList recorder 0 4 1 ⟨heap3, []⟩ = some (.returned st) ∧
      elementVisits st.calls = elementsOf heap3 [1, 2, 3] ∧
      ∀ (i : Nat) (hi : i < [1, 2, 3].length), (heap3 [1, 2, 3][i]).Element ≠ 0 →
        ∃ j k : Nat, j < k ∧
          st.calls[j]? = some ⟨.VisitParseTreeNodeBase, [1, 2, 3][i], 0 + 1⟩ ∧
          st.calls[k]? = some ⟨.visit_func, (heap3 [1, 2, 3][i]).Element, 0 + 1⟩ ∧
          elementVisits (st.calls.take k) = elementsOf heap3 (([1, 2, 3] : List Ptr).take i) :=
  ⟨⟨recorder_readOnly, recorder_returns, by decide, by decide⟩,
    VisitList_element_order recorder 0 4 1 ⟨heap3, []⟩ [1, 2, 3] recorder_readOnly
      recorder_returns (by decide) (by decide)⟩

/-- C2. On a finite list traversed to the end (handlers that return and leave
the tree alone), the full trace of handler calls is the concatenation, over the
nodes from head to tail, of the visit of the list node followed by the visit
of its element when the slot is non-empty.  In particular, around every
position `i` with a non-empty slot the trace reads: the calls of the earlier
nodes, then the visit of node `i`, then at once the visit of its element,
then the calls of the later nodes. -/
theorem VisitList_trace_interleaved {ε σ : Type} (h : Handlers ε σ) (depth fuel : Nat)
    (pList : Ptr) (mem : Mem σ) (nodes : List Ptr) (hro : h.ReadOnly) (hret : h.Returns)
    (hlist : IsList mem.heap pList nodes) (hfuel : nodes.length < fuel) :
    ∃ st : LoopState σ, VisitList h depth fuel pList mem = some (.returned st) ∧
      st.calls = nodes.flatMap (fun p =>
        ⟨.VisitParseTreeNodeBase, p, depth + 1⟩ ::
          (if (mem.heap p).Element ≠ 0 then [⟨.visit_func, (mem.heap p).Element, depth + 1⟩]
            else [])) ∧
      ∀ (i : Nat) (hi : i < nodes.length), (mem.heap nodes[i]).Element ≠ 0 →
        st.calls = (nodes.take i).flatMap (nodeCalls mem.heap depth) ++
          [⟨.VisitParseTreeNodeBase, nodes[i], depth + 1⟩,
            ⟨.visit_func, (mem.heap nodes[i]).Element, depth + 1⟩] ++
          (nodes.drop (i + 1)).flatMap (nodeCalls mem.heap depth) := by
  obtain ⟨m, _, hrun⟩ := VisitList_finite h depth fuel pList mem nodes hro hret hlist hfuel
  refine ⟨_, hrun, rfl, ?_⟩
  intro i hi hel
  have hs := flatMap_split mem.heap depth nodes i hi
  have hnc : nodeCalls mem.heap depth nodes[i] =
      [⟨.VisitParseTreeNodeBase, nodes[i], depth + 1⟩,
        ⟨.visit_func, (mem.heap nodes[i]).Element, depth + 1⟩] := by
    simp [nodeCalls, hel]
  rw [hnc] at hs
  exact hs

theorem VisitList_trace_interleaved_witness :
    (recorder.ReadOnly ∧ recorder.Returns ∧ IsList heap3 1 [1, 2, 3] ∧ [1, 2, 3].length < 7) ∧
    ∃ st : LoopState (List Ptr), VisitList recorder 5 7 1 ⟨heap3, []⟩ = some (.returned st) ∧
      st.calls = [1, 2, 3].flatMap (fun p =>
        ⟨.VisitParseTreeNodeBase, p, 5 + 1⟩ ::
          (if (heap3 p).Element ≠ 0 then [⟨.visit_func, (heap3 p).Element, 5 + 1⟩] else [])) ∧
      ∀ (i : Nat) (hi : i < [1, 2, 3].length), (heap3 [1, 2, 3][i]).Element ≠ 0 →
        st.calls = (([1, 2, 3] : List Ptr).take i).flatMap (nodeCalls heap3 5) ++
          [⟨.VisitParseTreeNodeBase, [1, 2, 3][i], 5 + 1⟩,
            ⟨.visit_func, (heap3 [1, 2, 3][i]).Element, 5 + 1⟩] ++
          (([1, 2, 3] : List Ptr).drop (i + 1)).flatMap (nodeCalls heap3 5) :=
  ⟨⟨recorder_readOnly, recorder_returns, by decide, by decide⟩,
    VisitList_trace_interleaved recorder 5 7 1 ⟨heap3, []⟩ [1, 2, 3] recorder_readOnly
      recorder_returns (by decide) (by decide)⟩

/-- C3. Called on the null list reference, `VisitList` ends at the first test
of the loop condition: it returns normally, has called neither
`VisitParseTreeNodeBase` nor the element-visiting function, has run no loop
body, and leaves memory and visitor as they were; this for every pair of
handlers, also ones that would raise or write to the tree. -/
theorem VisitList_null_is_noop {ε σ : Type} (h : Handlers ε σ) (depth fuel : Nat)
    (mem : Mem σ) :
    VisitList h depth (fuel + 1) 0 mem = some (.returned ⟨0, mem, [], 0⟩) := by
  simp [VisitList, VisitList_loop]

/-- C4. On a finite list traversed to the end, a node at position `i` whose
`Element` slot is empty contributes exactly one call, the
`VisitParseTreeNodeBase` call on the node, and the traversal goes on with the
list denoted by its `Next`; the number of element visits is the number of
nodes with a non-empty slot and the number of list-node visits is the length
of the list. -/
theorem VisitList_empty_slot {ε σ : Type} (h : Handlers ε σ) (depth fuel : Nat)
    (pList : Ptr) (mem : Mem σ) (nodes : List Ptr) (hro : h.ReadOnly) (hret : h.Returns)
    (hlist : IsList mem.heap pList nodes) (hfuel : nodes.length < fuel) :
    ∃ st : LoopState σ, VisitList h depth fuel pList mem = some (.returned st) ∧
      (∀ (i : Nat) (hi : i < nodes.length), (mem.heap nodes[i]).Element = 0 →
        st.calls = (nodes.take i).flatMap (nodeCalls mem.heap depth) ++
          [⟨.VisitParseTreeNodeBase, nodes[i], depth + 1⟩] ++
          (nodes.drop (i + 1)).flatMap (nodeCalls mem.heap depth) ∧
        IsList mem.heap (mem.heap nodes[i]).Next (nodes.drop (i + 1))) ∧
      (elementVisits st.calls).length =
        (nodes.filter (fun p => (mem.heap p).Element ≠ 0)).length ∧
      (nodeVisits st.calls).length = nodes.length := by
  obtain ⟨m, _, hrun⟩ := VisitList_finite h depth fuel pList mem nodes hro hret hlist hfuel
  refine ⟨_, hrun, ?_, ?_, ?_⟩
  · intro i hi hel
    have hs := flatMap_split mem.heap depth nodes i hi
    have hnc : nodeCalls mem.heap depth nodes[i] =
        [⟨.VisitParseTreeNodeBase, nodes[i], depth + 1⟩] := by
      simp [nodeCalls, hel]
    rw [hnc] at hs
    exact ⟨hs, IsList.drop mem.heap nodes pList i hi hlist⟩
  · show (elementVisits (nodes.flatMap (nodeCalls mem.heap depth))).length = _
    rw [elementVisits_flatMap, elementsOf, List.filter_map, List.length_map]
    rfl
  · show (nodeVisits (nodes.flatMap (nodeCalls mem.heap depth))).length = _
    rw [nodeVisits_flatMap]

theorem VisitList_empty_slot_witness :
    (counter.ReadOnly ∧ counter.Returns ∧ IsList heap3 1 [1, 2, 3] ∧ [1, 2, 3].length < 4) ∧
    ∃ st : LoopState Nat, VisitList counter 0 4 1 ⟨heap3, 0⟩ = some (.returned st) ∧
      (∀ (i : Nat) (hi : i < [1, 2, 3].length), (heap3 [1, 2, 3][i]).Element = 0 →
        st.calls = (([1, 2, 3] : List Ptr).take i).flatMap (nodeCalls heap3 0) ++
          [⟨.VisitParseTreeNodeBase, [1, 2, 3][i], 0 + 1⟩] ++
          (([1, 2, 3] : List Ptr).drop (i + 1)).flatMap (nodeCalls heap3 0) ∧
        IsList heap3 (heap3 [1, 2, 3][i]).Next (([1, 2, 3] : List Ptr).drop (i + 1))) ∧
      (elementVisits st.calls).length =
        (([1, 2, 3] : List Ptr).filter (fun p => (heap3 p).Element ≠ 0)).length ∧
      (nodeVisits st.calls).length = [1, 2, 3].length :=
  ⟨⟨counter_readOnly, counter_returns, by decide, by decide⟩,
    VisitList_empty_slot counter 0 4 1 ⟨heap3, 0⟩ [1, 2, 3] counter_readOnly counter_returns
      (by decide) (by decide)⟩

/-- C5. In one pass over a finite list (which is acyclic, so its nodes are
pairwise distinct), every list node is handed to `VisitParseTreeNodeBase`
exactly once and no other pointer ever is; the element visits are the
non-empty slots, slot by slot, so that when the slots hold distinct elements
every one of them is handed to the element-visiting function exactly once. -/
theorem VisitList_exactly_once {ε σ : Type} (h : Handlers ε σ) (depth fuel : Nat)
    (pList : Ptr) (mem : Mem σ) (nodes : List Ptr) (hro : h.ReadOnly) (hret : h.Returns)
    (hlist : IsList mem.heap pList nodes) (hfuel : nodes.length < fuel) :
    ∃ st : LoopState σ, VisitList h depth fuel pList mem = some (.returned st) ∧
      nodes.Nodup ∧
      (∀ p : Ptr, (nodeVisits st.calls).count p = if p ∈ nodes then 1 else 0) ∧
      (∀ e : Ptr, (elementVisits st.calls).count e = (elementsOf mem.heap nodes).count e) ∧
      ((elementsOf mem.heap nodes).Nodup →
        ∀ e ∈ elementsOf mem.heap nodes, (elementVisits st.calls).count e = 1) := by
  obtain ⟨m, _, hrun⟩ := VisitList_finite h depth fuel pList mem nodes hro hret hlist hfuel
  have hnd := IsList.nodup mem.heap nodes pList hlist
  refine ⟨_, hrun, hnd, ?_, ?_, ?_⟩
  · intro p
    show (nodeVisits (nodes.flatMap (nodeCalls mem.heap depth))).count p = _
    rw [nodeVisits_flatMap]
    by_cases hp : p ∈ nodes
    · rw [if_pos hp]; exact List.count_eq_one_of_mem hnd hp
    · rw [if_neg hp]; exact List.count_eq_zero_of_not_mem hp
  · intro e
    show (elementVisits (nodes.flatMap (nodeCalls mem.heap depth))).count e = _
    rw [elementVisits_flatMap]
  · intro hend e he
    show (elementVisits (nodes.flatMap (nodeCalls mem.heap depth))).count e = _
    rw [elementVisits_flatMap]
    exact List.count_eq_one_of_mem hend he

theorem VisitList_exactly_once_witness :
    (recorder.ReadOnly ∧ recorder.Returns ∧ IsList heap3 1 [1, 2, 3] ∧ [1, 2, 3].length < 9) ∧
    ∃ st : LoopState (List Ptr), VisitList recorder 0 9 1 ⟨heap3, []⟩ = some (.returned st) ∧
      ([1, 2, 3] : List Ptr).Nodup ∧
      (∀ p : Ptr, (nodeVisits st.calls).count p = if p ∈ ([1, 2, 3] : List Ptr) then 1 else 0) ∧
      (∀ e : Ptr, (elementVisits st.calls).count e = (elementsOf heap3 [1, 2, 3]).count e) ∧
      ((elementsOf heap3 [1, 2, 3]).Nodup →
        ∀ e ∈ elementsOf heap3 [1, 2, 3], (elementVisits st.calls).count e = 1) :=
  ⟨⟨recorder_readOnly, recorder_returns, by decide, by decide⟩,
    VisitList_exactly_once recorder 0 9 1 ⟨heap3, []⟩ [1, 2, 3] recorder_readOnly
      recorder_returns (by decide) (by decide)⟩

/-- C6. On a finite (hence acyclic) list, with handlers that return and leave
the tree alone, `VisitList` terminates: every fuel above the number of nodes
yields the same normal return, with the loop variable null and exactly one
loop body run per node; with fewer condition tests the loop has not ended;
and the last node run is the one whose `Next` is null. -/
theorem VisitList_terminates {ε σ : Type} (h : Handlers ε σ) (depth : Nat)
    (pList : Ptr) (mem : Mem σ) (nodes : List Ptr) (hro : h.ReadOnly) (hret : h.Returns)
    (hlist : IsList mem.heap pList nodes) :
    ∃ st : LoopState σ,
      (∀ fuel : Nat, nodes.length < fuel →
        VisitList h depth fuel pList mem = some (.returned st)) ∧
      (∀ fuel : Nat, fuel ≤ nodes.length → VisitList h depth fuel pList mem = none) ∧
      st.pList = 0 ∧ st.iterations = nodes.length ∧
      (nodeVisits st.calls).length = nodes.length ∧
      ∀ hne : nodes ≠ [], (mem.heap (nodes.getLast hne)).Next = 0 := by
  obtain ⟨m, _, hrun⟩ := VisitList_finite h depth (nodes.length + 1) pList mem nodes hro hret
    hlist (Nat.lt_succ_self _)
  refine ⟨⟨0, m, nodes.flatMap (nodeCalls mem.heap depth), nodes.length⟩, ?_, ?_, rfl, rfl, ?_, ?_⟩
  · intro fuel hf
    obtain ⟨extra, rfl⟩ := Nat.exists_eq_add_of_le (Nat.succ_le_of_lt hf)
    exact VisitList_loop_mono h depth _ extra _ _ hrun
  · intro fuel hf
    exact VisitList_loop_starved h depth hro hret nodes fuel ⟨pList, mem, [], 0⟩ hlist hf
  · show (nodeVisits (nodes.flatMap (nodeCalls mem.heap depth))).length = _
    rw [nodeVisits_flatMap]
  · intro hne
    exact IsList.getLast_next mem.heap nodes pList hne hlist

theorem VisitList_terminates_witness :
    (counter.ReadOnly ∧ counter.Returns ∧ IsList heap3 1 [1, 2, 3]) ∧
    ∃ st : LoopState Nat,
      (∀ fuel : Nat, [1, 2, 3].length < fuel →
        VisitList counter 0 fuel 1 ⟨heap3, 0⟩ = some (.returned st)) ∧
      (∀ fuel : Nat, fuel ≤ [1, 2, 3].length → VisitList counter 0 fuel 1 ⟨heap3, 0⟩ = none) ∧
      st.pList = 0 ∧ st.iterations = [1, 2, 3].length ∧
      (nodeVisits st.calls).length = [1, 2, 3].length ∧
      ∀ hne : ([1, 2, 3] : List Ptr) ≠ [], (heap3 (([1, 2, 3] : List Ptr).getLast hne)).Next = 0 :=
  ⟨⟨counter_readOnly, counter_returns, by decide⟩,
    VisitList_terminates counter 0 1 ⟨heap3, 0⟩ [1, 2, 3] counter_readOnly counter_returns
      (by decide)⟩

/-- C8. The visitation sequence is a function of the tree alone.  Two visitor
instances, each with its own state (they share none: the state of each is
passed to its own run), possibly of different classes, whose handlers return
and leave the tree alone, traverse the same finite list in the same tree
memory: both passes end and their sequences of handler calls are identical.
Two fresh instances of one class are the case of equal handlers and equal
initial states. -/
theorem VisitList_deterministic_in_tree {ε₁ σ₁ ε₂ σ₂ : Type} (h₁ : Handlers ε₁ σ₁)
    (h₂ : Handlers ε₂ σ₂) (depth fuel₁ fuel₂ : Nat) (pList : Ptr) (heap : Heap)
    (v₁ : σ₁) (v₂ : σ₂) (nodes : List Ptr)
    (hro₁ : h₁.ReadOnly) (hret₁ : h₁.Returns) (hro₂ : h₂.ReadOnly) (hret₂ : h₂.Returns)
    (hlist : IsList heap pList nodes) (hfuel₁ : nodes.length < fuel₁)
    (hfuel₂ : nodes.length < fuel₂) :
    ∃ (st₁ : LoopState σ₁) (st₂ : LoopState σ₂),
      VisitList h₁ depth fuel₁ pList ⟨heap, v₁⟩ = some (.returned st₁) ∧
      VisitList h₂ depth fuel₂ pList ⟨heap, v₂⟩ = some (.returned st₂) ∧
      st₁.calls = st₂.calls ∧ st₁.iterations = st₂.iterations := by
  obtain ⟨m₁, _, hrun₁⟩ := VisitList_finite h₁ depth fuel₁ pList ⟨heap, v₁⟩ nodes hro₁ hret₁
    hlist hfuel₁
  obtain ⟨m₂, _, hrun₂⟩ := VisitList_finite h₂ depth fuel₂ pList ⟨heap, v₂⟩ nodes hro₂ hret₂
    hlist hfuel₂
  exact ⟨_, _, hrun₁, hrun₂, rfl, rfl⟩

theorem VisitList_deterministic_in_tree_witness :
    (recorder.ReadOnly ∧ recorder.Returns ∧ counter.ReadOnly ∧ counter.Returns ∧
      IsList heap3 1 [1, 2, 3] ∧ [1, 2, 3].length < 4 ∧ [1, 2, 3].length < 50) ∧
    ∃ (st₁ : LoopState (List Ptr)) (st₂ : LoopState Nat),
      VisitList recorder 0 4 1 ⟨heap3, [7]⟩ = some (.returned st₁) ∧
      VisitList counter 0 50 1 ⟨heap3, 0⟩ = some (.returned st₂) ∧
      st₁.calls = st₂.calls ∧ st₁.iterations = st₂.iterations :=
  ⟨⟨recorder_readOnly, recorder_returns, counter_readOnly, counter_returns, by decide,
      by decide, by decide⟩,
    VisitList_deterministic_in_tree recorder counter 0 4 50 1 heap3 [7] 0 [1, 2, 3]
      recorder_readOnly recorder_returns counter_readOnly counter_returns (by decide)
      (by decide) (by decide)⟩

/-- C9. With handlers that do not write to the tree, `VisitList` writes
nothing to it either.  Whenever a pass ends, by return or by a raised error,
on a finite list or not, the tree memory is the one it started from; and on a
finite list with returning handlers the pass does end, every node has the
`Element` and `Next` it had, and the reference `pList` of the caller still
denotes the same list, although the local copy has advanced to null. -/
theorem VisitList_read_only {ε σ : Type} (h : Handlers ε σ) (depth fuel : Nat)
    (pList : Ptr) (mem : Mem σ) (nodes : List Ptr) (hro : h.ReadOnly) (hret : h.Returns)
    (hlist : IsList mem.heap pList nodes) (hfuel : nodes.length < fuel) :
    (∀ (fuel₀ : Nat) (p₀ : Ptr) (r : Outcome ε (LoopState σ)),
      VisitList h depth fuel₀ p₀ mem = some r → r.state.mem.heap = mem.heap) ∧
    ∃ st : LoopState σ, VisitList h depth fuel pList mem = some (.returned st) ∧
      (∀ p : Ptr, (st.mem.heap p).Element = (mem.heap p).Element ∧
        (st.mem.heap p).Next = (mem.heap p).Next) ∧
      IsList st.mem.heap pList nodes ∧ st.pList = 0 := by
  refine ⟨fun fuel₀ p₀ r hr => VisitList_loop_heap h depth hro fuel₀ ⟨p₀, mem, [], 0⟩ r hr, ?_⟩
  obtain ⟨m, hm, hrun⟩ := VisitList_finite h depth fuel pList mem nodes hro hret hlist hfuel
  refine ⟨_, hrun, ?_, ?_, rfl⟩
  · intro p
    show (m.heap p).Element = _ ∧ (m.heap p).Next = _
    rw [hm]
    exact ⟨rfl, rfl⟩
  · show IsList m.heap pList nodes
    rw [hm]
    exact hlist

theorem VisitList_read_only_witness :
    (recorder.ReadOnly ∧ recorder.Returns ∧ IsList heap3 1 [1, 2, 3] ∧ [1, 2, 3].length < 4) ∧
    (∀ (fuel₀ : Nat) (p₀ : Ptr) (r : Outcome Unit (LoopState (List Ptr))),
      VisitList recorder 0 fuel₀ p₀ ⟨heap3, []⟩ = some r → r.state.mem.heap = heap3) ∧
    ∃ st : LoopState (List Ptr), VisitList recorder 0 4 1 ⟨heap3, []⟩ = some (.returned st) ∧
      (∀ p : Ptr, (st.mem.heap p).Element = (heap3 p).Element ∧
        (st.mem.heap p).Next = (heap3 p).Next) ∧
      IsList st.mem.heap 1 [1, 2, 3] ∧ st.pList = 0 :=
  ⟨⟨recorder_readOnly, recorder_returns, by decide, by decide⟩,
    VisitList_read_only recorder 0 4 1 ⟨heap3, []⟩ [1, 2, 3] recorder_readOnly recorder_returns
      (by decide) (by decide)⟩


/-! ### The fallback chain -/

set_option maxRecDepth 100000 in
theorem HandlerDecl.Default_mem : HandlerDecl.Default ∈ handlerTable := by decide

set_option maxRecDepth 100000 in
theorem HandlerDecl.VisitParseTreeNodeBase_mem :
    HandlerDecl.VisitParseTreeNodeBase ∈ baseHandlers := by decide

theorem mem_leafHandlers {h : HandlerDecl} (hm : h ∈ leafHandlers) :
    h ∈ handlerTable ∧ h.role = Role.leaf := by
  have := List.mem_filter.mp hm
  exact ⟨this.1, by simpa using this.2⟩

theorem mem_baseHandlers {h : HandlerDecl} (hm : h ∈ baseHandlers) :
    h ∈ handlerTable ∧ h.role = Role.base := by
  have := List.mem_filter.mp hm
  exact ⟨this.1, by simpa using this.2⟩

theorem byParameterType_wellFormed : byParameterType.WellFormed := by
  intro h _
  show (baseHandlers.find? (fun b => b.param = h.param)).getD _ ∈ baseHandlers
  cases hf : baseHandlers.find? (fun b => b.param = h.param) with
  | none => exact HandlerDecl.VisitParseTreeNodeBase_mem
  | some b => exact List.mem_of_find?_eq_some hf

/-- The chain of a family Base handler: it ends in `Default` after at most
three handlers, all of them declared. -/
theorem defaultChain_base (t : Taxonomy) (b : HandlerDecl) (hb : b ∈ baseHandlers)
    (fuel : Nat) (hfuel : 3 ≤ fuel) :
    (defaultChain t fuel b).getLast? = some HandlerDecl.Default ∧
      (defaultChain t fuel b).length ≤ 3 ∧
      ∀ g ∈ defaultChain t fuel b, g ∈ handlerTable := by
  obtain ⟨n, rfl⟩ := Nat.exists_eq_add_of_le hfuel
  obtain ⟨hbt, hrole⟩ := mem_baseHandlers hb
  have hD := HandlerDecl.Default_mem
  have hN := (mem_baseHandlers HandlerDecl.VisitParseTreeNodeBase_mem).1
  have hdef : defaultBody t HandlerDecl.Default = none := rfl
  have hnode : defaultBody t HandlerDecl.VisitParseTreeNodeBase = some HandlerDecl.Default := rfl
  by_cases hbn : b = HandlerDecl.VisitParseTreeNodeBase
  · subst hbn
    have hc : defaultChain t (3 + n) HandlerDecl.VisitParseTreeNodeBase =
        [HandlerDecl.VisitParseTreeNodeBase, HandlerDecl.Default] := by
      rw [show 3 + n = (n + 1) + 1 + 1 by omega]
      simp [defaultChain, hnode, hdef]
    rw [hc]
    refine ⟨rfl, by simp, ?_⟩
    intro g hg
    simp at hg
    rcases hg with rfl | rfl
    · exact hN
    · exact hD
  · by_cases hv : t.viaNodeBase b = true
    · have hbody : defaultBody t b = some HandlerDecl.VisitParseTreeNodeBase := by
        simp [defaultBody, hrole, hbn, hv]
      have hc : defaultChain t (3 + n) b =
          [b, HandlerDecl.VisitParseTreeNodeBase, HandlerDecl.Default] := by
        rw [show 3 + n = (n + 1) + 1 + 1 by omega]
        simp [defaultChain, hbody, hnode, hdef]
      rw [hc]
      refine ⟨rfl, by simp, ?_⟩
      intro g hg
      simp at hg
      rcases hg with rfl | rfl | rfl
      · exact hbt
      · exact hN
      · exact hD
    · have hbody : defaultBody t b = some HandlerDecl.Default := by
        simp [defaultBody, hrole, hbn, hv]
      have hc : defaultChain t (3 + n) b = [b, HandlerDecl.Default] := by
        rw [show 3 + n = (n + 1) + 1 + 1 by omega]
        simp [defaultChain, hbody, hdef]
      rw [hc]
      refine ⟨rfl, by simp, ?_⟩
      intro g hg
      simp at hg
      rcases hg with rfl | rfl
      · exact hbt
      · exact hD

/-- C10. Exhaustiveness, on the model of the dispatch core and of the default
bodies.  Whatever family the taxonomy assigns to the leaf handlers, every
discriminant of the closed set is dispatched without error to a leaf handler
that the class declares, and from that handler the default bodies lead, in at
most four handlers that are all declared, to the universal `Default`. -/
theorem dispatch_exhaustive (t : Taxonomy) (ht : t.WellFormed) (tag : Nat)
    (htag : tag < kindCount) :
    ∃ h : HandlerDecl, dispatch tag = .ok h ∧ h ∈ handlerTable ∧ h.role = Role.leaf ∧
      ∀ fuel : Nat, 4 ≤ fuel →
        (defaultChain t fuel h).getLast? = some HandlerDecl.Default ∧
        (defaultChain t fuel h).length ≤ 4 ∧
        ∀ g ∈ defaultChain t fuel h, g ∈ handlerTable := by
  have hmem : leafHandlers[tag] ∈ leafHandlers := List.getElem_mem htag
  obtain ⟨htab, hrole⟩ := mem_leafHandlers hmem
  refine ⟨leafHandlers[tag], ?_, htab, hrole, ?_⟩
  · unfold dispatch
    rw [List.getElem?_eq_getElem htag]
  · intro fuel hfuel
    obtain ⟨n, rfl⟩ := Nat.exists_eq_add_of_le hfuel
    have hbody : defaultBody t leafHandlers[tag] = some (t.familyBase leafHandlers[tag]) := by
      simp [defaultBody, hrole]
    have hc : defaultChain t (4 + n) leafHandlers[tag] =
        leafHandlers[tag] :: defaultChain t (3 + n) (t.familyBase leafHandlers[tag]) := by
      rw [show 4 + n = (3 + n) + 1 by omega]
      simp [defaultChain, hbody]
    obtain ⟨hlast, hlen, hall⟩ :=
      defaultChain_base t _ (ht _ hmem) (3 + n) (Nat.le_add_right 3 n)
    rw [hc]
    refine ⟨?_, by simpa using hlen, ?_⟩
    · rw [List.getLast?_cons, hlast]
      rfl
    · intro g hg
      rcases List.mem_cons.mp hg with rfl | hg
      · exact htab
      · exact hall g hg

set_option maxRecDepth 100000 in
/-- The kind of `VisitPlusExpression`, the 206th leaf handler, under the
taxonomy read off the parameter types. -/
theorem dispatch_exhaustive_witness :
    (byParameterType.WellFormed ∧ 205 < kindCount) ∧
    ∃ h : HandlerDecl, dispatch 205 = .ok h ∧ h ∈ handlerTable ∧ h.role = Role.leaf ∧
      ∀ fuel : Nat, 4 ≤ fuel →
        (defaultChain byParameterType fuel h).getLast? = some HandlerDecl.Default ∧
        (defaultChain byParameterType fuel h).length ≤ 4 ∧
        ∀ g ∈ defaultChain byParameterType fuel h, g ∈ handlerTable :=
  ⟨⟨byParameterType_wellFormed, by decide⟩,
    dispatch_exhaustive byParameterType byParameterType_wellFormed 205 (by decide)⟩

/-! ### The loop as a sequence of calls -/

/-- The loop and the recursive walk agree from every state, whatever the
handlers do: same outcome, same memory, same visits in the same order. -/
theorem VisitList_loop_eq_walk {ε σ : Type} (h : Handlers ε σ) :
    ∀ (fuel d₁ d₂ : Nat) (st : LoopState σ),
      (VisitList_loop h d₁ fuel st).map
          (Outcome.map fun s => (s.mem, s.calls.map Call.visit)) =
        (walk h fuel d₂ st.pList st.mem).map
          (Outcome.map fun r => (r.1, st.calls.map Call.visit ++ r.2.map Call.visit)) := by
  intro fuel
  induction fuel with
  | zero => intro d₁ d₂ st; rfl
  | succ fuel ih =>
    intro d₁ d₂ st
    rw [VisitList_loop, walk]
    by_cases hp : st.pList = 0
    · simp [hp, Outcome.map]
    · rw [if_neg hp, if_neg hp]
      cases hv : h.VisitParseTreeNodeBase st.pList st.mem with
      | raised e m1 =>
        simp [VisitList_body, invoke, hv, Outcome.andThen, Outcome.map, Call.visit]
      | returned m1 =>
        by_cases hel : (m1.heap st.pList).Element = 0
        · have hrec := ih d₁ (d₂ + 1)
            ⟨(m1.heap st.pList).Next, m1,
              st.calls ++ [⟨.VisitParseTreeNodeBase, st.pList, d₁ + 1⟩], st.iterations + 1⟩
          simp only [VisitList_body, invoke, hv, Outcome.andThen, hel, ne_eq, not_true_eq_false,
            if_false]
          rw [hrec]
          simp only [Option.map_map]
          congr 1
          funext o
          cases o <;> simp [Outcome.map, Call.visit]
        · cases hw : h.visit_func (m1.heap st.pList).Element m1 with
          | raised e m2 =>
            simp [VisitList_body, invoke, hv, hw, Outcome.andThen, hel, Outcome.map, Call.visit]
          | returned m2 =>
            have hrec := ih d₁ (d₂ + 1)
              ⟨(m2.heap st.pList).Next, m2,
                st.calls ++ [⟨.VisitParseTreeNodeBase, st.pList, d₁ + 1⟩] ++
                  [⟨.visit_func, (m1.heap st.pList).Element, d₁ + 1⟩], st.iterations + 1⟩
            simp only [VisitList_body, invoke, hv, hw, Outcome.andThen, hel, ne_eq,
              not_false_eq_true, if_true]
            rw [hrec]
            simp only [Option.map_map]
            congr 1
            funext o
            cases o <;> simp [Outcome.map, Call.visit]

/-- With handlers that leave the tree alone, the loop on a finite list is the
sequence of the per-node calls run in order up to the first one that raises. -/
theorem VisitList_loop_runCalls {ε σ : Type} (h : Handlers ε σ) (depth : Nat)
    (hro : h.ReadOnly) (nodes : List Ptr) :
    ∀ (fuel : Nat) (st : LoopState σ), IsList st.mem.heap st.pList nodes →
      nodes.length < fuel →
      (VisitList_loop h depth fuel st).map (Outcome.map LoopState.observed) =
        some (runCalls h (nodes.flatMap (nodeCalls st.mem.heap depth)) st.mem st.calls) := by
  induction nodes with
  | nil =>
    intro fuel st hl hf
    cases fuel with
    | zero => simp at hf
    | succ fuel =>
      have hp : st.pList = 0 := hl
      simp [VisitList_loop, hp, runCalls, Outcome.map, LoopState.observed]
  | cons q rest ih =>
    intro fuel st hl hf
    obtain ⟨hne, hq, htail⟩ := hl
    cases fuel with
    | zero => simp at hf
    | succ fuel =>
      have hf1 : rest.length < fuel := by simpa using hf
      rw [VisitList_loop, if_neg hne, List.flatMap_cons, ← hq]
      have hro1 := (hro st.pList st.mem).1
      cases hv : h.VisitParseTreeNodeBase st.pList st.mem with
      | raised e m1 =>
        simp [VisitList_body, invoke, hv, Outcome.andThen, Outcome.map, LoopState.observed,
          nodeCalls, runCalls, Handlers.handler]
      | returned m1 =>
        rw [hv] at hro1
        have hm1 : m1.heap = st.mem.heap := hro1
        by_cases hel : (st.mem.heap st.pList).Element = 0
        · have hrec := ih fuel
            ⟨(m1.heap st.pList).Next, m1,
              st.calls ++ [⟨.VisitParseTreeNodeBase, st.pList, depth + 1⟩], st.iterations + 1⟩
            (by simpa [hm1] using htail) hf1
          simp only [hm1] at hrec
          simp only [VisitList_body, invoke, hv, Outcome.andThen, hm1, hel, ne_eq,
            not_true_eq_false, if_false, nodeCalls, runCalls, Handlers.handler,
            List.cons_append, List.nil_append]
          exact hrec
        · have hro2 := (hro (st.mem.heap st.pList).Element m1).2
          cases hw : h.visit_func (st.mem.heap st.pList).Element m1 with
          | raised e m2 =>
            simp [VisitList_body, invoke, hv, hw, Outcome.andThen, Outcome.map,
              LoopState.observed, nodeCalls, runCalls, Handlers.handler, hm1, hel]
          | returned m2 =>
            rw [hw] at hro2
            have hm2 : m2.heap = st.mem.heap := by
              have : m2.heap = m1.heap := hro2
              rw [this, hm1]
            have hrec := ih fuel
              ⟨(m2.heap st.pList).Next, m2,
                st.calls ++ [⟨.VisitParseTreeNodeBase, st.pList, depth + 1⟩] ++
                  [⟨.visit_func, (st.mem.heap st.pList).Element, depth + 1⟩],
                st.iterations + 1⟩
              (by simpa [hm2] using htail) hf1
            simp only [hm2] at hrec
            simp only [VisitList_body, invoke, hv, hw, Outcome.andThen, hm1, hm2, hel, ne_eq,
              not_false_eq_true, if_true, nodeCalls, runCalls, Handlers.handler,
              List.cons_append, List.nil_append]
            exact hrec

/-- A sequence of calls either runs to its end, or splits at its first raising
call: the calls before it returned, it raised, and nothing after it ran. -/
theorem runCalls_split {ε σ : Type} (h : Handlers ε σ) :
    ∀ (todo : List Call) (m : Mem σ) (made : List Call),
      (∃ m₁ : Mem σ, runCalls h todo m made = .returned (m₁, made ++ todo)) ∨
      (∃ (e : ε) (m₂ : Mem σ) (pre : List Call) (c : Call) (post : List Call) (m₁ : Mem σ),
        todo = pre ++ c :: post ∧
        runCalls h pre m made = .returned (m₁, made ++ pre) ∧
        h.handler c.callee c.arg m₁ = .raised e m₂ ∧
        runCalls h todo m made = .raised e (m₂, made ++ pre ++ [c])) := by
  intro todo
  induction todo with
  | nil => intro m made; exact Or.inl ⟨m, by simp [runCalls]⟩
  | cons c todo ih =>
    intro m made
    cases hc : h.handler c.callee c.arg m with
    | raised e m₂ =>
      refine Or.inr ⟨e, m₂, [], c, todo, m, rfl, by simp [runCalls], hc, ?_⟩
      simp [runCalls, hc]
    | returned m₁ =>
      rcases ih m₁ (made ++ [c]) with ⟨m₃, h₃⟩ | ⟨e, m₂, pre, c₂, post, m₃, hsplit, hpre, hraise, hall⟩
      · exact Or.inl ⟨m₃, by simp [runCalls, hc, h₃]⟩
      · refine Or.inr ⟨e, m₂, c :: pre, c₂, post, m₃, by simp [hsplit], ?_, hraise, ?_⟩
        · simp [runCalls, hc, hpre]
        · simp [runCalls, hc, hall]

/-- A heap that agrees with `heap` on the nodes of a list holds the same list. -/
theorem IsList.congr (heap heap₂ : Heap) : ∀ (nodes : List Ptr) (p : Ptr),
    (∀ a ∈ nodes, heap₂ a = heap a) → IsList heap p nodes → IsList heap₂ p nodes := by
  intro nodes
  induction nodes with
  | nil => intro p _ hl; exact hl
  | cons q rest ih =>
    intro p hag hl
    obtain ⟨hne, e, t⟩ := hl
    refine ⟨hne, e, ?_⟩
    have hq : heap₂ p = heap p := by rw [e]; exact hag q (List.mem_cons_self q rest)
    rw [hq]
    exact ih _ (fun a ha => hag a (List.mem_cons_of_mem q ha)) t

/-- Pointing the `Next` of the last node of A at the head of B joins the lists. -/
theorem IsList.setNext_append (heap : Heap) (pB : Ptr) (nodesB : List Ptr)
    (hB : IsList heap pB nodesB) : ∀ (nodesA : List Ptr) (pA : Ptr) (hne : nodesA ≠ []),
    IsList heap pA nodesA → (∀ a ∈ nodesA, a ∉ nodesB) →
    IsList (setNext heap (nodesA.getLast hne) pB) pA (nodesA ++ nodesB) := by
  intro nodesA
  induction nodesA with
  | nil => intro pA hne; exact absurd rfl hne
  | cons a rest ih =>
    intro pA hne hA hdisj
    have hnd := IsList.nodup heap _ pA hA
    obtain ⟨hpA, e, t⟩ := hA
    cases rest with
    | nil =>
      refine ⟨hpA, e, ?_⟩
      have hnext : (setNext heap a pB pA).Next = pB := by simp [setNext, e]
      simp only [List.getLast_singleton]
      rw [hnext]
      refine IsList.congr heap _ nodesB pB ?_ hB
      intro b hb
      have hba : b ≠ a := fun hEq => hdisj a (List.mem_cons_self a []) (hEq ▸ hb)
      simp [setNext, hba]
    | cons b rest₂ =>
      refine ⟨hpA, e, ?_⟩
      have hlast : (a :: b :: rest₂).getLast hne = (b :: rest₂).getLast (by simp) :=
        List.getLast_cons (by simp)
      have hmem : (b :: rest₂).getLast (by simp) ∈ b :: rest₂ := List.getLast_mem _
      have hane : pA ≠ (b :: rest₂).getLast (by simp) := by
        intro hEq
        have : a ∉ b :: rest₂ := (List.nodup_cons.mp hnd).1
        exact this (e ▸ hEq ▸ hmem)
      have hsame : setNext heap ((b :: rest₂).getLast (by simp)) pB pA = heap pA := by
        simp [setNext, hane]
      rw [hlast, hsame]
      exact ih _ (by simp) t (fun x hx => hdisj x (List.mem_cons_of_mem a hx))

/-- The per-node calls read the `Element` slots only, which `setNext` keeps. -/
theorem nodeCalls_setNext (heap : Heap) (p q : Ptr) (depth : Nat) :
    nodeCalls (setNext heap p q) depth = nodeCalls heap depth := by
  funext a
  by_cases ha : a = p <;> simp [nodeCalls, setNext, ha]

theorem failing_readOnly : failing.ReadOnly := by
  intro p m
  refine ⟨rfl, ?_⟩
  by_cases hp : p = 30 <;> simp [failing, hp, Outcome.state]

/-! ### The claims about the calls `VisitList` makes -/

/-- C18. In a complete pass over a finite list, `VisitList` calls
`VisitParseTreeNodeBase` on every list node, in order, whatever the kind of
the list or the type of its elements (the loop has no case on either), and
reaches the elements only through the element-visiting function, called on
the non-empty slots.  Every call it makes is one of these, and the memory it
leaves is exactly the one these calls produce when run in order: no other
handler has run. -/
theorem VisitList_calls_only_its_handlers {ε σ : Type} (h : Handlers ε σ)
    (depth fuel : Nat) (pList : Ptr) (mem : Mem σ) (nodes : List Ptr) (hro : h.ReadOnly)
    (hret : h.Returns) (hlist : IsList mem.heap pList nodes) (hfuel : nodes.length < fuel) :
    ∃ st : LoopState σ, VisitList h depth fuel pList mem = some (.returned st) ∧
      nodeVisits st.calls = nodes ∧
      elementVisits st.calls = elementsOf mem.heap nodes ∧
      (∀ c ∈ st.calls,
        (c.callee = .VisitParseTreeNodeBase ∧ c.arg ∈ nodes) ∨
        (c.callee = .visit_func ∧ c.arg ≠ 0 ∧ ∃ p ∈ nodes, c.arg = (mem.heap p).Element)) ∧
      runCalls h st.calls mem [] = .returned (st.mem, st.calls) := by
  obtain ⟨m, _, hrun⟩ := VisitList_finite h depth fuel pList mem nodes hro hret hlist hfuel
  have hseq := VisitList_loop_runCalls h depth hro nodes fuel ⟨pList, mem, [], 0⟩ hlist hfuel
  refine ⟨_, hrun, nodeVisits_flatMap _ _ _, elementVisits_flatMap _ _ _, ?_, ?_⟩
  · intro c hc
    obtain ⟨p, hp, hcp⟩ := List.mem_flatMap.mp hc
    by_cases hel : (mem.heap p).Element = 0
    · simp [nodeCalls, hel] at hcp
      exact Or.inl (by rw [hcp]; exact ⟨rfl, hp⟩)
    · simp [nodeCalls, hel] at hcp
      rcases hcp with hcp | hcp
      · exact Or.inl (by rw [hcp]; exact ⟨rfl, hp⟩)
      · exact Or.inr (by rw [hcp]; exact ⟨rfl, hel, p, hp, rfl⟩)
  · have hrun₂ : VisitList_loop h depth fuel ⟨pList, mem, [], 0⟩ = _ := hrun
    rw [hrun₂] at hseq
    simp only [Option.map_some', Outcome.map, LoopState.observed, Option.some.injEq] at hseq
    exact hseq.symm

theorem VisitList_calls_only_its_handlers_witness :
    (recorder.ReadOnly ∧ recorder.Returns ∧ IsList heap3 1 [1, 2, 3] ∧ [1, 2, 3].length < 4) ∧
    ∃ st : LoopState (List Ptr), VisitList recorder 0 4 1 ⟨heap3, []⟩ = some (.returned st) ∧
      nodeVisits st.calls = [1, 2, 3] ∧
      elementVisits st.calls = elementsOf heap3 [1, 2, 3] ∧
      (∀ c ∈ st.calls,
        (c.callee = .VisitParseTreeNodeBase ∧ c.arg ∈ ([1, 2, 3] : List Ptr)) ∨
        (c.callee = .visit_func ∧ c.arg ≠ 0 ∧
          ∃ p ∈ ([1, 2, 3] : List Ptr), c.arg = (heap3 p).Element)) ∧
      runCalls recorder st.calls ⟨heap3, []⟩ [] = .returned (st.mem, st.calls) :=
  ⟨⟨recorder_readOnly, recorder_returns, by decide, by decide⟩,
    VisitList_calls_only_its_handlers recorder 0 4 1 ⟨heap3, []⟩ [1, 2, 3] recorder_readOnly
      recorder_returns (by decide) (by decide)⟩

/-- C19. The iterative loop of `VisitList` and the recursive walk
"walk(nil) = nothing; walk(node) = visit node, visit node.Element if present,
then walk(node.Next)" are equivalent: for every pair of handlers (also ones
that raise or write to the tree), every memory, every list reference and every
bound on the number of nodes walked, either both are still running at the
bound or both have ended in the same way, with the same memory and the same
visits in the same order.  Only the frame depth of the calls differs, which
`Call.visit` leaves out. -/
theorem VisitList_refines_walk {ε σ : Type} (h : Handlers ε σ) (depth fuel : Nat)
    (pList : Ptr) (mem : Mem σ) :
    (VisitList h depth fuel pList mem).map
        (Outcome.map fun st => (st.mem, st.calls.map Call.visit)) =
      (walk h fuel depth pList mem).map
        (Outcome.map fun r => (r.1, r.2.map Call.visit)) := by
  have hgen := VisitList_loop_eq_walk h fuel depth depth ⟨pList, mem, [], 0⟩
  simpa [VisitList] using hgen

/-- C20. A pass of `VisitList` over a finite list, with handlers that leave
the tree alone, is the sequence of the per-node calls run in order up to the
first call that raises.  So it either runs to completion, having made every
call, or it is aborted: the calls before the failing call all returned, the
failing call (on the list node or on its element) raised `e`, `VisitList`
ends with that same error and the memory the failing call left, and its trace
stops at the failing call, so that nothing at a later position is visited. -/
theorem VisitList_aborts_at_first_error {ε σ : Type} (h : Handlers ε σ) (depth fuel : Nat)
    (pList : Ptr) (mem : Mem σ) (nodes : List Ptr) (hro : h.ReadOnly)
    (hlist : IsList mem.heap pList nodes) (hfuel : nodes.length < fuel) :
    ∃ r : Outcome ε (LoopState σ), VisitList h depth fuel pList mem = some r ∧
      r.map LoopState.observed =
        runCalls h (nodes.flatMap (nodeCalls mem.heap depth)) mem [] ∧
      ((∃ st : LoopState σ, r = .returned st ∧
          st.calls = nodes.flatMap (nodeCalls mem.heap depth)) ∨
        (∃ (e : ε) (st : LoopState σ) (pre : List Call) (c : Call) (post : List Call)
            (m₁ : Mem σ),
          r = .raised e st ∧
          nodes.flatMap (nodeCalls mem.heap depth) = pre ++ c :: post ∧
          st.calls = pre ++ [c] ∧
          runCalls h pre mem [] = .returned (m₁, pre) ∧
          h.handler c.callee c.arg m₁ = .raised e st.mem)) := by
  have hseq := VisitList_loop_runCalls h depth hro nodes fuel ⟨pList, mem, [], 0⟩ hlist hfuel
  cases hr : VisitList_loop h depth fuel ⟨pList, mem, [], 0⟩ with
  | none => rw [hr] at hseq; simp at hseq
  | some r =>
    rw [hr] at hseq
    simp only [Option.map_some', Option.some.injEq] at hseq
    refine ⟨r, hr, hseq, ?_⟩
    rcases runCalls_split h (nodes.flatMap (nodeCalls mem.heap depth)) mem [] with
      ⟨m₁, hall⟩ | ⟨e, m₂, pre, c, post, m₁, hsplit, hpre, hraise, hall⟩
    · left
      rw [hall] at hseq
      cases r with
      | returned st =>
        simp only [Outcome.map, LoopState.observed, Outcome.returned.injEq, Prod.mk.injEq,
          List.nil_append] at hseq
        exact ⟨st, rfl, hseq.2⟩
      | raised e st => simp [Outcome.map] at hseq
    · right
      rw [hall] at hseq
      cases r with
      | returned st => simp [Outcome.map] at hseq
      | raised e₂ st =>
        simp only [Outcome.map, LoopState.observed, Outcome.raised.injEq, Prod.mk.injEq,
          List.nil_append] at hseq
        obtain ⟨he, hm, hc⟩ := hseq
        subst he
        refine ⟨e₂, st, pre, c, post, m₁, rfl, hsplit, hc, by simpa using hpre, ?_⟩
        rw [hm]
        exact hraise

theorem VisitList_aborts_at_first_error_witness :
    (failing.ReadOnly ∧ IsList heap3 1 [1, 2, 3] ∧ [1, 2, 3].length < 4) ∧
    ∃ r : Outcome String (LoopState (List Ptr)),
      VisitList failing 0 4 1 ⟨heap3, []⟩ = some r ∧
      r.map LoopState.observed =
        runCalls failing ([1, 2, 3].flatMap (nodeCalls heap3 0)) ⟨heap3, []⟩ [] ∧
      ((∃ st : LoopState (List Ptr), r = .returned st ∧
          st.calls = [1, 2, 3].flatMap (nodeCalls heap3 0)) ∨
        (∃ (e : String) (st : LoopState (List Ptr)) (pre : List Call) (c : Call)
            (post : List Call) (m₁ : Mem (List Ptr)),
          r = .raised e st ∧
          [1, 2, 3].flatMap (nodeCalls heap3 0) = pre ++ c :: post ∧
          st.calls = pre ++ [c] ∧
          runCalls failing pre ⟨heap3, []⟩ [] = .returned (m₁, pre) ∧
          failing.handler c.callee c.arg m₁ = .raised e st.mem)) :=
  ⟨⟨failing_readOnly, by decide, by decide⟩,
    VisitList_aborts_at_first_error failing 0 4 1 ⟨heap3, []⟩ [1, 2, 3] failing_readOnly
      (by decide) (by decide)⟩

/-- C21. `VisitList` is a homomorphism over list concatenation.  For two
finite lists A and B without a common node, the list made by pointing the
`Next` of the last node of A at the head of B is the list of the nodes of A
followed by those of B, and the trace of `VisitList` on it is the trace on A
followed by the trace on B. -/
theorem VisitList_append {ε σ : Type} (h : Handlers ε σ) (depth fuel : Nat) (heap : Heap)
    (v : σ) (pA pB : Ptr) (nodesA nodesB : List Ptr) (hro : h.ReadOnly) (hret : h.Returns)
    (hA : IsList heap pA nodesA) (hB : IsList heap pB nodesB)
    (hdisj : ∀ a ∈ nodesA, a ∉ nodesB) (hfuel : nodesA.length + nodesB.length < fuel) :
    IsList (appendList heap nodesA pA pB).1 (appendList heap nodesA pA pB).2
      (nodesA ++ nodesB) ∧
    ∃ (stA stB stAB : LoopState σ),
      VisitList h depth fuel pA ⟨heap, v⟩ = some (.returned stA) ∧
      VisitList h depth fuel pB stA.mem = some (.returned stB) ∧
      VisitList h depth fuel (appendList heap nodesA pA pB).2
        ⟨(appendList heap nodesA pA pB).1, v⟩ = some (.returned stAB) ∧
      stAB.calls = stA.calls ++ stB.calls := by
  obtain ⟨mA, hmA, hrunA⟩ := VisitList_finite h depth fuel pA ⟨heap, v⟩ nodesA hro hret hA
    (by omega)
  have hmA₂ : mA.heap = heap := hmA
  obtain ⟨mB, _, hrunB⟩ := VisitList_finite h depth fuel pB mA nodesB hro hret
    (by rw [hmA₂]; exact hB) (by omega)
  have hjoin : IsList (appendList heap nodesA pA pB).1 (appendList heap nodesA pA pB).2
      (nodesA ++ nodesB) := by
    by_cases hne : nodesA = []
    · subst hne
      simpa [appendList] using hB
    · have hlast : nodesA.getLast? = some (nodesA.getLast hne) :=
        List.getLast?_eq_getLast _ hne
      simp only [appendList, hlast]
      exact IsList.setNext_append heap pB nodesB hB nodesA pA hne hA hdisj
  have hcalls : nodeCalls (appendList heap nodesA pA pB).1 depth = nodeCalls heap depth := by
    by_cases hne : nodesA = []
    · subst hne
      simp [appendList]
    · have hlast : nodesA.getLast? = some (nodesA.getLast hne) :=
        List.getLast?_eq_getLast _ hne
      simp only [appendList, hlast]
      exact nodeCalls_setNext heap _ pB depth
  obtain ⟨mAB, _, hrunAB⟩ := VisitList_finite h depth fuel (appendList heap nodesA pA pB).2
    ⟨(appendList heap nodesA pA pB).1, v⟩ (nodesA ++ nodesB) hro hret hjoin
    (by simpa using hfuel)
  refine ⟨hjoin, _, _, _, hrunA, hrunB, hrunAB, ?_⟩
  simp only [hcalls, hmA₂, List.flatMap_append]

theorem VisitList_append_witness :
    (recorder.ReadOnly ∧ recorder.Returns ∧ IsList heapTwo 1 [1, 2] ∧ IsList heapTwo 5 [5, 6] ∧
      (∀ a ∈ ([1, 2] : List Ptr), a ∉ ([5, 6] : List Ptr)) ∧
      [1, 2].length + [5, 6].length < 9) ∧
    (IsList (appendList heapTwo [1, 2] 1 5).1 (appendList heapTwo [1, 2] 1 5).2
      ([1, 2] ++ [5, 6]) ∧
    ∃ (stA stB stAB : LoopState (List Ptr)),
      VisitList recorder 0 9 1 ⟨heapTwo, []⟩ = some (.returned stA) ∧
      VisitList recorder 0 9 5 stA.mem = some (.returned stB) ∧
      VisitList recorder 0 9 (appendList heapTwo [1, 2] 1 5).2
        ⟨(appendList heapTwo [1, 2] 1 5).1, []⟩ = some (.returned stAB) ∧
      stAB.calls = stA.calls ++ stB.calls) :=
  ⟨⟨recorder_readOnly, recorder_returns, by decide, by decide, by decide, by decide⟩,
    VisitList_append recorder 0 9 heapTwo [] 1 5 [1, 2] [5, 6] recorder_readOnly
      recorder_returns (by decide) (by decide) (by decide) (by decide)⟩

end AutoParseTreeVisitor

namespace WpfHost

/-! ### The metering invariant -/

theorem CString.Free_eq (s : CString) : s.Free = ⟨s.m_maxLength, none, 0⟩ := by
  cases s with
  | mk mx v c => cases v <;> rfl

/-- `StringCchLengthW` gives a length below `cchMax`, and 0 when it fails. -/
theorem StringCchLengthW_spec (psz : List Nat) (cchMax : Nat) :
    (FAILED (StringCchLengthW psz cchMax).1 = true ∧ (StringCchLengthW psz cchMax).2 = 0) ∨
    (StringCchLengthW psz cchMax = (S_OK, (cstr psz).length) ∧ (cstr psz).length < cchMax ∧
      cchMax ≤ STRSAFE_MAX_CCH) := by
  unfold StringCchLengthW
  by_cases h1 : cchMax > STRSAFE_MAX_CCH
  · left
    rw [if_pos h1]
    exact ⟨by decide, rfl⟩
  · rw [if_neg h1]
    by_cases h2 : (cstr psz).length < cchMax
    · right
      rw [if_pos h2]
      exact ⟨rfl, h2, Nat.le_of_not_gt h1⟩
    · left
      rw [if_neg h2]
      exact ⟨by decide, rfl⟩

/-- What `SetValue` leaves, case by case; the previous value plays no part. -/
theorem CString.SetValue_cases (a : Alloc) (s : CString) (src : Option (List Nat)) :
    (FAILED (CString.SetValue a s src).1 = true ∧
      (CString.SetValue a s src).2 = ⟨s.m_maxLength, none, 0⟩) ∨
    (src = none ∧ CString.SetValue a s src = (S_OK, ⟨s.m_maxLength, none, 0⟩)) ∨
    (∃ (mem buf : List Nat), src = some mem ∧ (cstr mem).length < s.m_maxLength ∧
      s.m_maxLength ≤ STRSAFE_MAX_CCH ∧ a.newArray ((cstr mem).length + 1) = some buf ∧
      CString.SetValue a s src =
        (S_OK, ⟨s.m_maxLength, some (wcscpy_s buf ((cstr mem).length + 1) mem),
          (cstr mem).length⟩)) := by
  cases src with
  | none =>
    right; left
    exact ⟨rfl, by simp [CString.SetValue, CString.Free_eq]⟩
  | some mem =>
    rcases StringCchLengthW_spec mem s.m_maxLength with ⟨hf, h0⟩ | ⟨hok, hlen, hmax⟩
    · left
      simp [CString.SetValue, CString.Free_eq, hf, h0]
    · have hS : FAILED S_OK = false := by decide
      have hE : FAILED E_OUTOFMEMORY = true := by decide
      cases hb : a.newArray ((cstr mem).length + 1) with
      | none =>
        left
        simp [CString.SetValue, CString.Free_eq, hok, hb, hS, hE]
      | some buf =>
        right; right
        refine ⟨mem, buf, rfl, hlen, hmax, hb, ?_⟩
        simp [CString.SetValue, CString.Free_eq, hok, hb, hS]

/-- C25 (amended). `SetValue` discards the previous value first and is not
atomic: its result does not depend on the previous value; for a null source it
returns `S_OK` and leaves the string empty; for a non-null source with no
terminator within `m_maxLength` characters it returns a failure and leaves the
string empty; every failure leaves the string empty.  `CreateOnHeap` returns
null exactly when the `CString` object could not be allocated or `SetValue`
fails. -/
theorem SetValue_discards_and_CreateOnHeap_null (a : Alloc) (s : CString)
    (objectAllocated : Bool) (maxLength : Nat) :
    (∀ src : Option (List Nat),
      CString.SetValue a s src = CString.SetValue a (CString.ctor s.m_maxLength) src) ∧
    CString.SetValue a s none = (S_OK, ⟨s.m_maxLength, none, 0⟩) ∧
    (∀ mem : List Nat, s.m_maxLength ≤ (cstr mem).length →
      FAILED (CString.SetValue a s (some mem)).1 = true ∧
      (CString.SetValue a s (some mem)).2 = ⟨s.m_maxLength, none, 0⟩) ∧
    (∀ src : Option (List Nat), FAILED (CString.SetValue a s src).1 = true →
      (CString.SetValue a s src).2 = ⟨s.m_maxLength, none, 0⟩) ∧
    (∀ src : Option (List Nat),
      CString.CreateOnHeap objectAllocated a src maxLength = none ↔
        (objectAllocated = false ∨
          FAILED (CString.SetValue a (CString.ctor maxLength) src).1 = true)) := by
  refine ⟨?_, ?_, ?_, ?_, ?_⟩
  · intro src
    simp [CString.SetValue, CString.Free_eq, CString.ctor]
  · simp [CString.SetValue, CString.Free_eq]
  · intro mem hlen
    rcases CString.SetValue_cases a s (some mem) with h | ⟨hnone, _⟩ | ⟨mem₂, buf, hs, hl, _, _, _⟩
    · exact h
    · cases hnone
    · cases hs
      omega
  · intro src hf
    rcases CString.SetValue_cases a s src with h | ⟨_, h⟩ | ⟨mem, buf, _, _, _, _, h⟩
    · exact h.2
    · rw [h] at hf; simp [FAILED, S_OK] at hf
    · rw [h] at hf; simp [FAILED, S_OK] at hf
  · intro src
    unfold CString.CreateOnHeap
    cases objectAllocated with
    | false => simp
    | true =>
      by_cases hf : FAILED (CString.SetValue a (CString.ctor maxLength) src).1 = true
      · simp [hf]
      · simp [hf]

/-- C25, as stated, fails: when `new CString(maxLength)` gives no object,
`CreateOnHeap` returns null although `SetValue` on a fresh string with the same
source (here the null source) returns `S_OK`. -/
theorem CreateOnHeap_null_without_SetValue_failure :
    CString.CreateOnHeap false okAlloc none 10 = none ∧
    FAILED (CString.SetValue okAlloc (CString.ctor 10) none).1 = false :=
  ⟨rfl, by decide⟩

/-! ### Bytes, streams and the stream format -/

theorem readBytes_eq : ∀ (n : Nat) (l : List Nat), readBytes n l = (l.take n, l.drop n) := by
  intro n
  induction n with
  | zero => intro l; rfl
  | succ n ih =>
    intro l
    cases l with
    | nil => rfl
    | cons b l => simp [readBytes, ih]

theorem length_toBytes : ∀ (k n : Nat), (toBytes k n).length = k := by
  intro k
  induction k with
  | zero => intro n; rfl
  | succ k ih => intro n; simp [toBytes, ih]

theorem ofBytes_toBytes : ∀ (k n : Nat), ofBytes (toBytes k n) = n % 256 ^ k := by
  intro k
  induction k with
  | zero => intro n; simp [toBytes, ofBytes, Nat.mod_one]
  | succ k ih =>
    intro n
    simp only [toBytes, ofBytes, ih]
    rw [Nat.pow_succ, Nat.mul_comm (256 ^ k) 256, Nat.mod_mul]

theorem length_wcharsToBytes : ∀ (cs : List Nat), (wcharsToBytes cs).length = 2 * cs.length := by
  intro cs
  induction cs with
  | nil => rfl
  | cons c cs ih => simp [wcharsToBytes, ih]; omega

theorem wcharsToBytes_append : ∀ (a b : List Nat),
    wcharsToBytes (a ++ b) = wcharsToBytes a ++ wcharsToBytes b := by
  intro a
  induction a with
  | nil => intro b; rfl
  | cons c a ih => intro b; simp [wcharsToBytes, ih]

/-- Bytes written from an array of 16-bit characters read back as the same
characters. -/
theorem bytesToWchars_wcharsToBytes_append : ∀ (cs rest : List Nat),
    (∀ c ∈ cs, c < 65536) →
    bytesToWchars (wcharsToBytes cs ++ rest) = cs ++ bytesToWchars rest := by
  intro cs
  induction cs with
  | nil => intro rest _; rfl
  | cons c cs ih =>
    intro rest hc
    have hlt : c < 65536 := hc c (List.mem_cons_self c cs)
    have hrec := ih rest (fun x hx => hc x (List.mem_cons_of_mem c hx))
    simp only [wcharsToBytes, List.cons_append, bytesToWchars, hrec]
    congr 1
    omega

/-- The call `Read` on a healthy stream. -/
theorem IStream.Read_healthy (behind data : List Nat) (f : HRESULT) (cb : Nat) :
    (IStream.mk behind data none f).Read cb =
      ((if (data.take cb).length = cb then S_OK else S_FALSE), data.take cb,
        ⟨behind ++ data.take cb, data.drop cb, none, f⟩) := by
  simp [IStream.Read, readBytes_eq]

/-- The call `Write` on a healthy stream. -/
theorem IStream.Write_healthy (behind data : List Nat) (f : HRESULT) (bytes : List Nat) :
    (IStream.mk behind data none f).Write bytes =
      (S_OK, ⟨behind ++ bytes, data.drop bytes.length, none, f⟩) := by
  simp [IStream.Write]

theorem set_length_append (l : List Nat) (x y : Nat) :
    (l ++ [x]).set l.length y = l ++ [y] := by
  induction l with
  | nil => rfl
  | cons a l ih => simp [ih]

/-- What a fresh array of `k + 1` characters holds after `2 * k` bytes of
characters were read into it and its last element was set to the terminator. -/
theorem filled_buffer (a : Alloc) (chars : List Nat) (hc : ∀ c ∈ chars, c < 65536) :
    (bytesToWchars (wcharsToBytes chars ++
        (wcharsToBytes ((List.range (chars.length + 1)).map a.garbage)).drop
          (wcharsToBytes chars).length)).set chars.length 0 = chars ++ [0] := by
  have hsplit : (List.range (chars.length + 1)).map a.garbage =
      (List.range chars.length).map a.garbage ++ [a.garbage chars.length] := by
    simp [List.range_succ]
  have hlen : (wcharsToBytes ((List.range chars.length).map a.garbage)).length =
      (wcharsToBytes chars).length := by
    simp [length_wcharsToBytes]
  rw [hsplit, wcharsToBytes_append, ← hlen, List.drop_left,
    bytesToWchars_wcharsToBytes_append chars _ hc]
  simp only [wcharsToBytes, bytesToWchars]
  exact set_length_append chars _ 0

/-- Reading a well-formed record from a healthy stream.  The stream holds the
length prefix and then at least `k` characters, where `k` is the smaller of the
prefix and the maximum, and the byte count `2 * k` fits in a `ULONG`: the
string gets exactly these `k` characters and a terminator, and the stream is
left right after them. -/
theorem CString.ReadFromStream_record (sz : Nat) (a : Alloc) (s : CString)
    (behind rest chars : List Nat) (f : HRESULT) (length : Nat)
    (halloc : a.succeeds = true) (hlen0 : length ≠ 0) (hlen : length < 256 ^ sz)
    (hk : chars.length = if length > s.m_maxLength then s.m_maxLength else length)
    (hfit : 2 * chars.length < 4294967296) (hc : ∀ c ∈ chars, c < 65536) :
    CString.ReadFromStream sz a s
        ⟨behind, toBytes sz length ++ (wcharsToBytes chars ++ rest), none, f⟩ =
      (S_OK, ⟨s.m_maxLength, some (chars ++ [0]), chars.length⟩,
        ⟨behind ++ toBytes sz length ++ wcharsToBytes chars, rest, none, f⟩) := by
  have hS : FAILED S_OK = false := by decide
  have hctr : CString.charsToRead length s.m_maxLength = chars.length := by
    unfold CString.charsToRead toULONG
    rw [← hk]
    exact Nat.mod_eq_of_lt (by omega)
  have hU1 : toULONG (chars.length + 1) = chars.length + 1 := Nat.mod_eq_of_lt (by omega)
  have hU2 : toULONG (chars.length * 2) = (wcharsToBytes chars).length := by
    rw [length_wcharsToBytes, Nat.mul_comm]
    exact Nat.mod_eq_of_lt (by omega)
  have htake : (toBytes sz length ++ (wcharsToBytes chars ++ rest)).take sz =
      toBytes sz length := by
    have := List.take_left (toBytes sz length) (wcharsToBytes chars ++ rest)
    rwa [length_toBytes] at this
  have hdrop : (toBytes sz length ++ (wcharsToBytes chars ++ rest)).drop sz =
      wcharsToBytes chars ++ rest := by
    have := List.drop_left (toBytes sz length) (wcharsToBytes chars ++ rest)
    rwa [length_toBytes] at this
  have hof : ofBytes (toBytes sz length) = length := by
    rw [ofBytes_toBytes]; exact Nat.mod_eq_of_lt hlen
  unfold CString.ReadFromStream
  simp only [CString.Free_eq, IStream.Read_healthy, htake, hdrop, length_toBytes, if_true, hS,
    hof, hctr, hU1, hU2, List.take_left, List.drop_left, Alloc.newArray, halloc]
  simp only [ne_eq, hlen0, not_false_eq_true, if_true, Bool.false_eq_true, if_false,
    filled_buffer a chars hc, List.append_assoc]

/-- C23 (amended). Stream round trip for a non-empty value.  A `CString` holds
a value of `n` characters, with `1 ≤ n` and `2 * n` below `2 ^ 32` (the byte
count is passed as a `ULONG`); `size_t` has at least 4 bytes.  On a healthy
stream `WriteToStream` succeeds and writes the length prefix and the
characters, and `ReadFromStream` applied to these bytes, for a reader whose
maximum is at least `n` and with a successful allocation, succeeds, consumes
exactly these bytes, and leaves the reader with current length `n` and the
null-terminated value of the writer. -/
theorem CString_stream_round_trip (sz : Nat) (a : Alloc) (writer reader : CString)
    (chars outBehind outData : List Nat) (f : HRESULT)
    (hsz : 4 ≤ sz) (halloc : a.succeeds = true)
    (hvalue : writer.m_pwzValue = some (chars ++ [0]))
    (hcur : writer.m_curLength = chars.length) (hne : chars ≠ [])
    (hfit : 2 * chars.length < 4294967296) (hc : ∀ c ∈ chars, c < 65536)
    (hmax : chars.length ≤ reader.m_maxLength) :
    (CString.WriteToStream sz writer ⟨outBehind, outData, none, f⟩).1 = S_OK ∧
    (CString.WriteToStream sz writer ⟨outBehind, outData, none, f⟩).2.behind =
      outBehind ++ (toBytes sz chars.length ++ wcharsToBytes chars) ∧
    ∀ (inBehind rest : List Nat) (g : HRESULT),
      CString.ReadFromStream sz a reader
          ⟨inBehind, toBytes sz chars.length ++ (wcharsToBytes chars ++ rest), none, g⟩ =
        (S_OK, ⟨reader.m_maxLength, writer.m_pwzValue, chars.length⟩,
          ⟨inBehind ++ toBytes sz chars.length ++ wcharsToBytes chars, rest, none, g⟩) := by
  have hpos : chars.length ≠ 0 := fun h0 => hne (List.length_eq_zero.mp h0)
  have hS : FAILED S_OK = false := by decide
  have hU : toULONG (toULONG chars.length * 2) = (wcharsToBytes chars).length := by
    have h1 : toULONG chars.length = chars.length := Nat.mod_eq_of_lt (by omega)
    rw [h1, length_wcharsToBytes, Nat.mul_comm]
    exact Nat.mod_eq_of_lt (by omega)
  have hw : CString.WriteToStream sz writer ⟨outBehind, outData, none, f⟩ =
      (S_OK, ⟨outBehind ++ toBytes sz chars.length ++ wcharsToBytes chars,
        (outData.drop (toBytes sz chars.length).length).drop (wcharsToBytes chars).length,
        none, f⟩) := by
    unfold CString.WriteToStream
    simp only [IStream.Write_healthy, hS, hcur, hvalue, Option.getD_some, wcharsToBytes_append,
      hU, List.take_left]
    simp [hpos]
  refine ⟨by rw [hw], by rw [hw]; simp, ?_⟩
  intro inBehind rest g
  rw [hvalue]
  have hpow : (4294967296 : Nat) ≤ 256 ^ sz := by
    calc (4294967296 : Nat) = 256 ^ 4 := by norm_num
      _ ≤ 256 ^ sz := Nat.pow_le_pow_right (by norm_num) hsz
  exact CString.ReadFromStream_record sz a reader inBehind rest chars g chars.length halloc hpos
    (by omega) (by rw [if_neg (by omega)]) hfit hc

theorem CString_stream_round_trip_witness :
    (4 ≤ 8 ∧ okAlloc.succeeds = true ∧
      (CString.mk 10 (some ([72, 105] ++ [0])) 2).m_pwzValue = some ([72, 105] ++ [0]) ∧
      (CString.mk 10 (some ([72, 105] ++ [0])) 2).m_curLength = [72, 105].length ∧
      ([72, 105] : List Nat) ≠ [] ∧ 2 * [72, 105].length < 4294967296 ∧
      (∀ c ∈ ([72, 105] : List Nat), c < 65536) ∧
      [72, 105].length ≤ (CString.ctor 5).m_maxLength) ∧
    ((CString.WriteToStream 8 (CString.mk 10 (some ([72, 105] ++ [0])) 2)
        ⟨[], [], none, E_FAIL⟩).1 = S_OK ∧
    (CString.WriteToStream 8 (CString.mk 10 (some ([72, 105] ++ [0])) 2)
        ⟨[], [], none, E_FAIL⟩).2.behind =
      [] ++ (toBytes 8 [72, 105].length ++ wcharsToBytes [72, 105]) ∧
    ∀ (inBehind rest : List Nat) (g : HRESULT),
      CString.ReadFromStream 8 okAlloc (CString.ctor 5)
          ⟨inBehind, toBytes 8 [72, 105].length ++ (wcharsToBytes [72, 105] ++ rest), none, g⟩ =
        (S_OK, ⟨(CString.ctor 5).m_maxLength,
            (CString.mk 10 (some ([72, 105] ++ [0])) 2).m_pwzValue, [72, 105].length⟩,
          ⟨inBehind ++ toBytes 8 [72, 105].length ++ wcharsToBytes [72, 105], rest, none, g⟩)) :=
  ⟨⟨by decide, rfl, rfl, rfl, by decide, by decide, by decide, by decide⟩,
    CString_stream_round_trip 8 okAlloc (CString.mk 10 (some ([72, 105] ++ [0])) 2)
      (CString.ctor 5) [72, 105] [] [] E_FAIL (by decide) rfl rfl rfl (by decide) (by decide)
      (by decide) (by decide)⟩

/-- C23, as stated, fails for the empty string.  A writer that holds the empty
string (the result of `SetValue` on an empty source: a one-character array
with the terminator, length 0) writes only the length prefix, and the reader
that reads it back succeeds but is left with a null value pointer, not with a
null-terminated value equal to that of the writer. -/
theorem round_trip_of_empty_string_leaves_null :
    (CString.SetValue okAlloc (CString.ctor 10) (some [])).2.m_pwzValue = some [0] ∧
    (CString.SetValue okAlloc (CString.ctor 10) (some [])).2.m_curLength = 0 ∧
    (CString.WriteToStream 8 (CString.SetValue okAlloc (CString.ctor 10) (some [])).2
      emptyStream).2.behind = [0, 0, 0, 0, 0, 0, 0, 0] ∧
    (CString.ReadFromStream 8 okAlloc (CString.ctor 10)
      (streamOf [0, 0, 0, 0, 0, 0, 0, 0])).1 = S_OK ∧
    (CString.ReadFromStream 8 okAlloc (CString.ctor 10)
      (streamOf [0, 0, 0, 0, 0, 0, 0, 0])).2.1.m_pwzValue = none ∧
    (CString.ReadFromStream 8 okAlloc (CString.ctor 10)
      (streamOf [0, 0, 0, 0, 0, 0, 0, 0])).2.1.m_pwzValue ≠
        (CString.SetValue okAlloc (CString.ctor 10) (some [])).2.m_pwzValue := by
  decide

/-- C24 (amended). `ReadFromStream` clamps to the metered maximum when the
byte count fits in a `ULONG`.  The maximum is below `2 ^ 31`, the stream is
healthy and holds a length prefix that exceeds the maximum followed by that
many characters, and the allocation succeeds: the call returns `S_OK`, reads
exactly the first `m_maxLength` characters, sets the current length to
`m_maxLength`, writes the terminator at index `m_maxLength`, and leaves the
other characters unread.  When the length prefix is 0, the string is left
empty and the stream is left right after the prefix. -/
theorem ReadFromStream_clamps (sz : Nat) (a : Alloc) (s : CString)
    (behind rest allChars : List Nat) (f : HRESULT) (length : Nat)
    (halloc : a.succeeds = true) (hlen : length < 256 ^ sz)
    (hgt : length > s.m_maxLength) (hall : allChars.length = length)
    (hfit : 2 * s.m_maxLength < 4294967296) (hc : ∀ c ∈ allChars, c < 65536) :
    CString.ReadFromStream sz a s
        ⟨behind, toBytes sz length ++ (wcharsToBytes allChars ++ rest), none, f⟩ =
      (S_OK, ⟨s.m_maxLength, some (allChars.take s.m_maxLength ++ [0]), s.m_maxLength⟩,
        ⟨behind ++ toBytes sz length ++ wcharsToBytes (allChars.take s.m_maxLength),
          wcharsToBytes (allChars.drop s.m_maxLength) ++ rest, none, f⟩) ∧
    (allChars.take s.m_maxLength ++ [0])[s.m_maxLength]? = some 0 ∧
    CString.ReadFromStream sz a s ⟨behind, toBytes sz 0 ++ rest, none, f⟩ =
      (S_OK, ⟨s.m_maxLength, none, 0⟩, ⟨behind ++ toBytes sz 0, rest, none, f⟩) := by
  have htl : (allChars.take s.m_maxLength).length = s.m_maxLength := by
    rw [List.length_take]; omega
  refine ⟨?_, ?_, ?_⟩
  · have hrec := CString.ReadFromStream_record sz a s behind
      (wcharsToBytes (allChars.drop s.m_maxLength) ++ rest) (allChars.take s.m_maxLength) f
      length halloc (by omega) hlen (by rw [htl, if_pos hgt]) (by rw [htl]; exact hfit)
      (fun c hcm => hc c (List.mem_of_mem_take hcm))
    rw [htl] at hrec
    rw [← hrec, ← List.append_assoc (wcharsToBytes _), ← wcharsToBytes_append,
      List.take_append_drop]
  · rw [List.getElem?_append_right (by omega), htl]
    simp
  · have hS : FAILED S_OK = false := by decide
    have htake : (toBytes sz 0 ++ rest).take sz = toBytes sz 0 := by
      have := List.take_left (toBytes sz 0) rest
      rwa [length_toBytes] at this
    have hdrop : (toBytes sz 0 ++ rest).drop sz = rest := by
      have := List.drop_left (toBytes sz 0) rest
      rwa [length_toBytes] at this
    have hof : ofBytes (toBytes sz 0) = 0 := by rw [ofBytes_toBytes]; simp
    unfold CString.ReadFromStream
    simp [CString.Free_eq, IStream.Read_healthy, htake, hdrop, length_toBytes, hS, hof]

theorem ReadFromStream_clamps_witness :
    (okAlloc.succeeds = true ∧ 3 < 256 ^ 8 ∧ 3 > (CString.ctor 2).m_maxLength ∧
      [72, 105, 33].length = 3 ∧ 2 * (CString.ctor 2).m_maxLength < 4294967296 ∧
      (∀ c ∈ ([72, 105, 33] : List Nat), c < 65536)) ∧
    (CString.ReadFromStream 8 okAlloc (CString.ctor 2)
        ⟨[], toBytes 8 3 ++ (wcharsToBytes [72, 105, 33] ++ [7]), none, E_FAIL⟩ =
      (S_OK, ⟨(CString.ctor 2).m_maxLength,
          some (([72, 105, 33] : List Nat).take (CString.ctor 2).m_maxLength ++ [0]),
          (CString.ctor 2).m_maxLength⟩,
        ⟨[] ++ toBytes 8 3 ++
            wcharsToBytes (([72, 105, 33] : List Nat).take (CString.ctor 2).m_maxLength),
          wcharsToBytes (([72, 105, 33] : List Nat).drop (CString.ctor 2).m_maxLength) ++ [7],
          none, E_FAIL⟩) ∧
    (([72, 105, 33] : List Nat).take (CString.ctor 2).m_maxLength ++
      [0])[(CString.ctor 2).m_maxLength]? = some 0 ∧
    CString.ReadFromStream 8 okAlloc (CString.ctor 2) ⟨[], toBytes 8 0 ++ [7], none, E_FAIL⟩ =
      (S_OK, ⟨(CString.ctor 2).m_maxLength, none, 0⟩, ⟨[] ++ toBytes 8 0, [7], none, E_FAIL⟩)) :=
  ⟨⟨rfl, by decide, by decide, rfl, by decide, by decide⟩,
    ReadFromStream_clamps 8 okAlloc (CString.ctor 2) [] [7] [72, 105, 33] E_FAIL 3 rfl
      (by decide) (by decide) rfl (by decide) (by decide)⟩

/-- C24, as stated, fails when the maximum does not fit in a `ULONG`.  With an
8-byte `size_t`, a maximum of `2 ^ 32` and a stream that holds the length
prefix `2 ^ 32 + 1` followed by that many characters, the count of characters
to read is narrowed to 0: the call succeeds, consumes the 8 bytes of the prefix
and no character, and leaves the current length 0, not the maximum. -/
theorem ReadFromStream_narrows_large_maximum :
    ofBytes (toBytes 8 4294967297) > (CString.ctor 4294967296).m_maxLength ∧
    (CString.ReadFromStream 8 okAlloc (CString.ctor 4294967296)
      (streamOf (toBytes 8 4294967297 ++ List.replicate 8589934594 65))).1 = S_OK ∧
    (CString.ReadFromStream 8 okAlloc (CString.ctor 4294967296)
      (streamOf (toBytes 8 4294967297 ++ List.replicate 8589934594 65))).2.1.m_curLength = 0 ∧
    (CString.ReadFromStream 8 okAlloc (CString.ctor 4294967296)
      (streamOf (toBytes 8 4294967297 ++ List.replicate 8589934594 65))).2.1.m_pwzValue =
        some [0] ∧
    (CString.ReadFromStream 8 okAlloc (CString.ctor 4294967296)
      (streamOf (toBytes 8 4294967297 ++ List.replicate 8589934594 65))).2.2.behind =
        toBytes 8 4294967297 ∧
    (CString.ReadFromStream 8 okAlloc (CString.ctor 4294967296)
      (streamOf (toBytes 8 4294967297 ++ List.replicate 8589934594 65))).2.1.m_curLength ≠
        (CString.ctor 4294967296).m_maxLength := by
  decide

end WpfHost

namespace WpfHost

/-! ### Runs and pieces -/

theorem piecesAux_fuel (n : Nat) (hn : 0 < n) : ∀ (f g : Nat) (l : List Nat),
    l.length ≤ f → l.length ≤ g → piecesAux n f l = piecesAux n g l := by
  intro f
  induction f with
  | zero =>
    intro g l hf _
    have hl : l = [] := List.length_eq_zero.mp (Nat.le_zero.mp hf)
    subst hl
    cases g <;> simp [piecesAux]
  | succ f ih =>
    intro g l hf hg
    cases g with
    | zero =>
      have hl : l = [] := List.length_eq_zero.mp (Nat.le_zero.mp hg)
      subst hl
      simp [piecesAux]
    | succ g =>
      by_cases hl : l = []
      · simp [piecesAux, hl]
      · have hpos : 0 < l.length := List.length_pos.mpr hl
        have hd : (l.drop n).length ≤ f := by rw [List.length_drop]; omega
        have hd₂ : (l.drop n).length ≤ g := by rw [List.length_drop]; omega
        simp only [piecesAux, hl, if_false]
        rw [ih g (l.drop n) hd hd₂]

/-- A non-empty list is its first piece followed by the pieces of the rest. -/
theorem pieces_cons (n : Nat) (hn : 0 < n) (l : List Nat) (hl : l ≠ []) :
    pieces n l = l.take n :: pieces n (l.drop n) := by
  have hpos : 0 < l.length := List.length_pos.mpr hl
  obtain ⟨k, hk⟩ := Nat.exists_eq_succ_of_ne_zero (Nat.pos_iff_ne_zero.mp hpos)
  unfold pieces
  rw [hk]
  simp only [piecesAux, hl, if_false]
  rw [piecesAux_fuel n hn k (l.drop n).length (l.drop n) (by rw [List.length_drop]; omega)
    (Nat.le_refl _)]

theorem pieces_nil (n : Nat) : pieces n [] = [] := rfl

/-- The prefixes that the attribute value `s` stands for: its runs, each cut
into pieces of 127 characters. -/
theorem runs_nil : runs [] = [] := by
  simp [runs, List.splitOn]

theorem runs_space_cons (l : List Nat) : runs (SPACE :: l) = runs l := by
  simp [runs, List.splitOn, List.splitOnP_cons]

/-- A run in front of the end of the value or of a space is the first run. -/
theorem runs_word_append (w x : List Nat) (hw : w ≠ []) (hns : ∀ c ∈ w, c ≠ SPACE)
    (hx : x = [] ∨ ∃ y, x = SPACE :: y) : runs (w ++ x) = w :: runs x := by
  have hp : ∀ c ∈ w, ¬ ((fun a => a == SPACE) c = true) := by
    intro c hc
    simpa using hns c hc
  rcases hx with hx | ⟨y, hx⟩
  · subst hx
    have := List.splitOnP_eq_single (fun a => a == SPACE) w hp
    simp [runs, List.splitOn, this, hw]
  · subst hx
    have := List.splitOnP_first (fun a => a == SPACE) w hp SPACE (by simp) y
    rw [runs_space_cons]
    simp [runs, List.splitOn, this, hw]

theorem cstr_append_of_ne_zero : ∀ (a b : List Nat), (∀ c ∈ a, c ≠ 0) →
    cstr (a ++ b) = a ++ cstr b := by
  intro a
  induction a with
  | nil => intro b _; rfl
  | cons c a ih =>
    intro b h
    have hc : c ≠ 0 := h c (List.mem_cons_self c a)
    have hrec := ih b (fun x hx => h x (List.mem_cons_of_mem c hx))
    unfold cstr at hrec ⊢
    rw [List.cons_append, List.takeWhile_cons, if_pos (by simpa using hc), hrec,
      List.cons_append]

theorem prefixesOf_spaces_append : ∀ (a x : List Nat), (∀ c ∈ a, c = SPACE) →
    prefixesOf (a ++ x) = prefixesOf x := by
  intro a
  induction a with
  | nil => intro x _; rfl
  | cons c a ih =>
    intro x h
    have hc : c = SPACE := h c (List.mem_cons_self c a)
    subst hc
    have hrec := ih x (fun y hy => h y (List.mem_cons_of_mem _ hy))
    simp only [prefixesOf] at hrec ⊢
    rw [List.cons_append, runs_space_cons, hrec]

/-- The string after a run of characters that are neither terminator nor
space is empty or starts with a space. -/
theorem cstr_dropWhile_word (r : List Nat) :
    cstr (r.dropWhile (fun c => c ≠ 0 ∧ c ≠ SPACE)) = [] ∨
    ∃ y, cstr (r.dropWhile (fun c => c ≠ 0 ∧ c ≠ SPACE)) = SPACE :: y := by
  induction r with
  | nil => left; rfl
  | cons c r ih =>
    by_cases hc : c ≠ 0 ∧ c ≠ SPACE
    · simpa [List.dropWhile_cons, hc] using ih
    · have hd : (c :: r).dropWhile (fun c => c ≠ 0 ∧ c ≠ SPACE) = c :: r := by
        simp [List.dropWhile_cons, hc]
      rw [hd]
      by_cases h0 : c = 0
      · left; simp [cstr, List.takeWhile_cons, h0]
      · right
        have hs : c = SPACE := by
          by_contra hne
          exact hc ⟨h0, hne⟩
        exact ⟨cstr r, by simp [cstr, List.takeWhile_cons, hs, SPACE]⟩

/-- One pass of the tokenizer, on lists: after the leading spaces, the run up
to the next space or terminator gives its first 127 characters as a prefix
(no prefix when the run is empty), and the rest is treated the same way. -/
theorem prefixesOf_step (rest : List Nat) :
    prefixesOf (cstr rest) =
      (if ((rest.dropWhile (fun c => c = SPACE)).takeWhile
            (fun c => c ≠ 0 ∧ c ≠ SPACE)).take 127 = [] then []
        else [((rest.dropWhile (fun c => c = SPACE)).takeWhile
            (fun c => c ≠ 0 ∧ c ≠ SPACE)).take 127]) ++
      prefixesOf (cstr ((rest.dropWhile (fun c => c = SPACE)).drop
        (((rest.dropWhile (fun c => c = SPACE)).takeWhile
            (fun c => c ≠ 0 ∧ c ≠ SPACE)).take 127).length)) := by
  generalize hr1 : rest.dropWhile (fun c => c = SPACE) = rest1
  generalize hw : rest1.takeWhile (fun c => c ≠ 0 ∧ c ≠ SPACE) = w
  have hsp : ∀ c ∈ rest.takeWhile (fun c => c = SPACE), c = SPACE := by
    intro c hc
    simpa using List.mem_takeWhile_imp hc
  have hsp0 : ∀ c ∈ rest.takeWhile (fun c => c = SPACE), c ≠ 0 := by
    intro c hc
    rw [hsp c hc]
    decide
  have hrest : rest = rest.takeWhile (fun c => c = SPACE) ++ rest1 := by
    rw [← hr1, List.takeWhile_append_dropWhile]
  have hw0 : ∀ c ∈ w, c ≠ 0 ∧ c ≠ SPACE := by
    intro c hc
    rw [← hw] at hc
    simpa using List.mem_takeWhile_imp hc
  have hrest1 : rest1 = w ++ rest1.dropWhile (fun c => c ≠ 0 ∧ c ≠ SPACE) := by
    rw [← hw, List.takeWhile_append_dropWhile]
  generalize hx : cstr (rest1.dropWhile (fun c => c ≠ 0 ∧ c ≠ SPACE)) = x
  have hxs : x = [] ∨ ∃ y, x = SPACE :: y := by
    rw [← hx]; exact cstr_dropWhile_word rest1
  have h1 : prefixesOf (cstr rest) = prefixesOf (w ++ x) := by
    conv_lhs => rw [hrest]
    rw [cstr_append_of_ne_zero _ _ hsp0, prefixesOf_spaces_append _ _ hsp]
    conv_lhs => rw [hrest1]
    rw [cstr_append_of_ne_zero _ _ (fun c hc => (hw0 c hc).1), hx]
  have h2 : cstr (rest1.drop (w.take 127).length) = w.drop 127 ++ x := by
    have hlen : (w.take 127).length ≤ w.length := by rw [List.length_take]; omega
    conv_lhs => rw [hrest1]
    rw [List.drop_append_of_le_length hlen,
      cstr_append_of_ne_zero _ _ (fun c hc => (hw0 c (List.mem_of_mem_drop hc)).1), hx]
    congr 1
    rw [List.length_take]
    by_cases hle : w.length ≤ 127
    · rw [Nat.min_eq_right hle, List.drop_of_length_le (Nat.le_refl _),
        List.drop_of_length_le hle]
    · rw [Nat.min_eq_left (by omega)]
  rw [h1, h2]
  by_cases hwe : w = []
  · subst hwe
    simp
  · have htake : w.take 127 ≠ [] := by
      cases w with
      | nil => exact absurd rfl hwe
      | cons c t => simp
    rw [if_neg htake]
    have hA : prefixesOf (w ++ x) = pieces 127 w ++ prefixesOf x := by
      simp only [prefixesOf]
      rw [runs_word_append w x hwe (fun c hc => (hw0 c hc).2) hxs, List.flatMap_cons]
      rfl
    have hB : prefixesOf (w.drop 127 ++ x) = pieces 127 (w.drop 127) ++ prefixesOf x := by
      by_cases hd : w.drop 127 = []
      · rw [hd, pieces_nil, List.nil_append, List.nil_append]
      · simp only [prefixesOf]
        rw [runs_word_append (w.drop 127) x hd
          (fun c hc => (hw0 c (List.mem_of_mem_drop hc)).2) hxs, List.flatMap_cons]
        rfl
    rw [hA, hB, pieces_cons 127 (by decide) w hwe]
    simp

/-! ### The loops of the tokenizer -/

/-- The memory from the pointer on: empty at or past the end, where the
pointer reads the terminator, or the character at the pointer and the rest. -/
theorem drop_charAt (value : List Nat) (p : Nat) :
    (value.drop p = [] ∧ charAt value p = 0) ∨
    value.drop p = charAt value p :: value.drop (p + 1) := by
  by_cases hp : p < value.length
  · right
    rw [List.drop_eq_getElem_cons hp]
    simp [charAt, List.getD_eq_getElem?_getD, List.getElem?_eq_getElem hp]
  · left
    have hle : value.length ≤ p := Nat.le_of_not_lt hp
    exact ⟨List.drop_of_length_le hle, by
      simp [charAt, List.getD_eq_getElem?_getD, List.getElem?_eq_none hle]⟩

/-- The space-skipping loop ends, after as many steps as there are leading
spaces. -/
theorem skipSpaces_eq (value : List Nat) : ∀ (fuel p : Nat),
    ((value.drop p).takeWhile (fun c => c = SPACE)).length < fuel →
    skipSpaces value fuel p =
      some (p + ((value.drop p).takeWhile (fun c => c = SPACE)).length) ∧
    value.drop (p + ((value.drop p).takeWhile (fun c => c = SPACE)).length) =
      (value.drop p).dropWhile (fun c => c = SPACE) := by
  intro fuel
  induction fuel with
  | zero => intro p h; simp at h
  | succ fuel ih =>
    intro p h
    rcases drop_charAt value p with ⟨hnil, h0⟩ | hcons
    · simp [skipSpaces, h0, hnil]
    · by_cases hc : charAt value p = SPACE
      · have hne : charAt value p ≠ 0 := by rw [hc]; decide
        rw [hcons] at h ⊢
        simp only [List.takeWhile_cons, hc, decide_True, if_true, List.length_cons,
          List.dropWhile_cons] at h ⊢
        obtain ⟨h1, h2⟩ := ih (p + 1) (by omega)
        refine ⟨?_, ?_⟩
        · rw [skipSpaces, if_pos ⟨hne, hc⟩, h1]
          congr 1
          omega
        · rw [← h2]
          congr 1
          omega
      · rw [hcons]
        simp [skipSpaces, hc, List.takeWhile_cons, List.dropWhile_cons, hcons]

/-- The copy loop ends.  It copies the characters up to the next space or
terminator, but no more than fit below index 127, into `wzPrefix` from
`nIndex` on, writing exactly these indices. -/
theorem copyPrefix_eq (value : List Nat) : ∀ (fuel : Nat) (st : Tokenizer)
    (pre tail w : List Nat) (j : Nat),
    st.wzPrefix = pre ++ tail → pre.length = st.nIndex → st.nIndex + tail.length = 128 →
    w = (value.drop st.pStart).takeWhile (fun c => c ≠ 0 ∧ c ≠ SPACE) →
    j = min w.length (127 - st.nIndex) → j < fuel →
    copyPrefix value fuel st =
      some ⟨st.pStart + j, st.nIndex + j, pre ++ w.take j ++ tail.drop j, st.ignorable,
        st.lookups, st.writes ++ (List.range j).map (fun i => st.nIndex + i)⟩ := by
  intro fuel
  induction fuel with
  | zero => intro st pre tail w j _ _ _ _ _ h; simp at h
  | succ fuel ih =>
    intro st pre tail w j hbuf hpre hlen hw hj hfuel
    by_cases hcond : charAt value st.pStart ≠ 0 ∧ charAt value st.pStart ≠ SPACE ∧
        st.nIndex < MAX_PREFIX_LENGTH - 1
    · obtain ⟨h0, hs, hidx⟩ := hcond
      have hidx₂ : st.nIndex < 127 := hidx
      rcases drop_charAt value st.pStart with ⟨_, hz⟩ | hcons
      · exact absurd hz h0
      · have hw₂ : w = charAt value st.pStart ::
            (value.drop (st.pStart + 1)).takeWhile (fun c => c ≠ 0 ∧ c ≠ SPACE) := by
          rw [hw, hcons, List.takeWhile_cons, if_pos (by simpa using ⟨h0, hs⟩)]
        cases tail with
        | nil => simp at hlen; omega
        | cons t0 tail₂ =>
          have hset : st.wzPrefix.set st.nIndex (charAt value st.pStart) =
              (pre ++ [charAt value st.pStart]) ++ tail₂ := by
            rw [hbuf, ← hpre]
            simp
          have hj₂ : j = min ((value.drop (st.pStart + 1)).takeWhile
              (fun c => c ≠ 0 ∧ c ≠ SPACE)).length (127 - (st.nIndex + 1)) + 1 := by
            rw [hj, hw₂]
            simp only [List.length_cons]
            omega
          have hrec := ih
            ⟨st.pStart + 1, st.nIndex + 1, st.wzPrefix.set st.nIndex (charAt value st.pStart),
              st.ignorable, st.lookups, st.writes ++ [st.nIndex]⟩
            (pre ++ [charAt value st.pStart]) tail₂
            ((value.drop (st.pStart + 1)).takeWhile (fun c => c ≠ 0 ∧ c ≠ SPACE))
            (min ((value.drop (st.pStart + 1)).takeWhile
              (fun c => c ≠ 0 ∧ c ≠ SPACE)).length (127 - (st.nIndex + 1)))
            hset (by simp [hpre])
            (by
              show st.nIndex + 1 + tail₂.length = 128
              simp only [List.length_cons] at hlen
              omega)
            rfl rfl (by omega)
          have hmap : ∀ n : Nat,
              List.map ((fun i => st.nIndex + i) ∘ Nat.succ) (List.range n) =
                List.map (fun i => st.nIndex + 1 + i) (List.range n) := by
            intro n
            apply List.map_congr_left
            intro i _
            simp only [Function.comp]
            omega
          rw [copyPrefix, if_pos ⟨h0, hs, hidx⟩, hrec, hj₂, hw₂]
          simp only [List.take_succ_cons, List.drop_succ_cons, List.range_succ_eq_map,
            List.map_cons, List.map_map, List.append_assoc, List.cons_append,
            List.nil_append, Option.some.injEq, Tokenizer.mk.injEq, hmap, Nat.add_zero]
          exact ⟨by omega, by omega, trivial, trivial, trivial, trivial⟩
    · have hj0 : j = 0 := by
        by_cases hidx : st.nIndex < 127
        · have hw0 : w = [] := by
            rcases drop_charAt value st.pStart with ⟨hnil, _⟩ | hcons
            · rw [hw, hnil]; rfl
            · rw [hw, hcons, List.takeWhile_cons, if_neg]
              intro hp
              have hp₂ : charAt value st.pStart ≠ 0 ∧ charAt value st.pStart ≠ SPACE := by
                simpa using hp
              exact hcond ⟨hp₂.1, hp₂.2, hidx⟩
          rw [hj, hw0]
          simp
        · rw [hj]
          omega
      subst hj0
      rw [copyPrefix, if_neg hcond]
      cases st with
      | mk p n b ig lk wr =>
        simp only at hbuf
        simp [hbuf]

/-- The end of the loop body, when `wzPrefix` holds the copied characters
`token` up to `nIndex`: the terminator is written at `nIndex`, the prefix is
looked up exactly when it is not empty, and the string looked up is `token`.
The body jumps to `Cleanup` only with a failure returned by `Add`. -/
theorem lookupPrefix_spec (env : Environment) (c : Tokenizer) (token tail : List Nat)
    (hbuf : c.wzPrefix = token ++ tail) (hn : c.nIndex = token.length) (htail : tail ≠ [])
    (hnz : ∀ x ∈ token, x ≠ 0) :
    (lookupPrefix env c).state.pStart = c.pStart ∧
    (lookupPrefix env c).state.wzPrefix = token ++ 0 :: tail.tail ∧
    (lookupPrefix env c).state.writes = c.writes ++ [c.nIndex] ∧
    (lookupPrefix env c).state.lookups =
      c.lookups ++ (if token = [] then [] else [token ++ 0 :: tail.tail]) ∧
    cstr (token ++ 0 :: tail.tail) = token ∧
    (∀ (hr : HRESULT) (st : Tokenizer), lookupPrefix env c = .cleanup hr st →
      FAILED hr = true ∧ ∃ m ns v, hr = env.addIgnorable m ns v) ∧
    ((∀ m ns v, FAILED (env.addIgnorable m ns v) = false) →
      ∃ st, lookupPrefix env c = .completed st) := by
  have hset : c.wzPrefix.set c.nIndex 0 = token ++ 0 :: tail.tail := by
    rw [hbuf, hn]
    cases tail with
    | nil => exact absurd rfl htail
    | cons t0 tl => simp
  have hcstr : cstr (token ++ 0 :: tail.tail) = token := by
    rw [cstr_append_of_ne_zero _ _ hnz]
    simp [cstr]
  have hhead : (token ++ 0 :: tail.tail).getD 0 0 ≠ 0 ↔ token ≠ [] := by
    cases token with
    | nil => simp
    | cons x xs =>
      have := hnz x (List.mem_cons_self x xs)
      simp [this]
  unfold lookupPrefix
  simp only [hset]
  by_cases htok : token = []
  · have hh : ¬ (token ++ 0 :: tail.tail).getD 0 0 ≠ 0 := fun h => (hhead.mp h) htok
    rw [if_neg hh]
    simp [LoopEnd.state, htok, hcstr]
    rw [htok] at hcstr
    simpa using hcstr
  · have hh : (token ++ 0 :: tail.tail).getD 0 0 ≠ 0 := hhead.mpr htok
    rw [if_pos hh]
    cases hf : env.findPrefixNamespace (cstr (token ++ 0 :: tail.tail)) with
    | none => simp [LoopEnd.state, htok, hcstr]
    | some ns =>
      cases hv : env.findNamespaceVersion ns with
      | none => simp [hv, LoopEnd.state, htok, hcstr]
      | some version =>
        by_cases hadd : FAILED (env.addIgnorable c.ignorable ns version) = true
        · simp only [hv, hadd, if_true, LoopEnd.state, htok, if_false, hcstr, true_and]
          refine ⟨?_, ?_⟩
          · intro hr st heq
            cases heq
            exact ⟨hadd, _, _, _, rfl⟩
          · intro hno
            rw [hno] at hadd
            exact absurd hadd (by decide)
        · simp [hv, hadd, LoopEnd.state, htok, hcstr]

/-- Taking as many elements as there are, or `n` if that is less, is taking `n`. -/
theorem take_min_length (w : List Nat) (n : Nat) : w.take (min w.length n) = w.take n := by
  by_cases h : w.length ≤ n
  · rw [Nat.min_eq_left h, List.take_of_length_le (Nat.le_refl _), List.take_of_length_le h]
  · rw [Nat.min_eq_right (by omega)]

/-- The leading spaces and the next token are part of the string: what is
left of the string after them is shorter by their lengths. -/
theorem cstr_after_token (rest : List Nat) :
    (cstr ((rest.dropWhile (fun c => c = SPACE)).drop
        (((rest.dropWhile (fun c => c = SPACE)).takeWhile
            (fun c => c ≠ 0 ∧ c ≠ SPACE)).take 127).length)).length +
      (rest.takeWhile (fun c => c = SPACE)).length +
      (((rest.dropWhile (fun c => c = SPACE)).takeWhile
            (fun c => c ≠ 0 ∧ c ≠ SPACE)).take 127).length = (cstr rest).length := by
  generalize hr1 : rest.dropWhile (fun c => c = SPACE) = rest1
  generalize hw : rest1.takeWhile (fun c => c ≠ 0 ∧ c ≠ SPACE) = w
  have hsp0 : ∀ c ∈ rest.takeWhile (fun c => c = SPACE), c ≠ 0 := by
    intro c hc
    have : c = SPACE := by simpa using List.mem_takeWhile_imp hc
    rw [this]
    decide
  have hrest : rest = rest.takeWhile (fun c => c = SPACE) ++ rest1 := by
    rw [← hr1, List.takeWhile_append_dropWhile]
  have hw0 : ∀ c ∈ w, c ≠ 0 ∧ c ≠ SPACE := by
    intro c hc
    rw [← hw] at hc
    simpa using List.mem_takeWhile_imp hc
  have hrest1 : rest1 = w ++ rest1.dropWhile (fun c => c ≠ 0 ∧ c ≠ SPACE) := by
    rw [← hw, List.takeWhile_append_dropWhile]
  generalize hx : cstr (rest1.dropWhile (fun c => c ≠ 0 ∧ c ≠ SPACE)) = x
  have h1 : cstr rest = rest.takeWhile (fun c => c = SPACE) ++ (w ++ x) := by
    conv_lhs => rw [hrest]
    rw [cstr_append_of_ne_zero _ _ hsp0]
    conv_lhs => rw [hrest1]
    rw [cstr_append_of_ne_zero _ _ (fun c hc => (hw0 c hc).1), hx]
  have h2 : cstr (rest1.drop (w.take 127).length) = w.drop (w.take 127).length ++ x := by
    have hlen : (w.take 127).length ≤ w.length := by rw [List.length_take]; omega
    conv_lhs => rw [hrest1]
    rw [List.drop_append_of_le_length hlen,
      cstr_append_of_ne_zero _ _ (fun c hc => (hw0 c (List.mem_of_mem_drop hc)).1), hx]
  rw [h1, h2]
  simp only [List.length_append, List.length_drop, List.length_take]
  omega

/-- A pass that starts on a character other than the terminator consumes at
least one character: a space, or a character of the token. -/
theorem token_progress (rest : List Nat) (c : Nat) (tl : List Nat) (hrest : rest = c :: tl)
    (hc : c ≠ 0) :
    0 < (rest.takeWhile (fun c => c = SPACE)).length +
      (((rest.dropWhile (fun c => c = SPACE)).takeWhile
            (fun c => c ≠ 0 ∧ c ≠ SPACE)).take 127).length := by
  subst hrest
  by_cases hs : c = SPACE
  · simp [List.takeWhile_cons, hs]
  · simp [List.takeWhile_cons, List.dropWhile_cons, hs, hc]

/-- One pass of the outer loop body ends, given a budget above the length of
the string that is left.  It moves the pointer over the leading spaces and the
next token, writes `wzPrefix` only at indices up to 127, and looks the token
up, in a terminated buffer, exactly when the token is not empty. -/
theorem tokenizeStep_spec (env : Environment) (value : List Nat) (budget : Nat) (st : Tokenizer)
    (hbuf : st.wzPrefix.length = 128)
    (hbud : (cstr (value.drop st.pStart)).length < budget) :
    ∃ (e : LoopEnd) (buf ws : List Nat),
      tokenizeStep env value budget st = some e ∧
      e.state.pStart = st.pStart +
        (((value.drop st.pStart).takeWhile (fun c => c = SPACE)).length +
        ((((value.drop st.pStart).dropWhile (fun c => c = SPACE)).takeWhile
            (fun c => c ≠ 0 ∧ c ≠ SPACE)).take 127).length) ∧
      value.drop e.state.pStart =
        ((value.drop st.pStart).dropWhile (fun c => c = SPACE)).drop
          ((((value.drop st.pStart).dropWhile (fun c => c = SPACE)).takeWhile
            (fun c => c ≠ 0 ∧ c ≠ SPACE)).take 127).length ∧
      e.state.wzPrefix.length = 128 ∧
      e.state.writes = st.writes ++ ws ∧ (∀ i ∈ ws, i ≤ 127) ∧
      e.state.lookups = st.lookups ++
        (if (((value.drop st.pStart).dropWhile (fun c => c = SPACE)).takeWhile
            (fun c => c ≠ 0 ∧ c ≠ SPACE)).take 127 = [] then [] else [buf]) ∧
      buf.length = 128 ∧ 0 ∈ buf ∧
      cstr buf = (((value.drop st.pStart).dropWhile (fun c => c = SPACE)).takeWhile
            (fun c => c ≠ 0 ∧ c ≠ SPACE)).take 127 ∧
      (∀ (hr : HRESULT) (st1 : Tokenizer), e = .cleanup hr st1 →
        FAILED hr = true ∧ ∃ m ns v, hr = env.addIgnorable m ns v) ∧
      ((∀ m ns v, FAILED (env.addIgnorable m ns v) = false) → ∃ st1, e = .completed st1) := by
  have hlen := cstr_after_token (value.drop st.pStart)
  obtain ⟨hskip, hdrop⟩ := skipSpaces_eq value budget st.pStart (by omega)
  generalize hk : ((value.drop st.pStart).takeWhile (fun c => c = SPACE)).length = k at *
  generalize hr1 : (value.drop st.pStart).dropWhile (fun c => c = SPACE) = rest1 at *
  generalize hw : rest1.takeWhile (fun c => c ≠ 0 ∧ c ≠ SPACE) = w at *
  have hw0 : ∀ c ∈ w, c ≠ 0 ∧ c ≠ SPACE := by
    intro c hc
    rw [← hw] at hc
    simpa using List.mem_takeWhile_imp hc
  have htl : (w.take 127).length = min w.length 127 := by
    rw [List.length_take, Nat.min_comm]
  have hj127 : (w.take 127).length ≤ 127 := by rw [htl]; omega
  have ht : w.take (w.take 127).length = w.take 127 := by rw [htl, take_min_length]
  have hcopy : copyPrefix value budget
      ⟨st.pStart + k, 0, st.wzPrefix, st.ignorable, st.lookups, st.writes⟩ =
      some ⟨st.pStart + k + (w.take 127).length, (w.take 127).length,
        w.take 127 ++ st.wzPrefix.drop (w.take 127).length, st.ignorable, st.lookups,
        st.writes ++ (List.range (w.take 127).length).map (fun i => 0 + i)⟩ := by
    rw [copyPrefix_eq value budget
      ⟨st.pStart + k, 0, st.wzPrefix, st.ignorable, st.lookups, st.writes⟩
      [] st.wzPrefix w (w.take 127).length rfl rfl
      (by show 0 + st.wzPrefix.length = 128; omega)
      (by show w = (value.drop (st.pStart + k)).takeWhile _; rw [hdrop, hw])
      (by show (w.take 127).length = min w.length (127 - 0); rw [htl])
      (by omega)]
    simp only [List.nil_append, Nat.zero_add, ht]
  have htailne : st.wzPrefix.drop (w.take 127).length ≠ [] := by
    intro h
    have := congrArg List.length h
    simp only [List.length_drop, List.length_nil] at this
    omega
  obtain ⟨l1, l2, l3, l4, l5, l6, l7⟩ := lookupPrefix_spec env
    ⟨st.pStart + k + (w.take 127).length, (w.take 127).length,
      w.take 127 ++ st.wzPrefix.drop (w.take 127).length, st.ignorable, st.lookups,
      st.writes ++ (List.range (w.take 127).length).map (fun i => 0 + i)⟩
    (w.take 127) (st.wzPrefix.drop (w.take 127).length) rfl rfl htailne
    (fun x hx => (hw0 x (List.mem_of_mem_take hx)).1)
  refine ⟨_, w.take 127 ++ 0 :: (st.wzPrefix.drop (w.take 127).length).tail,
    (List.range (w.take 127).length).map (fun i => 0 + i) ++ [(w.take 127).length],
    ?_, ?_, ?_, ?_, ?_, ?_, ?_, ?_, ?_, l5, l6, l7⟩
  · unfold tokenizeStep
    rw [hskip]
    simp only [hcopy]
  · rw [l1]
    show st.pStart + k + (w.take 127).length = st.pStart + (k + (w.take 127).length)
    omega
  · rw [l1]
    show value.drop (st.pStart + k + (w.take 127).length) = rest1.drop (w.take 127).length
    rw [← hdrop, List.drop_drop]
  · rw [l2]
    simp only [List.length_append, List.length_cons, List.length_tail, List.length_drop]
    omega
  · rw [l3]
    simp only [List.append_assoc]
  · intro i hi
    simp only [List.mem_append, List.mem_map, List.mem_range, List.mem_singleton] at hi
    rcases hi with ⟨a, ha, rfl⟩ | rfl
    · omega
    · exact hj127
  · exact l4
  · simp only [List.length_append, List.length_cons, List.length_tail, List.length_drop]
    omega
  · simp

/-- Where the pointer reads the terminator, the string that is left is empty. -/
theorem cstr_drop_of_charAt_zero (value : List Nat) (p : Nat) (h : charAt value p = 0) :
    cstr (value.drop p) = [] := by
  rcases drop_charAt value p with ⟨hnil, _⟩ | hcons
  · rw [hnil]; rfl
  · rw [hcons, h]; rfl

/-- The empty string stands for no prefix. -/
theorem prefixesOf_nil : prefixesOf [] = [] := by
  simp [prefixesOf, runs_nil]

/-- The outer loop ends, given fuel and budget above the length of the string
that is left.  The pointer only moves forward and stays within the string; the
buffer is written at indices up to 127 only; the lookups are, in order, the
prefixes the string stands for (all of them when the loop runs to its end),
each in a terminated buffer; and the loop jumps to `Cleanup` only with a
failure returned by `Add`. -/
theorem tokenizeLoop_spec (env : Environment) (value : List Nat) (budget : Nat) :
    ∀ (fuel : Nat) (st : Tokenizer),
    st.wzPrefix.length = 128 →
    (cstr (value.drop st.pStart)).length < budget →
    (cstr (value.drop st.pStart)).length < fuel →
    ∃ (e : LoopEnd) (found more : List (List Nat)) (ws : List Nat),
      tokenizeLoop env value budget fuel st = some e ∧
      e.state.pStart + (cstr (value.drop e.state.pStart)).length =
        st.pStart + (cstr (value.drop st.pStart)).length ∧
      e.state.writes = st.writes ++ ws ∧ (∀ i ∈ ws, i ≤ 127) ∧
      e.state.lookups = st.lookups ++ found ∧ (∀ b ∈ found, b.length = 128 ∧ 0 ∈ b) ∧
      found.map cstr ++ more = prefixesOf (cstr (value.drop st.pStart)) ∧
      (∀ st1 : Tokenizer, e = .completed st1 → more = [] ∧ charAt value st1.pStart = 0) ∧
      (∀ (hr : HRESULT) (st1 : Tokenizer), e = .cleanup hr st1 →
        FAILED hr = true ∧ ∃ m ns v, hr = env.addIgnorable m ns v) ∧
      ((∀ m ns v, FAILED (env.addIgnorable m ns v) = false) → ∃ st1, e = .completed st1) := by
  intro fuel
  induction fuel with
  | zero => intro st _ _ h; simp at h
  | succ fuel ih =>
    intro st hbuf hbud hfuel
    by_cases h0 : charAt value st.pStart = 0
    · refine ⟨.completed st, [], [], [], ?_, rfl, by simp [LoopEnd.state], by simp,
        by simp [LoopEnd.state], by simp, ?_, ?_, ?_, ?_⟩
      · rw [tokenizeLoop, if_pos h0]
      · rw [cstr_drop_of_charAt_zero value st.pStart h0, prefixesOf_nil]
        rfl
      · intro st1 h
        cases h
        exact ⟨rfl, h0⟩
      · intro hr st1 h
        cases h
      · intro _
        exact ⟨st, rfl⟩
    · obtain ⟨e1, buf, ws1, hstep, hp, hdrop, hlen128, hwr, hws, hlk, hbl, hb0, hbc, hcl, hok⟩ :=
        tokenizeStep_spec env value budget st hbuf hbud
      have hafter := cstr_after_token (value.drop st.pStart)
      have hprog : 0 < ((value.drop st.pStart).takeWhile (fun c => c = SPACE)).length +
          ((((value.drop st.pStart).dropWhile (fun c => c = SPACE)).takeWhile
            (fun c => c ≠ 0 ∧ c ≠ SPACE)).take 127).length := by
        rcases drop_charAt value st.pStart with ⟨_, hz⟩ | hcons
        · exact absurd hz h0
        · exact token_progress _ _ _ hcons h0
      have hpre := prefixesOf_step (value.drop st.pStart)
      rw [← hdrop] at hafter hpre
      generalize hk : ((value.drop st.pStart).takeWhile (fun c => c = SPACE)).length = k at *
      generalize htok : (((value.drop st.pStart).dropWhile (fun c => c = SPACE)).takeWhile
            (fun c => c ≠ 0 ∧ c ≠ SPACE)).take 127 = token at *
      have hbufs : ∀ b ∈ (if token = [] then [] else [buf]), b.length = 128 ∧ 0 ∈ b := by
        intro b hb
        by_cases ht : token = []
        · simp [ht] at hb
        · simp only [ht, if_false, List.mem_singleton] at hb
          rw [hb]
          exact ⟨hbl, hb0⟩
      have hmapc : (if token = [] then [] else [buf]).map cstr =
          (if token = [] then [] else [token]) := by
        by_cases ht : token = []
        · simp [ht]
        · simp [ht, hbc]
      cases e1 with
      | completed st1 =>
        simp only [LoopEnd.state] at hp hdrop hlen128 hwr hlk hafter hpre
        obtain ⟨e, found, more, ws, hloop, hpos, hw2, hws2, hl2, hb2, hpf, hcomp, hclean, hnofail⟩ :=
          ih st1 hlen128 (by omega) (by omega)
        refine ⟨e, (if token = [] then [] else [buf]) ++ found, more, ws1 ++ ws,
          ?_, ?_, ?_, ?_, ?_, ?_, ?_, hcomp, hclean, hnofail⟩
        · rw [tokenizeLoop, if_neg h0, hstep]
          exact hloop
        · omega
        · rw [hw2, hwr, List.append_assoc]
        · intro i hi
          rcases List.mem_append.mp hi with h | h
          · exact hws i h
          · exact hws2 i h
        · rw [hl2, hlk, List.append_assoc]
        · intro b hb
          rcases List.mem_append.mp hb with h | h
          · exact hbufs b h
          · exact hb2 b h
        · rw [List.map_append, hmapc, List.append_assoc, hpf, hpre]
      | cleanup hr st1 =>
        simp only [LoopEnd.state] at hp hdrop hlen128 hwr hlk hafter hpre
        refine ⟨.cleanup hr st1, (if token = [] then [] else [buf]),
          prefixesOf (cstr (value.drop st1.pStart)), ws1, ?_, ?_, hwr, hws, hlk, hbufs, ?_,
          ?_, hcl, hok⟩
        · rw [tokenizeLoop, if_neg h0, hstep]
        · simp only [LoopEnd.state]
          omega
        · rw [hmapc, hpre]
        · intro st2 h
          cases h

/-- The string from a position within it on: its length is what is left. -/
theorem cstr_drop_length : ∀ (p : Nat) (value : List Nat), p ≤ (cstr value).length →
    (cstr (value.drop p)).length + p = (cstr value).length := by
  intro p
  induction p with
  | zero => intro value _; simp
  | succ p ih =>
    intro value h
    cases value with
    | nil => simp [cstr] at h
    | cons c tl =>
      by_cases hc : c = 0
      · simp [cstr, hc] at h
      · have hcons : cstr (c :: tl) = c :: cstr tl := by
          simp [cstr, List.takeWhile_cons, hc]
        rw [hcons] at h ⊢
        simp only [List.length_cons, List.drop_succ_cons] at h ⊢
        have := ih tl (by omega)
        omega

/-- The whole method, given fuel above the length of the attribute value: it
returns, what it returns is a failure, and the loop facts hold of the
variables at the end. -/
theorem startElement_spec (env : Environment) (fuel : Nat)
    (hfuel : (cstr env.getValueFromName.2).length < fuel) :
    ∃ (hr : HRESULT) (st : Tokenizer) (more : List (List Nat)),
      startElement env fuel = some (hr, st) ∧ FAILED hr = true ∧
      ((FAILED env.getValueFromName.1 = true ∧ hr = env.getValueFromName.1) ∨
        (FAILED env.getValueFromName.1 = false ∧ ∃ m ns v, hr = env.addIgnorable m ns v) ∨
        (FAILED env.getValueFromName.1 = false ∧ hr = E_FAIL ∧ more = [] ∧
          charAt env.getValueFromName.2 st.pStart = 0)) ∧
      st.pStart ≤ (cstr env.getValueFromName.2).length ∧
      (∀ i ∈ st.writes, i ≤ 127) ∧
      (∀ b ∈ st.lookups, b.length = 128 ∧ 0 ∈ b) ∧
      (FAILED env.getValueFromName.1 = false →
        st.lookups.map cstr ++ more = prefixesOf (cstr env.getValueFromName.2)) ∧
      (FAILED env.getValueFromName.1 = false →
        (∀ m ns v, FAILED (env.addIgnorable m ns v) = false) → more = []) := by
  by_cases hgv : FAILED env.getValueFromName.1 = true
  · refine ⟨env.getValueFromName.1, Tokenizer.entry env, [], ?_, hgv, Or.inl ⟨hgv, rfl⟩,
      Nat.zero_le _, ?_, ?_, ?_, ?_⟩
    · rw [startElement, if_pos hgv]
    · intro i hi
      simp [Tokenizer.entry] at hi
    · intro b hb
      simp [Tokenizer.entry] at hb
    · intro h
      rw [h] at hgv
      exact absurd hgv (by decide)
    · intro _ _
      rfl
  · have hgv₂ : FAILED env.getValueFromName.1 = false := by simpa using hgv
    have hentry : (Tokenizer.entry env).wzPrefix.length = 128 := by
      simp [Tokenizer.entry, MAX_PREFIX_LENGTH]
    have hp0 : (Tokenizer.entry env).pStart = 0 := rfl
    have hw0 : (Tokenizer.entry env).writes = [] := rfl
    have hl0 : (Tokenizer.entry env).lookups = [] := rfl
    obtain ⟨e, found, more, ws, hloop, hpos, hwr, hws, hlk, hbufs, hpre, hcomp, hclean, hnofail⟩ :=
      tokenizeLoop_spec env env.getValueFromName.2 fuel fuel (Tokenizer.entry env) hentry
        (by rw [hp0, List.drop_zero]; exact hfuel) (by rw [hp0, List.drop_zero]; exact hfuel)
    rw [hp0, List.drop_zero] at hpos hpre
    rw [hw0, List.nil_append] at hwr
    rw [hl0, List.nil_append] at hlk
    have hstart : ∀ st, e.state = st → st.pStart ≤ (cstr env.getValueFromName.2).length ∧
        (∀ i ∈ st.writes, i ≤ 127) ∧ (∀ b ∈ st.lookups, b.length = 128 ∧ 0 ∈ b) ∧
        st.lookups.map cstr ++ more = prefixesOf (cstr env.getValueFromName.2) := by
      intro st hst
      subst hst
      refine ⟨by omega, ?_, ?_, ?_⟩
      · rw [hwr]; exact hws
      · rw [hlk]; exact hbufs
      · rw [hlk]; exact hpre
    cases e with
    | completed st =>
      obtain ⟨hm, hz⟩ := hcomp st rfl
      obtain ⟨h1, h2, h3, h4⟩ := hstart st rfl
      refine ⟨E_FAIL, st, more, ?_, by decide, Or.inr (Or.inr ⟨hgv₂, rfl, hm, hz⟩), h1, h2, h3,
        fun _ => h4, fun _ _ => hm⟩
      rw [startElement, if_neg hgv, hloop]
    | cleanup hr st =>
      obtain ⟨hf, hadd⟩ := hclean hr st rfl
      obtain ⟨h1, h2, h3, h4⟩ := hstart st rfl
      refine ⟨hr, st, more, ?_, hf, Or.inr (Or.inl ⟨hgv₂, hadd⟩), h1, h2, h3,
        fun _ => h4, ?_⟩
      · rw [startElement, if_neg hgv, hloop]
      · intro _ hno
        obtain ⟨st1, hst1⟩ := hnofail hno
        cases hst1

/-- C26. `CMarkupVersion::startElement` returns, and never a success: what it
returns is a failed `HRESULT`, which is the failure of the lookup of the
`Ignorable` attribute, or a failure returned by `Add` on the map of ignorable
namespaces, or `E_FAIL` after the loop has run to the terminator. -/
theorem startElement_never_succeeds (env : Environment) (fuel : Nat)
    (hfuel : (cstr env.getValueFromName.2).length < fuel) :
    ∃ (hr : HRESULT) (st : Tokenizer),
      startElement env fuel = some (hr, st) ∧ FAILED hr = true ∧ SUCCEEDED hr = false ∧
      ((FAILED env.getValueFromName.1 = true ∧ hr = env.getValueFromName.1) ∨
        (FAILED env.getValueFromName.1 = false ∧ ∃ m ns v, hr = env.addIgnorable m ns v) ∨
        (FAILED env.getValueFromName.1 = false ∧ hr = E_FAIL ∧
          charAt env.getValueFromName.2 st.pStart = 0)) := by
  obtain ⟨hr, st, more, h1, h2, h3, _⟩ := startElement_spec env fuel hfuel
  refine ⟨hr, st, h1, h2, ?_, ?_⟩
  · have hlt : hr < 0 := by simpa [FAILED] using h2
    have hnot : ¬ (0 : Int) ≤ hr := Int.not_le.mpr hlt
    simp [SUCCEEDED, hnot]
  · rcases h3 with h | h | ⟨ha, hb, _, hd⟩
    · exact Or.inl h
    · exact Or.inr (Or.inl h)
    · exact Or.inr (Or.inr ⟨ha, hb, hd⟩)

/-- Witness of C26: the value ` ab  c ` with a known prefix `ab`. -/
theorem startElement_never_succeeds_witness :
    (cstr (sampleEnvironment [32, 97, 98, 32, 32, 99, 32]).getValueFromName.2).length < 8 ∧
    ∃ (hr : HRESULT) (st : Tokenizer),
      startElement (sampleEnvironment [32, 97, 98, 32, 32, 99, 32]) 8 = some (hr, st) ∧
      FAILED hr = true ∧ SUCCEEDED hr = false ∧
      ((FAILED (sampleEnvironment [32, 97, 98, 32, 32, 99, 32]).getValueFromName.1 = true ∧
          hr = (sampleEnvironment [32, 97, 98, 32, 32, 99, 32]).getValueFromName.1) ∨
        (FAILED (sampleEnvironment [32, 97, 98, 32, 32, 99, 32]).getValueFromName.1 = false ∧
          ∃ m ns v, hr = (sampleEnvironment [32, 97, 98, 32, 32, 99, 32]).addIgnorable m ns v) ∨
        (FAILED (sampleEnvironment [32, 97, 98, 32, 32, 99, 32]).getValueFromName.1 = false ∧
          hr = E_FAIL ∧
          charAt (sampleEnvironment [32, 97, 98, 32, 32, 99, 32]).getValueFromName.2
            st.pStart = 0)) :=
  ⟨by decide, startElement_never_succeeds _ 8 (by decide)⟩

/-- C28. For every attribute value the tokenizer loop ends.  Each pass of the
outer loop body that starts within the string on a character other than the
terminator ends with the pointer at least one character further and not past
the terminator; and the whole loop, started at the first character, ends with
the pointer not past the terminator. -/
theorem tokenizer_terminates (env : Environment) (fuel : Nat)
    (hfuel : (cstr env.getValueFromName.2).length < fuel) :
    (∀ st : Tokenizer, st.wzPrefix.length = MAX_PREFIX_LENGTH →
      st.pStart ≤ (cstr env.getValueFromName.2).length →
      charAt env.getValueFromName.2 st.pStart ≠ 0 →
      ∃ e, tokenizeStep env env.getValueFromName.2 fuel st = some e ∧
        st.pStart < e.state.pStart ∧
        e.state.pStart ≤ (cstr env.getValueFromName.2).length) ∧
    (∃ e, tokenizeLoop env env.getValueFromName.2 fuel fuel (Tokenizer.entry env) = some e ∧
      e.state.pStart ≤ (cstr env.getValueFromName.2).length) := by
  refine ⟨?_, ?_⟩
  · intro st hbuf hp h0
    have hlen := cstr_drop_length st.pStart env.getValueFromName.2 hp
    obtain ⟨e, buf, ws, hstep, hpos, _⟩ :=
      tokenizeStep_spec env env.getValueFromName.2 fuel st hbuf (by omega)
    have hafter := cstr_after_token (env.getValueFromName.2.drop st.pStart)
    have hprog : 0 <
        ((env.getValueFromName.2.drop st.pStart).takeWhile (fun c => c = SPACE)).length +
        ((((env.getValueFromName.2.drop st.pStart).dropWhile (fun c => c = SPACE)).takeWhile
            (fun c => c ≠ 0 ∧ c ≠ SPACE)).take 127).length := by
      rcases drop_charAt env.getValueFromName.2 st.pStart with ⟨_, hz⟩ | hcons
      · exact absurd hz h0
      · exact token_progress _ _ _ hcons h0
    exact ⟨e, hstep, by omega, by omega⟩
  · have hentry : (Tokenizer.entry env).wzPrefix.length = 128 := by
      simp [Tokenizer.entry, MAX_PREFIX_LENGTH]
    have hp0 : (Tokenizer.entry env).pStart = 0 := rfl
    obtain ⟨e, found, more, ws, hloop, hpos, _⟩ :=
      tokenizeLoop_spec env env.getValueFromName.2 fuel fuel (Tokenizer.entry env) hentry
        (by rw [hp0, List.drop_zero]; exact hfuel) (by rw [hp0, List.drop_zero]; exact hfuel)
    rw [hp0, List.drop_zero] at hpos
    exact ⟨e, hloop, by omega⟩

/-- Witness of C28: the value ` ab  c `. -/
theorem tokenizer_terminates_witness :
    (cstr (sampleEnvironment [32, 97, 98, 32, 32, 99, 32]).getValueFromName.2).length < 8 ∧
    ((∀ st : Tokenizer, st.wzPrefix.length = MAX_PREFIX_LENGTH →
      st.pStart ≤ (cstr (sampleEnvironment [32, 97, 98, 32, 32, 99, 32]).getValueFromName.2).length →
      charAt (sampleEnvironment [32, 97, 98, 32, 32, 99, 32]).getValueFromName.2 st.pStart ≠ 0 →
      ∃ e, tokenizeStep (sampleEnvironment [32, 97, 98, 32, 32, 99, 32])
          (sampleEnvironment [32, 97, 98, 32, 32, 99, 32]).getValueFromName.2 8 st = some e ∧
        st.pStart < e.state.pStart ∧
        e.state.pStart ≤
          (cstr (sampleEnvironment [32, 97, 98, 32, 32, 99, 32]).getValueFromName.2).length) ∧
    (∃ e, tokenizeLoop (sampleEnvironment [32, 97, 98, 32, 32, 99, 32])
        (sampleEnvironment [32, 97, 98, 32, 32, 99, 32]).getValueFromName.2 8 8
        (Tokenizer.entry (sampleEnvironment [32, 97, 98, 32, 32, 99, 32])) = some e ∧
      e.state.pStart ≤
        (cstr (sampleEnvironment [32, 97, 98, 32, 32, 99, 32]).getValueFromName.2).length)) :=
  ⟨by decide, tokenizer_terminates _ 8 (by decide)⟩

/-- C29. In `CMarkupVersion::startElement` every write `wzPrefix[nIndex]`, by
the copy loop or of the terminator, has `nIndex` at most
`MAX_PREFIX_LENGTH - 1`, and at each lookup the buffer of `MAX_PREFIX_LENGTH`
characters holds a terminator. -/
theorem wzPrefix_writes_in_bounds (env : Environment) (fuel : Nat)
    (hfuel : (cstr env.getValueFromName.2).length < fuel) :
    ∃ (hr : HRESULT) (st : Tokenizer),
      startElement env fuel = some (hr, st) ∧
      (∀ i ∈ st.writes, i ≤ MAX_PREFIX_LENGTH - 1) ∧
      (∀ b ∈ st.lookups, b.length = MAX_PREFIX_LENGTH ∧ 0 ∈ b ∧
        (cstr b).length ≤ MAX_PREFIX_LENGTH - 1) := by
  obtain ⟨hr, st, more, h1, _, _, _, h5, h6, _⟩ := startElement_spec env fuel hfuel
  refine ⟨hr, st, h1, h5, ?_⟩
  intro b hb
  obtain ⟨hl, h0⟩ := h6 b hb
  refine ⟨hl, h0, ?_⟩
  have hlt : (cstr b).length < b.length := by
    by_contra hge
    have hle : (cstr b).length ≤ b.length := by
      have hsum := congrArg List.length (List.takeWhile_append_dropWhile (fun c => c ≠ 0) b)
      rw [List.length_append] at hsum
      unfold cstr
      omega
    have heq : cstr b = b := by
      have := List.takeWhile_append_dropWhile (fun c => c ≠ 0) b
      have hd : (b.dropWhile (fun c => c ≠ 0)).length = 0 := by
        have hsum := congrArg List.length this
        rw [List.length_append] at hsum
        unfold cstr at hge hle
        omega
      unfold cstr
      rw [List.length_eq_zero.mp hd, List.append_nil] at this
      exact this
    have hmem : (0 : Nat) ∈ cstr b := by rw [heq]; exact h0
    have := List.mem_takeWhile_imp hmem
    simp at this
  show (cstr b).length ≤ 127
  have : b.length = 128 := hl
  omega

/-- Witness of C29: the value ` ab  c `. -/
theorem wzPrefix_writes_in_bounds_witness :
    (cstr (sampleEnvironment [32, 97, 98, 32, 32, 99, 32]).getValueFromName.2).length < 8 ∧
    ∃ (hr : HRESULT) (st : Tokenizer),
      startElement (sampleEnvironment [32, 97, 98, 32, 32, 99, 32]) 8 = some (hr, st) ∧
      (∀ i ∈ st.writes, i ≤ MAX_PREFIX_LENGTH - 1) ∧
      (∀ b ∈ st.lookups, b.length = MAX_PREFIX_LENGTH ∧ 0 ∈ b ∧
        (cstr b).length ≤ MAX_PREFIX_LENGTH - 1) :=
  ⟨by decide, wzPrefix_writes_in_bounds _ 8 (by decide)⟩

end WpfHost

/-! ## The fallback chain under overrides -/

namespace AutoParseTreeVisitor

/-- The default body of a leaf handler calls the family handler of the leaf. -/
theorem defaultBody_leaf (t : Taxonomy) (h : HandlerDecl) (hrole : h.role = Role.leaf) :
    defaultBody t h = some (t.familyBase h) := by
  simp [defaultBody, hrole]

/-- The default body of a family handler calls `VisitParseTreeNodeBase` or
`Default`. -/
theorem defaultBody_base (t : Taxonomy) (b : HandlerDecl) (hrole : b.role = Role.base) :
    defaultBody t b = some HandlerDecl.VisitParseTreeNodeBase ∨
      defaultBody t b = some HandlerDecl.Default := by
  by_cases hbn : b = HandlerDecl.VisitParseTreeNodeBase
  · right; subst hbn; rfl
  · by_cases hv : t.viaNodeBase b = true
    · left; simp [defaultBody, hrole, hbn, hv]
    · right; simp [defaultBody, hrole, hbn, hv]

/-- With no handler overridden the chain is the chain of the default bodies. -/
theorem visitChain_no_override (t : Taxonomy) : ∀ (fuel : Nat) (h : HandlerDecl),
    visitChain t (fun _ => false) fuel h = defaultChain t fuel h := by
  intro fuel
  induction fuel with
  | zero => intro h; rfl
  | succ fuel ih =>
    intro h
    cases hb : defaultBody t h with
    | none => simp [visitChain, defaultChain, hb]
    | some g => simp [visitChain, defaultChain, hb, ih]

/-- Two sets of overrides that agree on the handlers of a chain give the same
chain. -/
theorem visitChain_congr (t : Taxonomy) (ov ov₂ : HandlerDecl → Bool) :
    ∀ (fuel : Nat) (h : HandlerDecl),
    (∀ g ∈ visitChain t ov₂ fuel h, ov g = ov₂ g) →
    visitChain t ov fuel h = visitChain t ov₂ fuel h := by
  intro fuel
  induction fuel with
  | zero => intro h _; rfl
  | succ fuel ih =>
    intro h hag
    have hh : ov h = ov₂ h := hag h (by simp [visitChain])
    cases hov : ov₂ h with
    | true => simp [visitChain, hh, hov]
    | false =>
      cases hb : defaultBody t h with
      | none => simp [visitChain, hh, hov, hb]
      | some g =>
        have hrec := ih g (by
          intro x hx
          apply hag
          simp [visitChain, hov, hb, hx])
        simp [visitChain, hh, hov, hb, hrec]

/-- The chain of the default bodies from a family handler is the handler and
`Default`, with `VisitParseTreeNodeBase` between them or not. -/
theorem defaultChain_base_shape (t : Taxonomy) (b : HandlerDecl) (hrole : b.role = Role.base)
    (fuel : Nat) (hfuel : 3 ≤ fuel) :
    defaultChain t fuel b = [b, HandlerDecl.Default] ∨
      defaultChain t fuel b = [b, HandlerDecl.VisitParseTreeNodeBase, HandlerDecl.Default] := by
  obtain ⟨n, rfl⟩ := Nat.exists_eq_add_of_le hfuel
  have hdef : defaultBody t HandlerDecl.Default = none := rfl
  have hnode : defaultBody t HandlerDecl.VisitParseTreeNodeBase = some HandlerDecl.Default := rfl
  rw [show 3 + n = (n + 1) + 1 + 1 by omega]
  rcases defaultBody_base t b hrole with hb | hb
  · right; simp [defaultChain, hb, hnode, hdef]
  · left; simp [defaultChain, hb, hdef]

/-- The chain of the default bodies from a leaf handler. -/
theorem defaultChain_leaf (t : Taxonomy) (h : HandlerDecl) (hrole : h.role = Role.leaf)
    (fuel : Nat) :
    defaultChain t (fuel + 1) h = h :: defaultChain t fuel (t.familyBase h) := by
  simp [defaultChain, defaultBody_leaf t h hrole]

/-- A valid discriminant is dispatched to a leaf handler of the table. -/
theorem dispatch_ok (tag : Nat) (htag : tag < kindCount) :
    ∃ h : HandlerDecl, dispatch tag = .ok h ∧ h ∈ leafHandlers ∧ leafHandlers[tag]? = some h := by
  refine ⟨leafHandlers[tag], ?_, List.getElem_mem htag, List.getElem?_eq_getElem htag⟩
  unfold dispatch
  rw [List.getElem?_eq_getElem htag]

/-- Numbers that `distinctKeys` accepts are pairwise different. -/
theorem nodup_of_distinctKeys : ∀ l : List Nat, distinctKeys l = true → l.Nodup := by
  intro l
  induction l with
  | nil => intro _; exact List.nodup_nil
  | cons a l ih =>
    intro h
    simp only [distinctKeys, Bool.and_eq_true, Bool.not_eq_true'] at h
    have hnot : a ∉ l := by
      intro hmem
      have hc : l.contains a = true := by simpa using hmem
      rw [h.1] at hc
      exact absurd hc (by decide)
    exact List.nodup_cons.mpr ⟨hnot, ih h.2⟩

set_option maxRecDepth 1000000 in
/-- The names of the table, read as numbers, are pairwise different. -/
theorem handlerTable_keys_distinct :
    distinctKeys (handlerTable.map (fun d => nameKey d.name)) = true := by decide

/-- No two declarations of the table have the same name. -/
theorem handlerTable_names_nodup : (handlerTable.map HandlerDecl.name).Nodup := by
  have h := nodup_of_distinctKeys _ handlerTable_keys_distinct
  have hmap : handlerTable.map (fun d => nameKey d.name) =
      (handlerTable.map HandlerDecl.name).map nameKey := by
    rw [List.map_map]
    rfl
  rw [hmap] at h
  exact List.Nodup.of_map nameKey h

/-- No declaration occurs twice in the table. -/
theorem handlerTable_nodup : handlerTable.Nodup :=
  List.Nodup.of_map HandlerDecl.name handlerTable_names_nodup

/-- No leaf handler occurs twice: different kinds have different handlers. -/
theorem leafHandlers_nodup : leafHandlers.Nodup :=
  List.Nodup.filter _ handlerTable_nodup

set_option maxRecDepth 1000000 in
/-- Every family that the specification names has a handler `Visit…Base`. -/
theorem families_have_base : families.all (fun F => (baseHandlerOf F).isSome) = true := by
  decide

/-- The declarations with a given name, counted on the names. -/
theorem filter_name_length (s : String) : ∀ l : List HandlerDecl,
    (l.filter (fun d => d.name = s)).length = (l.map HandlerDecl.name).count s := by
  intro l
  induction l with
  | nil => rfl
  | cons d l ih =>
    by_cases hd : d.name = s
    · simp [List.filter_cons, hd, ih]
    · simp [List.filter_cons, hd, ih, List.count_cons]

/-- The search, from any state of the searcher: the matching nodes of the
traversal are added to those found before. -/
theorem SyntaxTree.searchFrom_eq (predicate : Nat → Bool) : ∀ (root : SyntaxTree)
    (found : List Nat),
    root.searchFrom predicate found = found ++ root.traversal.filter predicate := by
  intro root
  induction root with
  | empty => intro found; simp [SyntaxTree.searchFrom, SyntaxTree.traversal]
  | node id firstChild nextSibling ih₁ ih₂ =>
    intro found
    simp only [SyntaxTree.searchFrom, SyntaxTree.traversal, ih₁, ih₂]
    by_cases hp : predicate id = true
    · simp [hp, List.filter_cons]
    · simp [hp, List.filter_cons]

/-- From a handler that is not a leaf handler, the default bodies enter no
leaf handler. -/
theorem defaultChain_roles (t : Taxonomy) : ∀ (fuel : Nat) (g₀ : HandlerDecl),
    g₀.role ≠ Role.leaf → ∀ g ∈ defaultChain t fuel g₀, g.role ≠ Role.leaf := by
  intro fuel
  induction fuel with
  | zero => intro g₀ _ g hg; simp [defaultChain] at hg
  | succ fuel ih =>
    intro g₀ hr g hg
    cases hrole : g₀.role with
    | leaf => exact absurd hrole hr
    | universal =>
      have hb : defaultBody t g₀ = none := by simp [defaultBody, hrole]
      simp only [defaultChain, hb, List.mem_singleton] at hg
      rw [hg, hrole]
      decide
    | base =>
      simp only [defaultChain, List.mem_cons] at hg
      rcases hg with rfl | hg
      · rw [hrole]; decide
      · rcases defaultBody_base t g₀ hrole with hb | hb
        · rw [hb] at hg
          exact ih _ (by decide) g hg
        · rw [hb] at hg
          exact ih _ (by decide) g hg

/-- C11. Fallback chain, on the model of the default bodies and of overrides.
Every valid discriminant is dispatched to a leaf handler whose family handler
is declared, and: whatever else is overridden, when the leaf handler is not,
the handler entered next is the family handler of the leaf; and on a visitor
that overrides only one family handler `b` (other than the node-level
`VisitParseTreeNodeBase`), the node is intercepted by `b`, right after the leaf
handler, when the leaf is of the family of `b`, and `b` is never entered when
the leaf is of another family. -/
theorem fallback_chain_correct (t : Taxonomy) (ht : t.WellFormed) (tag : Nat)
    (htag : tag < kindCount) :
    ∃ h : HandlerDecl, dispatch tag = .ok h ∧ t.familyBase h ∈ baseHandlers ∧
      (∀ (overridden : HandlerDecl → Bool) (fuel : Nat), 2 ≤ fuel → overridden h = false →
        (visitChain t overridden fuel h)[1]? = some (t.familyBase h)) ∧
      (∀ b ∈ baseHandlers, b ≠ HandlerDecl.VisitParseTreeNodeBase → ∀ fuel : Nat, 4 ≤ fuel →
        (t.familyBase h = b → visitChain t (fun x => decide (x = b)) fuel h = [h, b]) ∧
        (t.familyBase h ≠ b → b ∉ visitChain t (fun x => decide (x = b)) fuel h)) := by
  obtain ⟨h, hd, hmem, _⟩ := dispatch_ok tag htag
  obtain ⟨_, hrole⟩ := mem_leafHandlers hmem
  have hfam := ht h hmem
  obtain ⟨_, hfrole⟩ := mem_baseHandlers hfam
  refine ⟨h, hd, hfam, ?_, ?_⟩
  · intro ov fuel hfuel hov
    obtain ⟨n, rfl⟩ := Nat.exists_eq_add_of_le hfuel
    rw [show 2 + n = (n + 1) + 1 by omega]
    simp [visitChain, hov, defaultBody_leaf t h hrole]
  · intro b hb hbn fuel hfuel
    obtain ⟨_, hbrole⟩ := mem_baseHandlers hb
    have hhb : h ≠ b := by
      intro e
      rw [e, hbrole] at hrole
      cases hrole
    have hbD : b ≠ HandlerDecl.Default := by
      intro e
      rw [e] at hbrole
      cases hbrole
    obtain ⟨n, rfl⟩ := Nat.exists_eq_add_of_le hfuel
    refine ⟨?_, ?_⟩
    · intro hf
      rw [show 4 + n = (n + 2) + 1 + 1 by omega]
      simp [visitChain, hhb, defaultBody_leaf t h hrole, hf]
    · intro hf
      have hnot : b ∉ defaultChain t (4 + n) h := by
        rw [show 4 + n = (3 + n) + 1 by omega, defaultChain_leaf t h hrole]
        intro hm
        rcases List.mem_cons.mp hm with e | hm
        · exact hhb e.symm
        · rcases defaultChain_base_shape t _ hfrole (3 + n) (by omega) with hs | hs
          · rw [hs] at hm
            simp only [List.mem_cons, List.mem_singleton, List.not_mem_nil, or_false] at hm
            rcases hm with e | e
            · exact hf e.symm
            · exact hbD e
          · rw [hs] at hm
            simp only [List.mem_cons, List.mem_singleton, List.not_mem_nil, or_false] at hm
            rcases hm with e | e | e
            · exact hf e.symm
            · exact hbn e
            · exact hbD e
      have hchain : visitChain t (fun x => decide (x = b)) (4 + n) h =
          defaultChain t (4 + n) h := by
        rw [← visitChain_no_override]
        apply visitChain_congr
        intro g hg
        rw [visitChain_no_override] at hg
        have : g ≠ b := fun e => hnot (e ▸ hg)
        simp [this]
      rw [hchain]
      exact hnot

set_option maxRecDepth 100000 in
/-- Witness of C11: the kind of `VisitPlusExpression` under the taxonomy read
off the parameter types. -/
theorem fallback_chain_correct_witness :
    (byParameterType.WellFormed ∧ 205 < kindCount) ∧
    ∃ h : HandlerDecl, dispatch 205 = .ok h ∧ byParameterType.familyBase h ∈ baseHandlers ∧
      (∀ (overridden : HandlerDecl → Bool) (fuel : Nat), 2 ≤ fuel → overridden h = false →
        (visitChain byParameterType overridden fuel h)[1]? =
          some (byParameterType.familyBase h)) ∧
      (∀ b ∈ baseHandlers, b ≠ HandlerDecl.VisitParseTreeNodeBase → ∀ fuel : Nat, 4 ≤ fuel →
        (byParameterType.familyBase h = b →
          visitChain byParameterType (fun x => decide (x = b)) fuel h = [h, b]) ∧
        (byParameterType.familyBase h ≠ b →
          b ∉ visitChain byParameterType (fun x => decide (x = b)) fuel h)) :=
  ⟨⟨byParameterType_wellFormed, by decide⟩,
    fallback_chain_correct byParameterType byParameterType_wellFormed 205 (by decide)⟩

/-- C12. Leaf handlers, on the model of the default bodies.  For every valid
discriminant, the default body of its leaf handler makes exactly one call; the
callee is the family handler of the leaf, a declared `Visit…Base` handler and
not `Default`; and the call passes the node on whatever the tree holds. -/
theorem leaf_default_is_one_call (t : Taxonomy) (ht : t.WellFormed) (tag : Nat)
    (htag : tag < kindCount) :
    ∃ h : HandlerDecl, dispatch tag = .ok h ∧ h.role = Role.leaf ∧
      defaultBody t h = some (t.familyBase h) ∧
      t.familyBase h ∈ baseHandlers ∧ (t.familyBase h).role = Role.base ∧
      t.familyBase h ≠ HandlerDecl.Default ∧
      ∀ (heap : Heap) (node : Ptr),
        defaultCalls t h heap node = [(t.familyBase h, node)] ∧
        (defaultCalls t h heap node).length = 1 := by
  obtain ⟨h, hd, hmem, _⟩ := dispatch_ok tag htag
  obtain ⟨_, hrole⟩ := mem_leafHandlers hmem
  have hfam := ht h hmem
  obtain ⟨_, hfrole⟩ := mem_baseHandlers hfam
  refine ⟨h, hd, hrole, defaultBody_leaf t h hrole, hfam, hfrole, ?_, ?_⟩
  · intro e
    rw [e] at hfrole
    cases hfrole
  · intro heap node
    simp [defaultCalls, defaultBody_leaf t h hrole]

set_option maxRecDepth 100000 in
/-- Witness of C12: the kind of `VisitPlusExpression`. -/
theorem leaf_default_is_one_call_witness :
    (byParameterType.WellFormed ∧ 205 < kindCount) ∧
    ∃ h : HandlerDecl, dispatch 205 = .ok h ∧ h.role = Role.leaf ∧
      defaultBody byParameterType h = some (byParameterType.familyBase h) ∧
      byParameterType.familyBase h ∈ baseHandlers ∧
      (byParameterType.familyBase h).role = Role.base ∧
      byParameterType.familyBase h ≠ HandlerDecl.Default ∧
      ∀ (heap : Heap) (node : Ptr),
        defaultCalls byParameterType h heap node = [(byParameterType.familyBase h, node)] ∧
        (defaultCalls byParameterType h heap node).length = 1 :=
  ⟨⟨byParameterType_wellFormed, by decide⟩,
    leaf_default_is_one_call byParameterType byParameterType_wellFormed 205 (by decide)⟩

/-- C13. Family handlers, on the model of the default bodies.  The default
body of every family handler calls `VisitParseTreeNodeBase` or `Default`; and
with no handler overridden, every valid discriminant is dispatched to a handler
from which the chain ends in `Default` and enters `Default` exactly once. -/
theorem base_handlers_reach_Default (t : Taxonomy) (ht : t.WellFormed) (tag : Nat)
    (htag : tag < kindCount) :
    (∀ b ∈ baseHandlers, defaultBody t b = some HandlerDecl.VisitParseTreeNodeBase ∨
      defaultBody t b = some HandlerDecl.Default) ∧
    ∃ h : HandlerDecl, dispatch tag = .ok h ∧ ∀ fuel : Nat, 4 ≤ fuel →
      visitChain t (fun _ => false) fuel h = defaultChain t fuel h ∧
      (defaultChain t fuel h).getLast? = some HandlerDecl.Default ∧
      (defaultChain t fuel h).count HandlerDecl.Default = 1 := by
  refine ⟨fun b hb => defaultBody_base t b (mem_baseHandlers hb).2, ?_⟩
  obtain ⟨h, hd, hmem, _⟩ := dispatch_ok tag htag
  obtain ⟨_, hrole⟩ := mem_leafHandlers hmem
  have hfam := ht h hmem
  obtain ⟨_, hfrole⟩ := mem_baseHandlers hfam
  have hhD : h ≠ HandlerDecl.Default := by
    intro e
    rw [e] at hrole
    cases hrole
  have hfD : t.familyBase h ≠ HandlerDecl.Default := by
    intro e
    rw [e] at hfrole
    cases hfrole
  have hND : HandlerDecl.VisitParseTreeNodeBase ≠ HandlerDecl.Default := by decide
  refine ⟨h, hd, ?_⟩
  intro fuel hfuel
  obtain ⟨n, rfl⟩ := Nat.exists_eq_add_of_le hfuel
  refine ⟨visitChain_no_override t _ h, ?_⟩
  rw [show 4 + n = (3 + n) + 1 by omega, defaultChain_leaf t h hrole]
  rcases defaultChain_base_shape t _ hfrole (3 + n) (by omega) with hs | hs
  · rw [hs]
    refine ⟨rfl, ?_⟩
    simp [List.count_cons, hhD, hfD]
  · rw [hs]
    refine ⟨rfl, ?_⟩
    simp [List.count_cons, hhD, hfD, hND]

set_option maxRecDepth 100000 in
/-- Witness of C13: the kind of `VisitPlusExpression`. -/
theorem base_handlers_reach_Default_witness :
    (byParameterType.WellFormed ∧ 205 < kindCount) ∧
    ((∀ b ∈ baseHandlers,
      defaultBody byParameterType b = some HandlerDecl.VisitParseTreeNodeBase ∨
      defaultBody byParameterType b = some HandlerDecl.Default) ∧
    ∃ h : HandlerDecl, dispatch 205 = .ok h ∧ ∀ fuel : Nat, 4 ≤ fuel →
      visitChain byParameterType (fun _ => false) fuel h = defaultChain byParameterType fuel h ∧
      (defaultChain byParameterType fuel h).getLast? = some HandlerDecl.Default ∧
      (defaultChain byParameterType fuel h).count HandlerDecl.Default = 1) :=
  ⟨⟨byParameterType_wellFormed, by decide⟩,
    base_handlers_reach_Default byParameterType byParameterType_wellFormed 205 (by decide)⟩

/-- C14. Override isolation, on the model of the default bodies and of
overrides.  Two different valid discriminants are dispatched to two different
leaf handlers, and a visitor that overrides only the leaf handler of the first
enters, for a node of the second, the same handlers in the same order as the
visitor that overrides nothing: the chain of the default bodies. -/
theorem override_isolation (t : Taxonomy) (ht : t.WellFormed) (i j : Nat)
    (hi : i < kindCount) (hj : j < kindCount) (hij : i ≠ j) :
    ∃ h₁ h₂ : HandlerDecl, dispatch i = .ok h₁ ∧ dispatch j = .ok h₂ ∧ h₁ ≠ h₂ ∧
      ∀ fuel : Nat,
        visitChain t (fun x => decide (x = h₁)) fuel h₂ =
          visitChain t (fun _ => false) fuel h₂ ∧
        visitChain t (fun _ => false) fuel h₂ = defaultChain t fuel h₂ := by
  obtain ⟨h₁, hd₁, hmem₁, hget₁⟩ := dispatch_ok i hi
  obtain ⟨h₂, hd₂, hmem₂, hget₂⟩ := dispatch_ok j hj
  obtain ⟨_, hrole₁⟩ := mem_leafHandlers hmem₁
  obtain ⟨_, hrole₂⟩ := mem_leafHandlers hmem₂
  have hne : h₁ ≠ h₂ := by
    intro e
    rw [List.getElem?_eq_getElem hi, Option.some.injEq] at hget₁
    rw [List.getElem?_eq_getElem hj, Option.some.injEq] at hget₂
    have : leafHandlers[i] = leafHandlers[j] := by rw [hget₁, hget₂, e]
    exact hij ((List.Nodup.getElem_inj_iff leafHandlers_nodup).mp this)
  refine ⟨h₁, h₂, hd₁, hd₂, hne, ?_⟩
  intro fuel
  refine ⟨?_, visitChain_no_override t fuel h₂⟩
  apply visitChain_congr
  intro g hg
  rw [visitChain_no_override] at hg
  have hg₁ : g ≠ h₁ := by
    intro e
    subst e
    cases fuel with
    | zero => simp [defaultChain] at hg
    | succ n =>
      rw [defaultChain_leaf t h₂ hrole₂] at hg
      rcases List.mem_cons.mp hg with e | hg
      · exact hne e
      · have hfrole := (mem_baseHandlers (ht h₂ hmem₂)).2
        exact defaultChain_roles t n _ (by rw [hfrole]; decide) g hg hrole₁
  simp [hg₁]

set_option maxRecDepth 100000 in
/-- Witness of C14: the kinds of `VisitPlusExpression` and of
`VisitMinusExpression`. -/
theorem override_isolation_witness :
    (byParameterType.WellFormed ∧ 205 < kindCount ∧ 206 < kindCount ∧ 205 ≠ 206) ∧
    ∃ h₁ h₂ : HandlerDecl, dispatch 205 = .ok h₁ ∧ dispatch 206 = .ok h₂ ∧ h₁ ≠ h₂ ∧
      ∀ fuel : Nat,
        visitChain byParameterType (fun x => decide (x = h₁)) fuel h₂ =
          visitChain byParameterType (fun _ => false) fuel h₂ ∧
        visitChain byParameterType (fun _ => false) fuel h₂ =
          defaultChain byParameterType fuel h₂ :=
  ⟨⟨byParameterType_wellFormed, by decide, by decide, by decide⟩,
    override_isolation byParameterType byParameterType_wellFormed 205 206 (by decide)
      (by decide) (by decide)⟩

/-- C15. Family entry points, on the model of the dispatch core.  For an entry
point whose declared discriminant set lies within the closed set, dispatch
raises the contract violation exactly for the discriminants outside the
declared set; a discriminant of the set is dispatched to a leaf handler, and
one outside it gives the error and no handler. -/
theorem dispatchVia_error_iff (valid : Nat → Bool)
    (hvalid : ∀ tag, valid tag = true → tag < kindCount) (tag : Nat) :
    (dispatchVia valid tag = .error .contractViolation ↔ valid tag = false) ∧
    (valid tag = true → ∃ h : HandlerDecl, dispatchVia valid tag = .ok h ∧ h ∈ leafHandlers) ∧
    (valid tag = false → ∀ h : HandlerDecl, dispatchVia valid tag ≠ .ok h) := by
  cases hv : valid tag with
  | false =>
    refine ⟨by simp [dispatchVia, hv], by simp, ?_⟩
    intro _ h
    simp [dispatchVia, hv]
  | true =>
    obtain ⟨h, hd, hmem, _⟩ := dispatch_ok tag (hvalid tag hv)
    refine ⟨?_, fun _ => ⟨h, by simp [dispatchVia, hv, hd], hmem⟩, by simp⟩
    simp [dispatchVia, hv, hd]

set_option maxRecDepth 100000 in
/-- Witness of C15: the entry point for the expressions with a binary
operator, at the kind of `VisitPlusExpression`. -/
theorem dispatchVia_error_iff_witness :
    (∀ tag, binaryExpressionKinds tag = true → tag < kindCount) ∧
    ((dispatchVia binaryExpressionKinds 205 = .error .contractViolation ↔
        binaryExpressionKinds 205 = false) ∧
      (binaryExpressionKinds 205 = true →
        ∃ h : HandlerDecl, dispatchVia binaryExpressionKinds 205 = .ok h ∧ h ∈ leafHandlers) ∧
      (binaryExpressionKinds 205 = false →
        ∀ h : HandlerDecl, dispatchVia binaryExpressionKinds 205 ≠ .ok h)) :=
  have hv : ∀ tag, binaryExpressionKinds tag = true → tag < kindCount := by
    intro tag h
    have hk : kindCount = 362 := by decide
    simp only [binaryExpressionKinds, decide_eq_true_eq] at h
    omega
  ⟨hv, dispatchVia_error_iff binaryExpressionKinds hv 205⟩

/-- C16. Search, on the model of the search utility.  `Search(root, predicate)`
returns the nodes of the traversal that match, in traversal order: as many as
there are matching nodes, a sublist of the traversal, and nothing when no node
matches. -/
theorem Search_returns_matches (root : SyntaxTree) (predicate : Nat → Bool) :
    Search root predicate = root.traversal.filter predicate ∧
    (Search root predicate).length = root.traversal.countP predicate ∧
    (Search root predicate).Sublist root.traversal ∧
    (∀ n ∈ Search root predicate, predicate n = true) ∧
    ((∀ n ∈ root.traversal, predicate n = false) → Search root predicate = []) := by
  have h : Search root predicate = root.traversal.filter predicate := by
    simp [Search, SyntaxTree.searchFrom_eq]
  rw [h]
  refine ⟨rfl, (List.countP_eq_length_filter _ _).symm, List.filter_sublist _, ?_, ?_⟩
  · intro n hn
    exact (List.mem_filter.mp hn).2
  · intro hno
    rw [List.filter_eq_nil_iff]
    intro a ha
    rw [hno a ha]
    decide

/-- C17. In the handler table of `AutoParseTreeVisitor` no two handlers have
the same name, and each of the 36 families that the specification names has
exactly one handler `Visit<Family>Base`, which is among the family handlers. -/
theorem families_have_one_base_handler :
    (handlerTable.map HandlerDecl.name).Nodup ∧ families.length = 36 ∧
    ∀ F ∈ families,
      (handlerTable.filter (fun d => d.name = "Visit" ++ F ++ "Base")).length = 1 ∧
      ∃ d ∈ baseHandlers, d.name = "Visit" ++ F ++ "Base" := by
  refine ⟨handlerTable_names_nodup, rfl, ?_⟩
  intro F hF
  have hall := List.all_eq_true.mp families_have_base F hF
  obtain ⟨d, hd⟩ := Option.isSome_iff_exists.mp hall
  have hdm : d ∈ baseHandlers := List.mem_of_find?_eq_some hd
  have hdn : d.name = "Visit" ++ F ++ "Base" := by
    have := List.find?_some hd
    simpa using this
  refine ⟨?_, d, hdm, hdn⟩
  rw [filter_name_length]
  apply List.count_eq_one_of_mem handlerTable_names_nodup
  rw [← hdn]
  exact List.mem_map_of_mem _ (mem_baseHandlers hdm).1

end AutoParseTreeVisitor
